import Mathlib

/-!
Verification development for the CPS (Critical Path Schedule) tool.

Instants are modelled as rational numbers of hours since an epoch that
falls on a Monday at 00:00, so `dayOf t = ⌊t / 24⌋` is the calendar day
and `(dayOf t) % 7` is the weekday index (0 = Monday .. 6 = Sunday),
matching Python's `datetime.weekday()`.  Python float durations and the
1e-9-hour tolerance used throughout `cps_tool/calendar.py` are embedded
as exact rationals.
-/

namespace CPS

/- Core `Rat` arithmetic is `@[irreducible]`, which blocks `decide` on
concrete rational computations; the kernel itself reduces it fine. -/
section
attribute [local semireducible] Rat.add Rat.mul Rat.sub Rat.inv

deriving instance DecidableEq for Except

set_option maxRecDepth 100000

/-- The 1e-9-hour tolerance used throughout the calendar code. -/
def eps : ℚ := 1 / 1000000000

/-- Calendar day of an instant (days since the Monday epoch). -/
def dayOf (t : ℚ) : ℤ := ⌊t / 24⌋

/-- Time of day, in hours, of an instant. -/
def todOf (t : ℚ) : ℚ := t - 24 * dayOf t

/-- `datetime.combine(day, time)`: instant at time-of-day `tod` on day `d`. -/
def combine (d : ℤ) (tod : ℚ) : ℚ := 24 * d + tod

/-- `date.weekday()`: 0 = Monday .. 6 = Sunday. -/
def weekdayOf (d : ℤ) : ℕ := (d % 7).toNat

/--
Embedding of `WorkCalendar` from `cps_tool/calendar.py`.  The invariant
`workday_start < workday_end` is enforced by `__post_init__`; the bounds
`0 ≤ workday_start` and `workday_end < 24` come from Python's `time`
type (a time of day is always inside one day).
-/
structure WorkCalendar where
  workday_start : ℚ
  workday_end : ℚ
  weekend_days : List ℕ
  h_start_nonneg : 0 ≤ workday_start
  h_start_lt_end : workday_start < workday_end
  h_end_lt : workday_end < 24

/-- Derived `hours_per_day` field. -/
def WorkCalendar.hours_per_day (c : WorkCalendar) : ℚ :=
  c.workday_end - c.workday_start

/-- The default calendar: workday 08:00-17:00, weekend Saturday/Sunday. -/
def defaultCalendar : WorkCalendar :=
  ⟨8, 17, [5, 6], by norm_num, by norm_num, by norm_num⟩

/--
Embedding of `WorkCalendar.__post_init__`: the only validation performed
is `workday_end > workday_start`; any `weekend_days` tuple is accepted.
The time-of-day bounds are a property of the Python `time` arguments,
not a check made by the constructor.
-/
def mkWorkCalendar (ws we : ℚ) (wk : List ℕ)
    (h1 : 0 ≤ ws) (h2 : ws < 24) (h3 : 0 ≤ we) (h4 : we < 24) :
    Except String WorkCalendar :=
  if h : we ≤ ws then .error "workday_end must be after workday_start"
  else .ok ⟨ws, we, wk, h1, lt_of_not_le h, h4⟩

/-- `d` is a weekend day of calendar `c`. -/
def isWeekend (c : WorkCalendar) (d : ℤ) : Bool :=
  c.weekend_days.contains (weekdayOf d)

/-- The calendar has at least one non-weekend weekday. -/
def hasWorkday (c : WorkCalendar) : Bool :=
  (List.range 7).any (fun k => ! c.weekend_days.contains k)

/--
Fuel-indexed search for the next non-weekend day at or after `d`
(the `while` loop of `_next_workday_start`); `none` means the fuel ran
out before a working day was found.
-/
def nwsF (c : WorkCalendar) : ℕ → ℤ → Option ℤ
  | 0, _ => none
  | fuel + 1, d => if isWeekend c d then nwsF c fuel (d + 1) else some d

/-- Mirror-image fuel-indexed search for `_previous_workday_end`. -/
def npwF (c : WorkCalendar) : ℕ → ℤ → Option ℤ
  | 0, _ => none
  | fuel + 1, d => if isWeekend c d then npwF c fuel (d - 1) else some d

/--
Total version of the day search.  For a calendar with at least one
working day the search succeeds within 7 steps (the 7 consecutive days
starting at `d` cover every weekday), so the default is never used then.
-/
def nextWorkdayD (c : WorkCalendar) (d : ℤ) : ℤ := (nwsF c 7 d).getD d

def prevWorkdayD (c : WorkCalendar) (d : ℤ) : ℤ := (npwF c 7 d).getD d

/-- `_next_workday_start`: start of the first working day at or after day `d`. -/
def next_workday_start (c : WorkCalendar) (d : ℤ) : ℚ :=
  combine (nextWorkdayD c d) c.workday_start

/-- `_previous_workday_end`: end of the last working day at or before day `d`. -/
def previous_workday_end (c : WorkCalendar) (d : ℤ) : ℚ :=
  combine (prevWorkdayD c d) c.workday_end

/-- `WorkCalendar.align_start`: move forward to the next available working time. -/
def align_start (c : WorkCalendar) (t : ℚ) : ℚ :=
  if isWeekend c (dayOf t) then next_workday_start c (dayOf t)
  else if c.workday_end ≤ todOf t then next_workday_start c (dayOf t + 1)
  else if todOf t < c.workday_start then combine (dayOf t) c.workday_start
  else t

/-- `WorkCalendar.align_finish`: move backwards to the previous available working time. -/
def align_finish (c : WorkCalendar) (t : ℚ) : ℚ :=
  if isWeekend c (dayOf t) then previous_workday_end c (dayOf t)
  else if todOf t < c.workday_start then combine (dayOf t) c.workday_start
  else if c.workday_end < todOf t then combine (dayOf t) c.workday_end
  else t

/--
The `while remaining > 1e-9` loop of `add_work_hours`, indexed by fuel.
The out-of-fuel result `current + remaining` is never reached when the
fuel is at least `⌈remaining / hours_per_day⌉ + 2` (each pass after the
first consumes a full working day).
-/
def addLoop (c : WorkCalendar) : ℕ → ℚ → ℚ → ℚ
  | 0, current, remaining => current + remaining
  | fuel + 1, current, remaining =>
    if eps < remaining then
      let day_end := combine (dayOf current) c.workday_end
      let available := day_end - current
      if remaining ≤ available + eps then current + remaining
      else addLoop c fuel (next_workday_start c (dayOf current + 1)) (remaining - available)
    else current

/-- The mirror loop of `subtract_work_hours`. -/
def subLoop (c : WorkCalendar) : ℕ → ℚ → ℚ → ℚ
  | 0, current, remaining => current - remaining
  | fuel + 1, current, remaining =>
    if eps < remaining then
      let day_start := combine (dayOf current) c.workday_start
      let available := current - day_start
      if remaining ≤ available + eps then current - remaining
      else subLoop c fuel (previous_workday_end c (dayOf current - 1)) (remaining - available)
    else current

/-- Fuel that always suffices for the hour-consuming loops. -/
def fuelFor (c : WorkCalendar) (h : ℚ) : ℕ :=
  (⌈h / c.hours_per_day⌉).toNat + 2

/-- `add_work_hours` for a positive hour count (the loop part). -/
def addPos (c : WorkCalendar) (start h : ℚ) : ℚ :=
  addLoop c (fuelFor c h) (align_start c start) h

/-- `subtract_work_hours` for a positive hour count (the loop part). -/
def subPos (c : WorkCalendar) (finish h : ℚ) : ℚ :=
  subLoop c (fuelFor c h) (align_finish c finish) h

/-- `WorkCalendar.add_work_hours`. -/
def add_work_hours (c : WorkCalendar) (start h : ℚ) : ℚ :=
  if |h| < eps then align_start c start
  else if h < 0 then subPos c start (-h)
  else addPos c start h

/-- `WorkCalendar.subtract_work_hours`. -/
def subtract_work_hours (c : WorkCalendar) (finish h : ℚ) : ℚ :=
  if |h| < eps then align_finish c finish
  else if h < 0 then addPos c finish (-h)
  else subPos c finish h

/-- `WorkCalendar.add_work_duration` (duration expressed in working days). -/
def add_work_duration (c : WorkCalendar) (start duration_days : ℚ) : ℚ :=
  if |duration_days| < eps then align_start c start
  else add_work_hours c start (duration_days * c.hours_per_day)

/-- `WorkCalendar.subtract_work_duration`. -/
def subtract_work_duration (c : WorkCalendar) (finish duration_days : ℚ) : ℚ :=
  if |duration_days| < eps then align_finish c finish
  else subtract_work_hours c finish (duration_days * c.hours_per_day)

/--
The remainder loop of `_count_workdays_between`: count non-weekend days
among `day, day+1, .., day+r-1`.
-/
def countRemainder (c : WorkCalendar) : ℕ → ℤ → ℤ
  | 0, _ => 0
  | r + 1, day => (if isWeekend c day then 0 else 1) + countRemainder c r (day + 1)

/-- `_count_workdays_between`: working days in the half-open interval `[a, b)`. -/
def count_workdays_between (c : WorkCalendar) (a b : ℤ) : ℤ :=
  if b ≤ a then 0
  else
    let total := b - a
    let full_weeks := total / 7
    let remainder := total % 7
    full_weeks * (7 - c.weekend_days.dedup.length) +
      countRemainder c remainder.toNat (a + full_weeks * 7)

/-- `WorkCalendar.work_hours_between`. -/
def work_hours_between (c : WorkCalendar) (start finish : ℚ) : ℚ :=
  if finish ≤ start then 0
  else
    let current := align_start c start
    let e := align_finish c finish
    if e ≤ current then 0
    else if dayOf current = dayOf e then e - current
    else
      let first := combine (dayOf current) c.workday_end - current
      let middle := (count_workdays_between c (dayOf current + 1) (dayOf e) : ℚ) *
        c.hours_per_day
      let last := e - combine (dayOf e) c.workday_start
      first + middle + last

/-!
## Partiality-aware layer

The Python loops `while next_day.weekday() in self.weekend_days` and
`while remaining > 1e-9` can run forever (the former whenever every
weekday is a weekend day).  The `Option`-valued functions below make
that observable: a run of the code terminates precisely when some fuel
makes the fuelled embedding return `some`.  The day search inside is
capped at 7 because, when a working day exists at all, the search always
succeeds within 7 steps; when none exists, `nwsF`/`npwF` return `none`
for every fuel.
-/

/-- `align_start`, exposing non-termination of the day search. -/
def alignStartO (c : WorkCalendar) (t : ℚ) : Option ℚ :=
  if isWeekend c (dayOf t) then
    (nwsF c 7 (dayOf t)).map (fun d => combine d c.workday_start)
  else if c.workday_end ≤ todOf t then
    (nwsF c 7 (dayOf t + 1)).map (fun d => combine d c.workday_start)
  else if todOf t < c.workday_start then some (combine (dayOf t) c.workday_start)
  else some t

/-- `align_finish`, exposing non-termination of the day search. -/
def alignFinishO (c : WorkCalendar) (t : ℚ) : Option ℚ :=
  if isWeekend c (dayOf t) then
    (npwF c 7 (dayOf t)).map (fun d => combine d c.workday_end)
  else if todOf t < c.workday_start then some (combine (dayOf t) c.workday_start)
  else if c.workday_end < todOf t then some (combine (dayOf t) c.workday_end)
  else some t

/-- The `add_work_hours` loop with observable non-termination. -/
def addLoopO (c : WorkCalendar) : ℕ → ℚ → ℚ → Option ℚ
  | 0, _, _ => none
  | fuel + 1, current, remaining =>
    if eps < remaining then
      let day_end := combine (dayOf current) c.workday_end
      let available := day_end - current
      if remaining ≤ available + eps then some (current + remaining)
      else
        (nwsF c 7 (dayOf current + 1)).bind (fun d =>
          addLoopO c fuel (combine d c.workday_start) (remaining - available))
    else some current

/-- The `subtract_work_hours` loop with observable non-termination. -/
def subLoopO (c : WorkCalendar) : ℕ → ℚ → ℚ → Option ℚ
  | 0, _, _ => none
  | fuel + 1, current, remaining =>
    if eps < remaining then
      let day_start := combine (dayOf current) c.workday_start
      let available := current - day_start
      if remaining ≤ available + eps then some (current - remaining)
      else
        (npwF c 7 (dayOf current - 1)).bind (fun d =>
          subLoopO c fuel (combine d c.workday_end) (remaining - available))
    else some current

/-- `add_work_hours` with observable non-termination (`fuel` bounds the loop). -/
def addWorkHoursO (c : WorkCalendar) (start h : ℚ) (fuel : ℕ) : Option ℚ :=
  if |h| < eps then alignStartO c start
  else if h < 0 then (alignFinishO c start).bind (fun a => subLoopO c fuel a (-h))
  else (alignStartO c start).bind (fun a => addLoopO c fuel a h)

/-- `subtract_work_hours` with observable non-termination. -/
def subWorkHoursO (c : WorkCalendar) (finish h : ℚ) (fuel : ℕ) : Option ℚ :=
  if |h| < eps then alignFinishO c finish
  else if h < 0 then (alignStartO c finish).bind (fun a => addLoopO c fuel a (-h))
  else (alignFinishO c finish).bind (fun a => subLoopO c fuel a h)

/-- `work_hours_between` with observable non-termination. -/
def workHoursBetweenO (c : WorkCalendar) (start finish : ℚ) : Option ℚ :=
  if finish ≤ start then some 0
  else
    (alignStartO c start).bind (fun current =>
      (alignFinishO c finish).map (fun e =>
        if e ≤ current then 0
        else if dayOf current = dayOf e then e - current
        else
          (combine (dayOf current) c.workday_end - current) +
            (count_workdays_between c (dayOf current + 1) (dayOf e) : ℚ) *
              c.hours_per_day +
            (e - combine (dayOf e) c.workday_start)))

/-!
## Data model (`cps_tool/models.py`)

Python datetimes in task fields are embedded as rationals (hours since
the Monday epoch), durations and lags as rationals.
-/

/-- `DependencySpec` from `cps_tool/models.py`. -/
structure DependencySpec where
  predecessor_uid : ℤ
  relation_type : String := "FS"
  lag_days : ℚ := 0
  deriving DecidableEq, Repr

/-- `TaskSpec` from `cps_tool/models.py`. -/
structure TaskSpec where
  uid : ℤ
  name : String
  duration_days : ℚ
  dependencies : List DependencySpec := []
  is_milestone : Bool := false
  outline_level : Option ℤ := none
  constraint_type : Option String := none
  constraint_date : Option ℚ := none
  calendar_name : Option String := none
  original_start : Option ℚ := none
  original_finish : Option ℚ := none
  deriving DecidableEq, Repr

/-- `CycleResolution` from `cps_tool/models.py`. -/
structure CycleResolution where
  cycle_task_uids : List ℤ
  cycle_task_names : List String
  removed_from_task_uid : ℤ
  removed_from_task_name : String
  removed_dependency : DependencySpec
  deriving DecidableEq, Repr

/-- `DependencyIssue` from `cps_tool/models.py`. -/
structure DependencyIssue where
  task_uid : ℤ
  task_name : String
  dependency : DependencySpec
  reason : String
  deriving DecidableEq, Repr

/-- `ScheduledTask` from `cps_tool/models.py`.  The mutable fields are
updated functionally by the backward pass. -/
structure ScheduledTask where
  spec : TaskSpec
  earliest_start : ℚ
  earliest_finish : ℚ
  latest_start : ℚ
  latest_finish : ℚ
  total_float_hours : ℚ
  deriving DecidableEq, Repr

/-- `ScheduleResult` from `cps_tool/models.py`.  The `cycle_adjusted_csv`
path (an adapter-side file artifact) is not modelled. -/
structure ScheduleResult where
  project_start : ℚ
  project_finish : ℚ
  tasks : List ScheduledTask
  cycle_resolutions : List CycleResolution := []
  dependency_issues : List DependencyIssue := []
  deriving DecidableEq, Repr

/-- Python `str.upper()`, character by character. -/
def pyUpper (s : String) : String := ⟨s.data.map Char.toUpper⟩

/-- `(relation_type or "FS").upper()`: empty strings are falsy in Python. -/
def relUpper (s : String) : String :=
  if s = "" then "FS" else pyUpper s

/-- All `uid`s of a task list, in order. -/
def uidsOf (tasks : List TaskSpec) : List ℤ := tasks.map TaskSpec.uid

/-!
## Graph normalizer (`cps_tool/calculator.py`)
-/

/--
`_ensure_task_lookup`: fails on the first duplicated uid, then on an
empty task set; the dict itself is recovered from the task list by
`lookupTask` below.
-/
def ensureTaskLookup (tasks : List TaskSpec) : Except String Unit :=
  go tasks []
where
  go : List TaskSpec → List ℤ → Except String Unit
    | [], seen => if seen.isEmpty then .error "No tasks were provided for CPS calculation." else .ok ()
    | t :: ts, seen =>
      if t.uid ∈ seen then .error ("Duplicate task UID detected: " ++ toString t.uid)
      else go ts (t.uid :: seen)

/-- Dictionary access `lookup[uid]` for a task list with unique uids. -/
def lookupTask (tasks : List TaskSpec) (uid : ℤ) : Option TaskSpec :=
  tasks.find? (fun t => t.uid = uid)

/-- Dictionary access for `{task.uid: task for task in tasks}`: when uids
repeat, the comprehension keeps the LAST task with a given uid. -/
def lookupTaskLast (tasks : List TaskSpec) (uid : ℤ) : Option TaskSpec :=
  tasks.reverse.find? (fun t => t.uid = uid)

/-- `_clone_tasks`: a defensive deep copy of the dependency lists. -/
def clone_tasks (tasks : List TaskSpec) : List TaskSpec :=
  tasks.map (fun t =>
    { t with dependencies :=
        t.dependencies.map (fun d => ⟨d.predecessor_uid, d.relation_type, d.lag_days⟩) })

/-- `_remove_missing_dependencies`: prune deps whose predecessor uid is
absent, and report one `DependencyIssue` per pruned dependency. -/
def remove_missing_dependencies (tasks : List TaskSpec) (uids : List ℤ) :
    List TaskSpec × List DependencyIssue :=
  (tasks.map (fun t =>
      { t with dependencies := t.dependencies.filter (fun d => d.predecessor_uid ∈ uids) }),
   tasks.flatMap (fun t =>
      (t.dependencies.filter (fun d => ¬ d.predecessor_uid ∈ uids)).map (fun d =>
        { task_uid := t.uid, task_name := t.name,
          dependency := ⟨d.predecessor_uid, d.relation_type, d.lag_days⟩,
          reason := "Missing predecessor task" })))

/-- `_build_successors` read off at a single key: `successors[uid]` lists
`(task.uid, dependency)` for every dependency on predecessor `uid`, in
task order then dependency order. -/
def successorsOf (tasks : List TaskSpec) (uid : ℤ) : List (ℤ × DependencySpec) :=
  tasks.flatMap (fun t =>
    t.dependencies.filterMap (fun d =>
      if d.predecessor_uid = uid then some (t.uid, d) else none))

/-- Total number of dependency edges in the task list. -/
def totalDeps (tasks : List TaskSpec) : ℕ :=
  (tasks.map (fun t => t.dependencies.length)).sum

/-- A cycle report of `_find_cycle`: the cycle path, the uid of the task
owning the closing dependency, and that dependency. -/
abbrev CycleInfo := List ℤ × ℤ × DependencySpec

/-- State of the iterative DFS in `_find_cycle`.  The traversal stack
holds `(uid, iterator)` pairs with the top of the Python stack at the
HEAD of the list; `path` keeps Python's order (root first, top last). -/
structure DfsState where
  stack : List (ℤ × List (ℤ × DependencySpec))
  path : List ℤ
  visited : List ℤ
  onStack : List ℤ

/--
The `while traversal_stack` loop of `_find_cycle`, fuel-indexed.
`some (.error info)` is the back-edge return, `some (.ok visited)` is
normal loop exit, `none` means the fuel ran out (never reached for the
fuel chosen below).
-/
def dfsWhile (tasks : List TaskSpec) : ℕ → DfsState → Option (Except CycleInfo (List ℤ))
  | 0, _ => none
  | fuel + 1, st =>
    match st.stack with
    | [] => some (.ok st.visited)
    | (u, it) :: rest =>
      match it with
      | [] =>
        dfsWhile tasks fuel ⟨rest, st.path.dropLast, st.visited, st.onStack.erase u⟩
      | (w, d) :: it2 =>
        if w ∈ st.visited then
          if w ∈ st.onStack then
            let start := if w ∈ st.path then st.path.indexOf w else 0
            some (.error (st.path.drop start ++ [w], w, d))
          else dfsWhile tasks fuel ⟨(u, it2) :: rest, st.path, st.visited, st.onStack⟩
        else
          dfsWhile tasks fuel
            ⟨(w, successorsOf tasks w) :: (u, it2) :: rest,
              st.path ++ [w], w :: st.visited, w :: st.onStack⟩

/-- Iterator elements remaining on the DFS stack. -/
def dfsIterSizes (st : DfsState) : ℕ := (st.stack.map (fun p => p.2.length)).sum

/-- Number of distinct task uids not yet visited. -/
def dfsUnvisited (tasks : List TaskSpec) (visited : List ℤ) : ℕ :=
  ((uidsOf tasks).dedup.filter (fun u => ¬ u ∈ visited)).length

/-- Strictly decreasing measure for the DFS loop. -/
def dfsMeasure (tasks : List TaskSpec) (st : DfsState) : ℕ :=
  dfsUnvisited tasks st.visited * (totalDeps tasks + 2) + dfsIterSizes st +
    st.stack.length

/-- The DFS loop run with provably sufficient fuel. -/
def dfsRun (tasks : List TaskSpec) (st : DfsState) : Except CycleInfo (List ℤ) :=
  (dfsWhile tasks (dfsMeasure tasks st + 1) st).getD (.ok st.visited)

/-- The initial state of a DFS run rooted at `t` (root pushed, marked
visited and on-stack). -/
def dfsInit (tasks : List TaskSpec) (t : TaskSpec) (visited : List ℤ) : DfsState :=
  ⟨[(t.uid, successorsOf tasks t.uid)], [t.uid], t.uid :: visited, [t.uid]⟩

/-- The outer `for task in tasks` loop of `_find_cycle`. -/
def findCycleAux (tasks : List TaskSpec) : List TaskSpec → List ℤ → Option CycleInfo
  | [], _ => none
  | t :: rest, visited =>
    if t.uid ∈ visited then findCycleAux tasks rest visited
    else
      match dfsRun tasks (dfsInit tasks t visited) with
      | .error info => some info
      | .ok visited2 => findCycleAux tasks rest visited2

/-- `_find_cycle`. -/
def find_cycle (tasks : List TaskSpec) : Option CycleInfo :=
  findCycleAux tasks tasks []

/-- The dependency-equality rule used when removing the closing edge:
same predecessor, same normalized relation, lag within 1e-9. -/
def dependencyMatches (existing target : DependencySpec) : Bool :=
  existing.predecessor_uid = target.predecessor_uid &&
  relUpper existing.relation_type = relUpper target.relation_type &&
  |existing.lag_days - target.lag_days| < eps

/-- Remove the first dependency matching `target`; returns the removed
dependency (copied, as the Python code does) and the remaining list. -/
def removeFirstMatch : List DependencySpec → DependencySpec →
    Option (DependencySpec × List DependencySpec)
  | [], _ => none
  | e :: es, target =>
    if dependencyMatches e target then
      some (⟨e.predecessor_uid, e.relation_type, e.lag_days⟩, es)
    else (removeFirstMatch es target).map (fun p => (p.1, e :: p.2))

/-- Replace the dependency list of the FIRST task with uid `su` in `l`. -/
def updateFirstAux (su : ℤ) (deps : List DependencySpec) : List TaskSpec → List TaskSpec
  | [] => []
  | t :: ts =>
    if t.uid = su then { t with dependencies := deps } :: ts
    else t :: updateFirstAux su deps ts

/-- In-place mutation of `lookup[su].dependencies`: the dict keeps the
LAST task with a repeated uid, so the last occurrence is updated. -/
def updateLastTask (tasks : List TaskSpec) (su : ℤ) (deps : List DependencySpec) :
    List TaskSpec :=
  (updateFirstAux su deps tasks.reverse).reverse

/-- `f"Task {uid}"` fallback names for a cycle. -/
def cycleNames (tasks : List TaskSpec) (uids : List ℤ) : List String :=
  uids.map (fun uid =>
    match lookupTaskLast tasks uid with
    | some t => t.name
    | none => "Task " ++ toString uid)

/-- The `while True` loop of `_resolve_cycles`, fuel-indexed; `none`
means the fuel ran out (each pass removes one dependency, so
`totalDeps + 1` always suffices). -/
def resolveLoop : ℕ → List TaskSpec → Option (List TaskSpec × List CycleResolution)
  | 0, _ => none
  | fuel + 1, tasks =>
    match find_cycle tasks with
    | none => some (tasks, [])
    | some (cycleUids, su, dep) =>
      match lookupTaskLast tasks su with
      | none => some (tasks, [])
      | some stask =>
        match removeFirstMatch stask.dependencies dep with
        | none => some (tasks, [])
        | some (removed, newDeps) =>
          let res : CycleResolution :=
            ⟨cycleUids, cycleNames tasks cycleUids, stask.uid, stask.name, removed⟩
          (resolveLoop fuel (updateLastTask tasks su newDeps)).map
            (fun p => (p.1, res :: p.2))

/-- `_resolve_cycles` (the CSV side-artifact is not modelled). -/
def resolve_cycles (tasks : List TaskSpec) : List TaskSpec × List CycleResolution :=
  if tasks.isEmpty then (tasks, [])
  else (resolveLoop (totalDeps tasks + 1) tasks).getD (tasks, [])

/-!
### Topological order (`_topological_order`, Kahn + min-heap)
-/

/-- Keys of a Python dict built by repeated insertion: first-occurrence
order. -/
def dictKeys (l : List ℤ) : List ℤ :=
  l.foldl (fun acc u => if u ∈ acc then acc else acc ++ [u]) []

/-- Initial indegree: one per dependency of every task with that uid. -/
def indegInit (tasks : List TaskSpec) : ℤ → ℤ := fun u =>
  ((tasks.filter (fun t => t.uid = u)).map (fun t => (t.dependencies.length : ℤ))).sum

/-- The minimum of a ready list (what `heapq.heappop` returns). -/
def listMin : List ℤ → Option ℤ
  | [] => none
  | x :: xs => some (xs.foldl min x)

/-- One edge-processing step of the Kahn loop body. -/
def kahnStep (p : (ℤ → ℤ) × List ℤ) (pr : ℤ × DependencySpec) : (ℤ → ℤ) × List ℤ :=
  let newVal := p.1 pr.1 - 1
  let ind2 : ℤ → ℤ := fun u => if u = pr.1 then newVal else p.1 u
  if newVal = 0 then (ind2, p.2 ++ [pr.1]) else (ind2, p.2)

/-- The `while ready` loop of `_topological_order`, fuel-indexed; out of
fuel it returns the order built so far (never reached for the fuel
chosen in `topological_order`). -/
def kahnLoop (tasks : List TaskSpec) : ℕ → (ℤ → ℤ) → List ℤ → List ℤ → List ℤ
  | 0, _, _, order => order
  | fuel + 1, indeg, ready, order =>
    match listMin ready with
    | none => order
    | some m =>
      let after := (successorsOf tasks m).foldl kahnStep (indeg, ready.erase m)
      kahnLoop tasks fuel after.1 after.2 (order ++ [m])

/-- Fuel that always suffices for the Kahn loop. -/
def kahnFuel (tasks : List TaskSpec) (indeg : ℤ → ℤ) (ready : List ℤ) : ℕ :=
  ready.length + ((dictKeys (uidsOf tasks)).map (fun u => (indeg u).toNat)).sum + 1

/-- `_topological_order`. -/
def topological_order (tasks : List TaskSpec) : Except String (List ℤ) :=
  let indeg0 := indegInit tasks
  let ready0 := (dictKeys (uidsOf tasks)).filter (fun u => indeg0 u = 0)
  let order := kahnLoop tasks (kahnFuel tasks indeg0 ready0) indeg0 ready0 []
  if order.length = tasks.length then .ok order
  else .error "Unable to establish a valid task ordering (cycle detected)."

/-!
### Forward and backward pass, `calculate_schedule`
-/

/-- `_infer_project_start`. -/
def infer_project_start (tasks : List TaskSpec) : Option ℚ :=
  match tasks.flatMap (fun t => t.constraint_date.toList ++ t.original_start.toList) with
  | [] => none
  | x :: xs => some (xs.foldl min x)

/-- Python `min(nonempty list)` / `max(nonempty list)`; empty input is
the `ValueError` Python raises. -/
def minimumOfList : List ℚ → Except String ℚ
  | [] => .error "min() arg is an empty sequence"
  | x :: xs => .ok (xs.foldl min x)

def maximumOfList : List ℚ → Except String ℚ
  | [] => .error "max() arg is an empty sequence"
  | x :: xs => .ok (xs.foldl max x)

/-- Evaluate a list of fallible computations left to right (a Python
list comprehension over expressions that may raise). -/
def mapE (f : α → Except String β) : List α → Except String (List β)
  | [] => .ok []
  | a :: l => (f a).bind (fun b => (mapE f l).map (fun bs => b :: bs))

/-- `_apply_constraints`. -/
def apply_constraints (spec : TaskSpec) (start finish : ℚ) (c : WorkCalendar) : ℚ × ℚ :=
  let ctype := pyUpper (spec.constraint_type.getD "")
  match spec.constraint_date with
  | none => (start, finish)
  | some cdate =>
    if ctype = "MUST_START_ON" ∨ ctype = "MSO" then
      let s := align_start c cdate
      (s, add_work_duration c s spec.duration_days)
    else if ctype = "START_NO_EARLIER_THAN" ∨ ctype = "SNET" then
      let s := max start (align_start c cdate)
      (s, add_work_duration c s spec.duration_days)
    else if ctype = "MUST_FINISH_ON" ∨ ctype = "MFO" then
      let f := align_finish c cdate
      (subtract_work_duration c f spec.duration_days, f)
    else if ctype = "FINISH_NO_EARLIER_THAN" ∨ ctype = "FNET" then
      let fc := align_finish c cdate
      let s := max start (subtract_work_duration c fc spec.duration_days)
      (s, add_work_duration c s spec.duration_days)
    else (start, finish)

/-- One dependency merge inside the forward pass. -/
def depMerge (c : WorkCalendar) (spec : TaskSpec)
    (scheduled : List (ℤ × ScheduledTask)) (p : ℚ × ℚ) (d : DependencySpec) :
    Except String (ℚ × ℚ) :=
  match List.lookup d.predecessor_uid scheduled with
  | none =>
    .error ("Task " ++ toString spec.uid ++ " references missing predecessor " ++
      toString d.predecessor_uid ++ ".")
  | some pred =>
    let rel := relUpper d.relation_type
    if rel = "FS" then
      let cand := add_work_duration c pred.earliest_finish d.lag_days
      let s := max p.1 (align_start c cand)
      .ok (s, add_work_duration c s spec.duration_days)
    else if rel = "SS" then
      let cand := add_work_duration c pred.earliest_start d.lag_days
      let s := max p.1 (align_start c cand)
      .ok (s, add_work_duration c s spec.duration_days)
    else if rel = "FF" then
      let cf := align_finish c (add_work_duration c pred.earliest_finish d.lag_days)
      let s := align_start c (subtract_work_duration c cf spec.duration_days)
      .ok (s, add_work_duration c s spec.duration_days)
    else if rel = "SF" then
      let cf := align_finish c (add_work_duration c pred.earliest_start d.lag_days)
      let s := align_start c (subtract_work_duration c cf spec.duration_days)
      .ok (s, add_work_duration c s spec.duration_days)
    else .error ("Unsupported dependency type: " ++ d.relation_type)

/-- Scheduling of one task in the forward pass. -/
def forwardTask (c : WorkCalendar) (spec : TaskSpec)
    (scheduled : List (ℤ × ScheduledTask)) (project_start : ℚ) :
    Except String ScheduledTask :=
  let s0 := align_start c project_start
  let f0 := add_work_duration c s0 spec.duration_days
  (spec.dependencies.foldlM (depMerge c spec scheduled) (s0, f0)).map (fun p =>
    let sf := apply_constraints spec p.1 p.2 c
    ⟨spec, sf.1, sf.2, sf.1, sf.2, 0⟩)

/-- The scheduling loop of `_forward_pass`. -/
def forwardGo (c : WorkCalendar) (tasks : List TaskSpec) (project_start : ℚ) :
    List ℤ → List (ℤ × ScheduledTask) → Except String (List (ℤ × ScheduledTask))
  | [], acc => .ok acc
  | uid :: rest, acc =>
    match lookupTask tasks uid with
    | none => .error ("KeyError: " ++ toString uid)
    | some spec =>
      (forwardTask c spec acc project_start).bind (fun st =>
        forwardGo c tasks project_start rest (acc ++ [(uid, st)]))

/-- `_forward_pass`: `tasks` is the uid → task dict. -/
def forward_pass (c : WorkCalendar) (order : List ℤ) (tasks : List TaskSpec)
    (project_start : ℚ) : Except String (List (ℤ × ScheduledTask)) :=
  forwardGo c tasks project_start order []

/-- Update one entry of the scheduled dict. -/
def updateSched (scheduled : List (ℤ × ScheduledTask)) (uid : ℤ)
    (f : ScheduledTask → ScheduledTask) : List (ℤ × ScheduledTask) :=
  scheduled.map (fun p => if p.1 = uid then (p.1, f p.2) else p)

/-- One successor's `candidate_finish` in the backward pass. -/
def bwCandidate (c : WorkCalendar) (task : ScheduledTask)
    (scheduled : List (ℤ × ScheduledTask)) (pr : ℤ × DependencySpec) :
    Except String ℚ :=
  match List.lookup pr.1 scheduled with
  | none => .error ("KeyError: " ++ toString pr.1)
  | some succ =>
    let rel := relUpper pr.2.relation_type
    let cf :=
      if rel = "FS" then subtract_work_duration c succ.latest_start pr.2.lag_days
      else if rel = "SS" then
        add_work_duration c (subtract_work_duration c succ.latest_start pr.2.lag_days)
          task.spec.duration_days
      else if rel = "FF" then subtract_work_duration c succ.latest_finish pr.2.lag_days
      else if rel = "SF" then
        add_work_duration c (subtract_work_duration c succ.latest_finish pr.2.lag_days)
          task.spec.duration_days
      else subtract_work_duration c succ.latest_start pr.2.lag_days
    .ok (align_finish c cf)

/-- `_backward_pass` body for one task. -/
def backwardTask (c : WorkCalendar) (tasks : List TaskSpec)
    (sch : List (ℤ × ScheduledTask)) (project_finish : ℚ) (uid : ℤ) :
    Except String (List (ℤ × ScheduledTask)) :=
  match List.lookup uid sch with
  | none => .error ("KeyError: " ++ toString uid)
  | some task =>
    let records := successorsOf tasks uid
    (if records.isEmpty then .ok project_finish
     else (mapE (bwCandidate c task sch) records).bind minimumOfList).map
      (fun limit =>
        let ls := align_start c (subtract_work_duration c limit task.spec.duration_days)
        let lf := min (add_work_duration c ls task.spec.duration_days) limit
        let tf := work_hours_between c task.earliest_start ls
        updateSched sch uid (fun t =>
          { t with latest_start := ls, latest_finish := lf, total_float_hours := tf }))

/-- The update loop of `_backward_pass` (reverse topological order). -/
def backwardGo (c : WorkCalendar) (tasks : List TaskSpec) (pf : ℚ) :
    List ℤ → List (ℤ × ScheduledTask) → Except String (List (ℤ × ScheduledTask))
  | [], sch => .ok sch
  | uid :: rest, sch =>
    (backwardTask c tasks sch pf uid).bind (backwardGo c tasks pf rest)

/-- `_backward_pass`. -/
def backward_pass (c : WorkCalendar) (order : List ℤ) (tasks : List TaskSpec)
    (scheduled : List (ℤ × ScheduledTask)) :
    Except String (List (ℤ × ScheduledTask)) :=
  (maximumOfList (scheduled.map (fun p => p.2.earliest_finish))).bind (fun pf =>
    backwardGo c tasks pf order.reverse scheduled)

/-- `calculate_schedule`.  `now` stands for `datetime.now()`, used only
when no project start is given and none can be inferred. -/
def calculate_schedule (task_specs : List TaskSpec) (project_start : Option ℚ)
    (calendar : Option WorkCalendar) (now : ℚ) : Except String ScheduleResult :=
  let tasks0 := clone_tasks task_specs
  (ensureTaskLookup tasks0).bind (fun _ =>
    let uids := uidsOf tasks0
    let pruned := remove_missing_dependencies tasks0 uids
    let resolved := resolve_cycles pruned.1
    let tasks2 := resolved.1
    (topological_order tasks2).bind (fun order =>
      let c := calendar.getD defaultCalendar
      let ps := align_start c (project_start.getD ((infer_project_start tasks2).getD now))
      (forward_pass c order tasks2 ps).bind (fun sched1 =>
        (backward_pass c order tasks2 sched1).bind (fun sched2 =>
          (maximumOfList (sched2.map (fun p => p.2.latest_finish))).bind (fun pf =>
            (mapE (fun uid =>
                match List.lookup uid sched2 with
                | some t => Except.ok t
                | none => Except.error ("KeyError: " ++ toString uid)) order).map
              (fun ordered =>
                { project_start := ps, project_finish := pf, tasks := ordered,
                  cycle_resolutions := resolved.2,
                  dependency_issues := pruned.2 }))))))

/-- `ScheduledTask.is_critical`. -/
def is_critical (t : ScheduledTask) : Bool := |t.total_float_hours| < 1 / 10000

/-!
### Divergence on an all-weekend calendar
-/

/-- The calendar in which all seven weekdays are weekend days; the
constructor accepts it (it only checks `workday_end > workday_start`). -/
def allWeekendCalendar : WorkCalendar :=
  ⟨8, 17, [0, 1, 2, 3, 4, 5, 6], by norm_num, by norm_num, by norm_num⟩

/-!
## The forward-pass finish invariant (`earliest_finish` vs duration)
-/

/-- The task carries an effective Must-Finish-On constraint (the only
branch of `_apply_constraints` that does not recompute the finish as
`add_work_duration(start, duration)`). -/
def isMFO (spec : TaskSpec) : Prop :=
  spec.constraint_date.isSome ∧
  (pyUpper (spec.constraint_type.getD "") = "MUST_FINISH_ON" ∨
   pyUpper (spec.constraint_type.getD "") = "MFO")

instance (spec : TaskSpec) : Decidable (isMFO spec) := by
  unfold isMFO; infer_instance

/-- Fields preserved by the backward pass. -/
def EsEfPreserved (p q : ℤ × ScheduledTask) : Prop :=
  p.1 = q.1 ∧ p.2.spec = q.2.spec ∧
  p.2.earliest_start = q.2.earliest_start ∧ p.2.earliest_finish = q.2.earliest_finish

/-!
## The dependency graph
-/

/-- `Edge tasks p s`: some task with uid `s` has a dependency on
predecessor `p` (the successor adjacency used by the DFS). -/
def Edge (tasks : List TaskSpec) (p s : ℤ) : Prop :=
  s ∈ (successorsOf tasks p).map Prod.fst

instance (tasks : List TaskSpec) (p s : ℤ) : Decidable (Edge tasks p s) := by
  unfold Edge; infer_instance

/-- No uid lies on a dependency cycle. -/
def Acyclic (tasks : List TaskSpec) : Prop :=
  ∀ v : ℤ, ¬ Relation.TransGen (Edge tasks) v v

/-!
## DFS correctness
-/

/-- Every iterator on the DFS stack is a suffix of the successor list of
its uid. -/
def SuffixInv (tasks : List TaskSpec) (st : DfsState) : Prop :=
  ∀ p ∈ st.stack, ∃ pre, successorsOf tasks p.1 = pre ++ p.2

/-- Scanned edges of every stack entry point to finished (`bl`) vertices
or to vertices higher on the stack (`above`). -/
def StackInv (tasks : List TaskSpec) (bl : List ℤ) :
    List (ℤ × List (ℤ × DependencySpec)) → List ℤ → Prop
  | [], _ => True
  | (u, it) :: rest, above =>
    (∃ pre, successorsOf tasks u = pre ++ it ∧
      ∀ pr ∈ pre, pr.1 ∈ bl ∨ pr.1 ∈ above) ∧
    StackInv tasks bl rest (u :: above)

/-- Prefix-closedness of the finish list: every successor of a finished
vertex finished strictly earlier. -/
def BlFrom (tasks : List TaskSpec) : List ℤ → List ℤ → Prop
  | _, [] => True
  | seen, u :: rest =>
    (∀ pr ∈ successorsOf tasks u, pr.1 ∈ seen) ∧
    BlFrom tasks (u :: seen) rest

def BlClosed (tasks : List TaskSpec) (bl : List ℤ) : Prop := BlFrom tasks [] bl

/-- Full invariant of the DFS while loop. -/
structure DfsInv (tasks : List TaskSpec) (bl : List ℤ) (st : DfsState) : Prop where
  hpath : st.path = (st.stack.map Prod.fst).reverse
  hpathnd : st.path.Nodup
  honstack : ∀ u, u ∈ st.onStack ↔ u ∈ st.path
  hosnd : st.onStack.Nodup
  hvis : ∀ u, u ∈ st.visited ↔ (u ∈ bl ∨ u ∈ st.path)
  hdisj : ∀ u ∈ bl, u ∉ st.path
  hblnd : bl.Nodup
  hblcl : BlClosed tasks bl
  hstack : StackInv tasks bl st.stack []
  hblmem : ∀ u ∈ bl, u ∈ uidsOf tasks
  hpathmem : ∀ u ∈ st.path, u ∈ uidsOf tasks

/-!
## Kahn's algorithm (`_topological_order`)
-/

/-- Dependencies of tasks with uid `u` whose predecessor has not been
emitted yet: the value `indegree[u]` maintains during the loop. -/
def remCount (tasks : List TaskSpec) (order : List ℤ) (u : ℤ) : ℤ :=
  ((tasks.filter (fun t => t.uid = u)).map
    (fun t => ((t.dependencies.filter
      (fun d => ¬ d.predecessor_uid ∈ order)).length : ℤ))).sum

/-- Number of edges in `P` targeting `u`. -/
def countTarget (P : List (ℤ × DependencySpec)) (u : ℤ) : ℤ :=
  ((P.filter (fun pr => pr.1 = u)).length : ℤ)

structure KInv (tasks : List TaskSpec) (indeg : ℤ → ℤ) (ready order : List ℤ) :
    Prop where
  ord_nodup : order.Nodup
  rdy_nodup : ready.Nodup
  disj : ∀ u ∈ ready, u ∉ order
  ord_sub : ∀ u ∈ order, u ∈ uidsOf tasks
  rdy_sub : ∀ u ∈ ready, u ∈ uidsOf tasks
  ind_eq : ∀ u : ℤ, indeg u = remCount tasks order u
  rdy_iff : ∀ u ∈ uidsOf tasks, u ∉ order →
    (u ∈ ready ↔ remCount tasks order u = 0)
  prec : ∀ t ∈ tasks, t.uid ∈ order → ∀ d ∈ t.dependencies,
    d.predecessor_uid ∈ order ∧
    order.indexOf d.predecessor_uid < order.indexOf t.uid

/-!
## `parse_duration` (`src/cps_scheduler.py`)

`text.strip()`, the single trailing `?` trim, `.lower()` and the anchored
regex `([0-9]*\.?[0-9]+)\s*(e?)(d|w|mo|h)` are modelled directly on the
character list of the input; `float` is modelled exactly as ℚ.
-/

/-- Python `str.strip()` on a character list. -/
def pyStrip (cs : List Char) : List Char :=
  ((cs.dropWhile Char.isWhitespace).reverse.dropWhile Char.isWhitespace).reverse

/-- Decimal value of a digit list (what `float` sees before the point). -/
def digitsVal (ds : List Char) : ℕ :=
  ds.foldl (fun acc c => 10 * acc + (c.toNat - '0'.toNat)) 0

/-- `parse_duration` from `src/cps_scheduler.py`:
`WORK_HOURS_PER_DAY = 8`, `WORK_DAYS_PER_WEEK = 5`,
`WORK_DAYS_PER_MONTH = 20`. -/
def parse_duration (value : String) : Except String ℚ :=
  let text0 := pyStrip value.data
  if text0 = [] then .error "Empty duration string."
  else
    let text1 := if text0.getLast? = some '?' then text0.dropLast else text0
    let t := text1.map Char.toLower
    let ds1 := t.takeWhile Char.isDigit
    let r1 := t.dropWhile Char.isDigit
    let numOpt : Option (ℚ × List Char) :=
      match r1 with
      | '.' :: r2 =>
        let ds2 := r2.takeWhile Char.isDigit
        let r3 := r2.dropWhile Char.isDigit
        if ds2 = [] then none
        else some ((digitsVal (ds1 ++ ds2) : ℚ) / (10 : ℚ) ^ ds2.length, r3)
      | _ => if ds1 = [] then none else some ((digitsVal ds1 : ℚ), r1)
    match numOpt with
    | none => .error ("Invalid duration string: '" ++ value ++ "'")
    | some (mag, rest) =>
      let rest2 := rest.dropWhile Char.isWhitespace
      let rest3 := match rest2 with
        | 'e' :: r => r
        | _ => rest2
      if rest3 = ['h'] then .ok mag
      else if rest3 = ['d'] then .ok (mag * 8)
      else if rest3 = ['w'] then .ok (mag * (5 * 8))
      else if rest3 = ['m', 'o'] then .ok (mag * (20 * 8))
      else .error ("Invalid duration string: '" ++ value ++ "'")

/-- The ten decimal digit characters. -/
def digitChars : List Char := ['0', '1', '2', '3', '4', '5', '6', '7', '8', '9']

/-!
## Object-store model of `_clone_tasks` (`cps_tool/calculator.py`)

Python mutates `TaskSpec` objects only through `task.dependencies = ...`
assignments (lines 56 and 219 of `calculator.py`).  The heap is modelled
as a list of `TaskSpec` cells addressed by position; `_clone_tasks`
appends one fresh copy per input reference, and a field assignment is a
`List.set` at the written reference.
-/

instance : Inhabited TaskSpec :=
  ⟨⟨0, "", 0, [], false, none, none, none, none, none, none⟩⟩

/-- `_clone_tasks` on the object store: each loop iteration allocates a
fresh cell holding a field-for-field copy (with a rebuilt dependency
list) of the referenced task, and records the fresh reference. -/
def clone_tasks_store (store : List TaskSpec) (refs : List ℕ) :
    List TaskSpec × List ℕ :=
  refs.foldl (fun p r =>
    let t := p.1.getD r default
    (p.1 ++ [{ t with dependencies :=
        t.dependencies.map (fun d => ⟨d.predecessor_uid, d.relation_type, d.lag_days⟩) }],
     p.2 ++ [p.1.length]))
    (store, [])

/-- A `task.dependencies = deps` assignment on the object store. -/
def setDeps (store : List TaskSpec) (r : ℕ) (deps : List DependencySpec) :
    List TaskSpec :=
  store.set r { store.getD r default with dependencies := deps }

/-!
## Concrete fixtures for the claims
-/

/-- A single zero-duration task with a Must-Finish-On date of Saturday
10:00 (hour 130 of the week). -/
def mfoTask : TaskSpec :=
  ⟨1, "T1", 0, [], false, none, some "MFO", some 130, none, none, none⟩

/-- One plain task (no constraints, no dependencies). -/
def w1tasks : List TaskSpec :=
  [⟨1, "T1", 1, [], false, none, none, none, none, none, none⟩]

/-- The schedule of `w1tasks` from Monday 08:00. -/
def rW : ScheduleResult :=
  ⟨8, 17, [⟨⟨1, "T1", 1, [], false, none, none, none, none, none, none⟩,
    8, 17, 8, 17, 0⟩], [], []⟩

/-- A successor pinned by Must-Start-On to the project start, conflicting
with its finish-to-start dependency on `T1`. -/
def c2tasks : List TaskSpec :=
  [⟨1, "T1", 1, [], false, none, none, none, none, none, none⟩,
   ⟨2, "T2", 1, [⟨1, "FS", 0⟩], false, none, some "MSO", some 8, none, none, none⟩]

/-- The start-to-start scenario of the spec with a 0.25-day lag. -/
def c3tasks : List TaskSpec :=
  [⟨1, "T1", 1, [], false, none, none, none, none, none, none⟩,
   ⟨2, "T2", 1, [⟨1, "SS", 1/4⟩], false, none, none, none, none, none, none⟩]

/-- A cyclic pair sharing uid 1 with a third task: the duplicated uid
defeats the cycle-resolution lookup. -/
def c4dup : List TaskSpec :=
  [⟨1, "A", 1, [⟨2, "FS", 0⟩], false, none, none, none, none, none, none⟩,
   ⟨1, "B", 1, [], false, none, none, none, none, none, none⟩,
   ⟨2, "C", 1, [⟨1, "FS", 0⟩], false, none, none, none, none, none, none⟩]

/-- A plain two-task dependency cycle. -/
def c4cyc : List TaskSpec :=
  [⟨1, "A", 1, [⟨2, "FS", 0⟩], false, none, none, none, none, none, none⟩,
   ⟨2, "B", 1, [⟨1, "FS", 0⟩], false, none, none, none, none, none, none⟩]

/-- An acyclic two-task chain. -/
def w5tasks : List TaskSpec :=
  [⟨1, "T1", 1, [], false, none, none, none, none, none, none⟩,
   ⟨2, "T2", 1, [⟨1, "FS", 0⟩], false, none, none, none, none, none, none⟩]

/-- One missing predecessor (uid 99) and one two-task cycle. -/
def c6tasks : List TaskSpec :=
  [⟨1, "T1", 1, [⟨99, "FS", 0⟩], false, none, none, none, none, none, none⟩,
   ⟨2, "T2", 1, [⟨3, "FS", 0⟩], false, none, none, none, none, none, none⟩,
   ⟨3, "T3", 1, [⟨2, "FS", 0⟩], false, none, none, none, none, none, none⟩]

/-- A dependency with the unsupported relation type `"XX"`. -/
def c6bad : List TaskSpec :=
  [⟨1, "T1", 1, [], false, none, none, none, none, none, none⟩,
   ⟨2, "T2", 1, [⟨1, "XX", 0⟩], false, none, none, none, none, none, none⟩]

/-!
## Theorems
-/

theorem todOf_nonneg (t : ℚ) : 0 ≤ todOf t := by
  have h := Int.sub_one_lt_iff.mpr (le_refl ⌊t / 24⌋)
  have h2 : (⌊t / 24⌋ : ℚ) ≤ t / 24 := Int.floor_le _
  have : (24 : ℚ) * ⌊t / 24⌋ ≤ t := by
    have := mul_le_mul_of_nonneg_left h2 (by norm_num : (0:ℚ) ≤ 24)
    calc (24 : ℚ) * ⌊t / 24⌋ ≤ 24 * (t / 24) := this
    _ = t := by ring
  simpa [todOf, dayOf, sub_nonneg] using this

theorem todOf_lt (t : ℚ) : todOf t < 24 := by
  have h2 : t / 24 < ⌊t / 24⌋ + 1 := Int.lt_floor_add_one _
  have : t < 24 * (⌊t / 24⌋ + 1) := by
    have := mul_lt_mul_of_pos_left h2 (by norm_num : (0:ℚ) < 24)
    calc t = 24 * (t / 24) := by ring
    _ < 24 * ((⌊t / 24⌋ : ℚ) + 1) := this
  have : t - 24 * ⌊t / 24⌋ < 24 := by linarith
  simpa [todOf, dayOf] using this

theorem combine_day_tod (t : ℚ) : combine (dayOf t) (todOf t) = t := by
  simp [combine, todOf]

theorem dayOf_combine (d : ℤ) (tod : ℚ) (h0 : 0 ≤ tod) (h24 : tod < 24) :
    dayOf (combine d tod) = d := by
  unfold dayOf combine
  rw [Int.floor_eq_iff]
  constructor
  · rw [le_div_iff (by norm_num : (0:ℚ) < 24)]
    push_cast
    linarith
  · rw [div_lt_iff (by norm_num : (0:ℚ) < 24)]
    push_cast
    linarith

theorem todOf_combine (d : ℤ) (tod : ℚ) (h0 : 0 ≤ tod) (h24 : tod < 24) :
    todOf (combine d tod) = tod := by
  unfold todOf
  rw [dayOf_combine d tod h0 h24]
  unfold combine
  ring

theorem combine_lt_combine_of_day_lt {d1 d2 : ℤ} (t1 t2 : ℚ)
    (h0 : 0 ≤ t1) (h24 : t1 < 24) (h0' : 0 ≤ t2) (h24' : t2 < 24)
    (hd : d1 < d2) : combine d1 t1 < combine d2 t2 := by
  unfold combine
  have : (d1 : ℚ) + 1 ≤ (d2 : ℚ) := by exact_mod_cast hd
  nlinarith

theorem clone_tasks_eq (tasks : List TaskSpec) : clone_tasks tasks = tasks := by
  unfold clone_tasks
  have : ∀ t : TaskSpec,
      ({ t with dependencies :=
          t.dependencies.map (fun d => ⟨d.predecessor_uid, d.relation_type, d.lag_days⟩) }
        : TaskSpec) = t := by
    intro t
    have hdeps : t.dependencies.map
        (fun d : DependencySpec => (⟨d.predecessor_uid, d.relation_type, d.lag_days⟩ : DependencySpec))
        = t.dependencies := by
      apply List.map_id'
    rw [hdeps]
  rw [List.map_congr_left (fun t _ => this t)]
  exact List.map_id _

/-!
## Calendar lemmas
-/

theorem hours_per_day_pos (c : WorkCalendar) : 0 < c.hours_per_day :=
  sub_pos.mpr c.h_start_lt_end

theorem weekdayOf_lt (d : ℤ) : weekdayOf d < 7 := by
  unfold weekdayOf
  have h1 : 0 ≤ d % 7 := Int.emod_nonneg d (by norm_num)
  have h2 : d % 7 < 7 := Int.emod_lt_of_pos d (by norm_num)
  omega

theorem exists_nonweekend_near {c : WorkCalendar} (hW : hasWorkday c = true) (d : ℤ) :
    ∃ j : ℕ, j < 7 ∧ isWeekend c (d + j) = false := by
  have hk : ∃ k ∈ List.range 7, ! c.weekend_days.contains k := by
    simpa [hasWorkday, List.any_eq_true] using hW
  obtain ⟨k, hk7, hknw⟩ := hk
  have hk7' : k < 7 := List.mem_range.mp hk7
  refine ⟨(((k : ℤ) - d) % 7).toNat, ?_, ?_⟩
  · have h1 : 0 ≤ ((k : ℤ) - d) % 7 := Int.emod_nonneg _ (by norm_num)
    have h2 : ((k : ℤ) - d) % 7 < 7 := Int.emod_lt_of_pos _ (by norm_num)
    omega
  · have h1 : 0 ≤ ((k : ℤ) - d) % 7 := Int.emod_nonneg _ (by norm_num)
    have hcast : ((((k : ℤ) - d) % 7).toNat : ℤ) = ((k : ℤ) - d) % 7 :=
      Int.toNat_of_nonneg h1
    have hmod : (d + ((k : ℤ) - d) % 7) % 7 = (k : ℤ) % 7 := by
      conv_lhs => rw [Int.add_emod]
      rw [Int.emod_emod_of_dvd _ (dvd_refl 7), ← Int.add_emod]
      norm_num
    have hk' : (k : ℤ) % 7 = (k : ℤ) := by
      apply Int.emod_eq_of_lt (by positivity)
      exact_mod_cast hk7'
    have hwd : weekdayOf (d + ((((k : ℤ) - d) % 7).toNat : ℤ)) = k := by
      unfold weekdayOf
      rw [hcast, hmod, hk']
      exact Int.toNat_natCast k
    unfold isWeekend
    rw [hwd]
    simpa using hknw

theorem nwsF_succeeds {c : WorkCalendar} :
    ∀ (n : ℕ) (d : ℤ), (∃ j : ℕ, j < n ∧ isWeekend c (d + j) = false) →
    ∃ d2, nwsF c n d = some d2 ∧ isWeekend c d2 = false ∧ d ≤ d2 := by
  intro n
  induction n with
  | zero => intro d ⟨j, hj, _⟩; omega
  | succ n ih =>
    intro d ⟨j, hj, hjw⟩
    by_cases hd : isWeekend c d
    · have hj0 : j ≠ 0 := by
        intro h
        rw [h] at hjw
        simp at hjw
        rw [hjw] at hd
        simp at hd
      obtain ⟨d2, h1, h2, h3⟩ := ih (d + 1) ⟨j - 1, by omega, by
        have : d + 1 + ((j - 1 : ℕ) : ℤ) = d + (j : ℤ) := by
          have : ((j - 1 : ℕ) : ℤ) = (j : ℤ) - 1 := by omega
          rw [this]; ring
        rw [this]; exact hjw⟩
      exact ⟨d2, by simp [nwsF, hd, h1], h2, by omega⟩
    · exact ⟨d, by simp [nwsF, hd], by simpa using hd, le_refl d⟩

theorem npwF_succeeds {c : WorkCalendar} :
    ∀ (n : ℕ) (d : ℤ), (∃ j : ℕ, j < n ∧ isWeekend c (d - j) = false) →
    ∃ d2, npwF c n d = some d2 ∧ isWeekend c d2 = false ∧ d2 ≤ d := by
  intro n
  induction n with
  | zero => intro d ⟨j, hj, _⟩; omega
  | succ n ih =>
    intro d ⟨j, hj, hjw⟩
    by_cases hd : isWeekend c d
    · have hj0 : j ≠ 0 := by
        intro h
        rw [h] at hjw
        simp at hjw
        rw [hjw] at hd
        simp at hd
      obtain ⟨d2, h1, h2, h3⟩ := ih (d - 1) ⟨j - 1, by omega, by
        have : d - 1 - ((j - 1 : ℕ) : ℤ) = d - (j : ℤ) := by
          have : ((j - 1 : ℕ) : ℤ) = (j : ℤ) - 1 := by omega
          rw [this]; ring
        rw [this]; exact hjw⟩
      exact ⟨d2, by simp [npwF, hd, h1], h2, by omega⟩
    · exact ⟨d, by simp [npwF, hd], by simpa using hd, le_refl d⟩

theorem exists_nonweekend_near_down {c : WorkCalendar} (hW : hasWorkday c = true)
    (d : ℤ) : ∃ j : ℕ, j < 7 ∧ isWeekend c (d - j) = false := by
  obtain ⟨j, hj, hjw⟩ := exists_nonweekend_near hW (d - 6)
  refine ⟨6 - j, by omega, ?_⟩
  have : d - ((6 - j : ℕ) : ℤ) = d - 6 + j := by omega
  rw [this]
  exact hjw

theorem nws7_eq {c : WorkCalendar} (hW : hasWorkday c = true) (d : ℤ) :
    nwsF c 7 d = some (nextWorkdayD c d) := by
  obtain ⟨d2, h1, _, _⟩ := nwsF_succeeds 7 d (exists_nonweekend_near hW d)
  rw [nextWorkdayD, h1]
  rfl

theorem npw7_eq {c : WorkCalendar} (hW : hasWorkday c = true) (d : ℤ) :
    npwF c 7 d = some (prevWorkdayD c d) := by
  obtain ⟨d2, h1, _, _⟩ := npwF_succeeds 7 d (exists_nonweekend_near_down hW d)
  rw [prevWorkdayD, h1]
  rfl

theorem nextWorkdayD_not_weekend {c : WorkCalendar} (hW : hasWorkday c = true)
    (d : ℤ) : isWeekend c (nextWorkdayD c d) = false := by
  obtain ⟨d2, h1, h2, _⟩ := nwsF_succeeds 7 d (exists_nonweekend_near hW d)
  rw [nextWorkdayD, h1]
  exact h2

theorem nextWorkdayD_ge {c : WorkCalendar} (hW : hasWorkday c = true) (d : ℤ) :
    d ≤ nextWorkdayD c d := by
  obtain ⟨d2, h1, _, h3⟩ := nwsF_succeeds 7 d (exists_nonweekend_near hW d)
  rw [nextWorkdayD, h1]
  exact h3

theorem prevWorkdayD_not_weekend {c : WorkCalendar} (hW : hasWorkday c = true)
    (d : ℤ) : isWeekend c (prevWorkdayD c d) = false := by
  obtain ⟨d2, h1, h2, _⟩ := npwF_succeeds 7 d (exists_nonweekend_near_down hW d)
  rw [prevWorkdayD, h1]
  exact h2

/-- Time-of-day facts about `next_workday_start`. -/
theorem next_workday_start_spec {c : WorkCalendar} (hW : hasWorkday c = true)
    (d : ℤ) : dayOf (next_workday_start c d) = nextWorkdayD c d ∧
      todOf (next_workday_start c d) = c.workday_start := by
  have h0 : (0 : ℚ) ≤ c.workday_start := c.h_start_nonneg
  have h24 : c.workday_start < 24 :=
    lt_trans c.h_start_lt_end c.h_end_lt
  exact ⟨dayOf_combine _ _ h0 h24, todOf_combine _ _ h0 h24⟩

theorem previous_workday_end_spec {c : WorkCalendar} (hW : hasWorkday c = true)
    (d : ℤ) : dayOf (previous_workday_end c d) = prevWorkdayD c d ∧
      todOf (previous_workday_end c d) = c.workday_end := by
  have h0 : (0 : ℚ) ≤ c.workday_end :=
    le_trans c.h_start_nonneg (le_of_lt c.h_start_lt_end)
  exact ⟨dayOf_combine _ _ h0 c.h_end_lt, todOf_combine _ _ h0 c.h_end_lt⟩

/-- `align_start` always lands on a working instant strictly before the
end of a working day. -/
theorem align_start_spec {c : WorkCalendar} (hW : hasWorkday c = true) (t : ℚ) :
    isWeekend c (dayOf (align_start c t)) = false ∧
    c.workday_start ≤ todOf (align_start c t) ∧
    todOf (align_start c t) < c.workday_end := by
  have h0 : (0 : ℚ) ≤ c.workday_start := c.h_start_nonneg
  have h24 : c.workday_start < 24 := lt_trans c.h_start_lt_end c.h_end_lt
  unfold align_start
  by_cases hw : isWeekend c (dayOf t)
  · simp only [hw, if_true]
    rw [(next_workday_start_spec hW _).1, (next_workday_start_spec hW _).2]
    exact ⟨nextWorkdayD_not_weekend hW _, le_refl _, c.h_start_lt_end⟩
  · simp only [hw, Bool.false_eq_true, if_false]
    by_cases he : c.workday_end ≤ todOf t
    · simp only [he, if_true]
      rw [(next_workday_start_spec hW _).1, (next_workday_start_spec hW _).2]
      exact ⟨nextWorkdayD_not_weekend hW _, le_refl _, c.h_start_lt_end⟩
    · simp only [he, if_false]
      by_cases hs : todOf t < c.workday_start
      · simp only [hs, if_true]
        rw [dayOf_combine _ _ h0 h24, todOf_combine _ _ h0 h24]
        exact ⟨by simpa using hw, le_refl _, c.h_start_lt_end⟩
      · simp only [hs, if_false]
        exact ⟨by simpa using hw, le_of_not_lt hs, lt_of_not_le he⟩

/-- `align_finish` always lands on a working instant no earlier than the
start of a working day. -/
theorem align_finish_spec {c : WorkCalendar} (hW : hasWorkday c = true) (t : ℚ) :
    isWeekend c (dayOf (align_finish c t)) = false ∧
    c.workday_start ≤ todOf (align_finish c t) ∧
    todOf (align_finish c t) ≤ c.workday_end := by
  have h0 : (0 : ℚ) ≤ c.workday_start := c.h_start_nonneg
  have h24 : c.workday_start < 24 := lt_trans c.h_start_lt_end c.h_end_lt
  have h0e : (0 : ℚ) ≤ c.workday_end := le_trans h0 (le_of_lt c.h_start_lt_end)
  unfold align_finish
  by_cases hw : isWeekend c (dayOf t)
  · simp only [hw, if_true]
    rw [(previous_workday_end_spec hW _).1, (previous_workday_end_spec hW _).2]
    exact ⟨prevWorkdayD_not_weekend hW _, le_of_lt c.h_start_lt_end, le_refl _⟩
  · simp only [hw, Bool.false_eq_true, if_false]
    by_cases hs : todOf t < c.workday_start
    · simp only [hs, if_true]
      rw [dayOf_combine _ _ h0 h24, todOf_combine _ _ h0 h24]
      exact ⟨by simpa using hw, le_refl _, le_of_lt c.h_start_lt_end⟩
    · simp only [hs, if_false]
      by_cases he : c.workday_end < todOf t
      · simp only [he, if_true]
        rw [dayOf_combine _ _ h0e c.h_end_lt, todOf_combine _ _ h0e c.h_end_lt]
        exact ⟨by simpa using hw, le_of_lt c.h_start_lt_end, le_refl _⟩
      · simp only [he, if_false]
        exact ⟨by simpa using hw, le_of_not_lt hs, le_of_not_lt he⟩

/-- A working instant is a fixed point of `align_start`. -/
theorem align_start_fixed {c : WorkCalendar} (t : ℚ)
    (hw : isWeekend c (dayOf t) = false) (hs : c.workday_start ≤ todOf t)
    (he : todOf t < c.workday_end) : align_start c t = t := by
  unfold align_start
  simp [hw, not_le.mpr he, not_lt.mpr hs]

/-- A working instant (start-aligned form) is a fixed point of `align_finish`. -/
theorem align_finish_fixed {c : WorkCalendar} (t : ℚ)
    (hw : isWeekend c (dayOf t) = false) (hs : c.workday_start ≤ todOf t)
    (he : todOf t ≤ c.workday_end) : align_finish c t = t := by
  unfold align_finish
  simp [hw, not_lt.mpr he, not_lt.mpr hs]

theorem align_finish_align_start {c : WorkCalendar} (hW : hasWorkday c = true)
    (t : ℚ) : align_finish c (align_start c t) = align_start c t := by
  obtain ⟨h1, h2, h3⟩ := align_start_spec hW t
  exact align_finish_fixed _ h1 h2 (le_of_lt h3)

/-!
### Bridging the partiality-aware layer to the total layer
-/

theorem alignStartO_eq {c : WorkCalendar} (hW : hasWorkday c = true) (t : ℚ) :
    alignStartO c t = some (align_start c t) := by
  unfold alignStartO align_start next_workday_start
  by_cases hw : isWeekend c (dayOf t)
  · simp [hw, nws7_eq hW]
  · by_cases he : c.workday_end ≤ todOf t
    · simp [hw, he, nws7_eq hW]
    · by_cases hs : todOf t < c.workday_start
      · simp [hw, he, hs]
      · simp [hw, he, hs]

theorem alignFinishO_eq {c : WorkCalendar} (hW : hasWorkday c = true) (t : ℚ) :
    alignFinishO c t = some (align_finish c t) := by
  unfold alignFinishO align_finish previous_workday_end
  by_cases hw : isWeekend c (dayOf t)
  · simp [hw, npw7_eq hW]
  · by_cases hs : todOf t < c.workday_start
    · simp [hw, hs]
    · by_cases he : c.workday_end < todOf t
      · simp [hw, hs, he]
      · simp [hw, hs, he]

theorem addLoopO_eq {c : WorkCalendar} (hW : hasWorkday c = true) :
    ∀ (n : ℕ) (cur rem : ℚ),
      rem ≤ n * c.hours_per_day + (combine (dayOf cur) c.workday_end - cur) + eps →
      addLoopO c (n + 1) cur rem = some (addLoop c (n + 1) cur rem) := by
  intro n
  induction n with
  | zero =>
    intro cur rem hcap
    unfold addLoopO addLoop
    by_cases h1 : eps < rem
    · have h2 : rem ≤ combine (dayOf cur) c.workday_end - cur + eps := by
        push_cast at hcap; linarith
      simp [h1, h2]
    · simp [h1]
  | succ n ih =>
    intro cur rem hcap
    unfold addLoopO addLoop
    by_cases h1 : eps < rem
    · by_cases h2 : rem ≤ combine (dayOf cur) c.workday_end - cur + eps
      · simp [h1, h2]
      · simp only [h1, h2, if_true, if_false]
        rw [nws7_eq hW]
        have hcur' : next_workday_start c (dayOf cur + 1) =
            combine (nextWorkdayD c (dayOf cur + 1)) c.workday_start := rfl
        have h0 : (0 : ℚ) ≤ c.workday_start := c.h_start_nonneg
        have h24 : c.workday_start < 24 := lt_trans c.h_start_lt_end c.h_end_lt
        have hday : dayOf (next_workday_start c (dayOf cur + 1)) =
            nextWorkdayD c (dayOf cur + 1) := by
          rw [hcur']; exact dayOf_combine _ _ h0 h24
        have hcap2 : rem - (combine (dayOf cur) c.workday_end - cur) ≤
            n * c.hours_per_day +
              (combine (dayOf (next_workday_start c (dayOf cur + 1))) c.workday_end -
                next_workday_start c (dayOf cur + 1)) + eps := by
          rw [hday, hcur']
          unfold combine WorkCalendar.hours_per_day at *
          push_cast at *
          linarith
        have := ih (next_workday_start c (dayOf cur + 1))
          (rem - (combine (dayOf cur) c.workday_end - cur)) hcap2
        simpa using this
    · simp [h1]

theorem subLoopO_eq {c : WorkCalendar} (hW : hasWorkday c = true) :
    ∀ (n : ℕ) (cur rem : ℚ),
      rem ≤ n * c.hours_per_day + (cur - combine (dayOf cur) c.workday_start) + eps →
      subLoopO c (n + 1) cur rem = some (subLoop c (n + 1) cur rem) := by
  intro n
  induction n with
  | zero =>
    intro cur rem hcap
    unfold subLoopO subLoop
    by_cases h1 : eps < rem
    · have h2 : rem ≤ cur - combine (dayOf cur) c.workday_start + eps := by
        push_cast at hcap; linarith
      simp [h1, h2]
    · simp [h1]
  | succ n ih =>
    intro cur rem hcap
    unfold subLoopO subLoop
    by_cases h1 : eps < rem
    · by_cases h2 : rem ≤ cur - combine (dayOf cur) c.workday_start + eps
      · simp [h1, h2]
      · simp only [h1, h2, if_true, if_false]
        rw [npw7_eq hW]
        have hcur' : previous_workday_end c (dayOf cur - 1) =
            combine (prevWorkdayD c (dayOf cur - 1)) c.workday_end := rfl
        have h0 : (0 : ℚ) ≤ c.workday_end :=
          le_trans c.h_start_nonneg (le_of_lt c.h_start_lt_end)
        have hday : dayOf (previous_workday_end c (dayOf cur - 1)) =
            prevWorkdayD c (dayOf cur - 1) := by
          rw [hcur']; exact dayOf_combine _ _ h0 c.h_end_lt
        have hcap2 : rem - (cur - combine (dayOf cur) c.workday_start) ≤
            n * c.hours_per_day +
              (previous_workday_end c (dayOf cur - 1) -
                combine (dayOf (previous_workday_end c (dayOf cur - 1))) c.workday_start) +
              eps := by
          rw [hday, hcur']
          unfold combine WorkCalendar.hours_per_day at *
          push_cast at *
          linarith
        have := ih (previous_workday_end c (dayOf cur - 1))
          (rem - (cur - combine (dayOf cur) c.workday_start)) hcap2
        simpa using this
    · simp [h1]

/-- The canonical loop fuel is written `k + 1` for unfolding purposes. -/
theorem fuelFor_eq (c : WorkCalendar) (h : ℚ) :
    fuelFor c h = ((⌈h / c.hours_per_day⌉).toNat + 1) + 1 := rfl

theorem fuel_capacity {c : WorkCalendar} {h : ℚ} (hpos : 0 < h) :
    h ≤ ((⌈h / c.hours_per_day⌉).toNat + 1 : ℕ) * c.hours_per_day -
      c.hours_per_day + c.hours_per_day := by
  have hpd := hours_per_day_pos c
  have h1 : h / c.hours_per_day ≤ (⌈h / c.hours_per_day⌉ : ℚ) := Int.le_ceil _
  have h2 : (0 : ℤ) ≤ ⌈h / c.hours_per_day⌉ := by
    have : (0 : ℚ) < h / c.hours_per_day := div_pos hpos hpd
    exact Int.ceil_nonneg (le_of_lt this)
  have h3 : ((⌈h / c.hours_per_day⌉.toNat : ℤ) : ℚ) = (⌈h / c.hours_per_day⌉ : ℚ) := by
    exact_mod_cast congrArg (fun z : ℤ => (z : ℚ)) (Int.toNat_of_nonneg h2)
  have h4 : h ≤ (⌈h / c.hours_per_day⌉ : ℚ) * c.hours_per_day := by
    calc h = h / c.hours_per_day * c.hours_per_day := by field_simp
    _ ≤ (⌈h / c.hours_per_day⌉ : ℚ) * c.hours_per_day :=
        mul_le_mul_of_nonneg_right h1 (le_of_lt hpd)
  push_cast
  push_cast at h3
  nlinarith

theorem addPosO_eq {c : WorkCalendar} (hW : hasWorkday c = true) (t h : ℚ)
    (hpos : 0 < h) :
    addLoopO c (fuelFor c h) (align_start c t) h = some (addPos c t h) := by
  rw [fuelFor_eq]
  unfold addPos
  rw [← fuelFor_eq]
  have hs := align_start_spec hW t
  have havail : combine (dayOf (align_start c t)) c.workday_end - align_start c t =
      c.workday_end - todOf (align_start c t) := by
    unfold combine todOf; ring
  have hcap : h ≤ ((⌈h / c.hours_per_day⌉).toNat + 1 : ℕ) * c.hours_per_day +
      (combine (dayOf (align_start c t)) c.workday_end - align_start c t) + eps := by
    rw [havail]
    have h5 := @fuel_capacity c h hpos
    have h6 : todOf (align_start c t) < c.workday_end := hs.2.2
    have heps : (0 : ℚ) < eps := by norm_num [eps]
    push_cast at h5 ⊢
    linarith
  have := addLoopO_eq hW ((⌈h / c.hours_per_day⌉).toNat + 1) (align_start c t) h hcap
  rw [fuelFor_eq]
  exact this

theorem subPosO_eq {c : WorkCalendar} (hW : hasWorkday c = true) (t h : ℚ)
    (hpos : 0 < h) :
    subLoopO c (fuelFor c h) (align_finish c t) h = some (subPos c t h) := by
  rw [fuelFor_eq]
  unfold subPos
  rw [← fuelFor_eq]
  have hs := align_finish_spec hW t
  have havail : align_finish c t - combine (dayOf (align_finish c t)) c.workday_start =
      todOf (align_finish c t) - c.workday_start := by
    unfold combine todOf; ring
  have hcap : h ≤ ((⌈h / c.hours_per_day⌉).toNat + 1 : ℕ) * c.hours_per_day +
      (align_finish c t - combine (dayOf (align_finish c t)) c.workday_start) + eps := by
    rw [havail]
    have h5 := @fuel_capacity c h hpos
    have h6 : c.workday_start ≤ todOf (align_finish c t) := hs.2.1
    have heps : (0 : ℚ) < eps := by norm_num [eps]
    push_cast at h5 ⊢
    linarith
  have := subLoopO_eq hW ((⌈h / c.hours_per_day⌉).toNat + 1) (align_finish c t) h hcap
  rw [fuelFor_eq]
  exact this

theorem addWorkHoursO_eq {c : WorkCalendar} (hW : hasWorkday c = true) (t h : ℚ) :
    ∃ fuel, addWorkHoursO c t h fuel = some (add_work_hours c t h) := by
  unfold addWorkHoursO add_work_hours
  by_cases h1 : |h| < eps
  · exact ⟨0, by simp [h1, alignStartO_eq hW]⟩
  · by_cases h2 : h < 0
    · refine ⟨fuelFor c (-h), ?_⟩
      simp only [h1, h2, if_true, if_false]
      rw [alignFinishO_eq hW]
      have : (0 : ℚ) < -h := by linarith
      simpa using subPosO_eq hW t (-h) this
    · refine ⟨fuelFor c h, ?_⟩
      simp only [h1, h2, if_true, if_false]
      rw [alignStartO_eq hW]
      have heps : (0 : ℚ) < eps := by norm_num [eps]
      have : (0 : ℚ) < h := by
        rcases abs_cases h with ⟨he, _⟩ | ⟨he, _⟩
        · rw [he] at h1; push_neg at h1; linarith
        · push_neg at h2; linarith
      simpa using addPosO_eq hW t h this

theorem subWorkHoursO_eq {c : WorkCalendar} (hW : hasWorkday c = true) (t h : ℚ) :
    ∃ fuel, subWorkHoursO c t h fuel = some (subtract_work_hours c t h) := by
  unfold subWorkHoursO subtract_work_hours
  by_cases h1 : |h| < eps
  · exact ⟨0, by simp [h1, alignFinishO_eq hW]⟩
  · by_cases h2 : h < 0
    · refine ⟨fuelFor c (-h), ?_⟩
      simp only [h1, h2, if_true, if_false]
      rw [alignStartO_eq hW]
      have : (0 : ℚ) < -h := by linarith
      simpa using addPosO_eq hW t (-h) this
    · refine ⟨fuelFor c h, ?_⟩
      simp only [h1, h2, if_true, if_false]
      rw [alignFinishO_eq hW]
      have heps : (0 : ℚ) < eps := by norm_num [eps]
      have : (0 : ℚ) < h := by
        rcases abs_cases h with ⟨he, _⟩ | ⟨he, _⟩
        · rw [he] at h1; push_neg at h1; linarith
        · push_neg at h2; linarith
      simpa using subPosO_eq hW t h this

theorem workHoursBetweenO_eq {c : WorkCalendar} (hW : hasWorkday c = true)
    (s f : ℚ) : workHoursBetweenO c s f = some (work_hours_between c s f) := by
  unfold workHoursBetweenO work_hours_between
  by_cases h1 : f ≤ s
  · simp [h1]
  · simp [h1, alignStartO_eq hW, alignFinishO_eq hW]

theorem mk_accepts_allWeekend :
    mkWorkCalendar 8 17 [0, 1, 2, 3, 4, 5, 6]
      (by norm_num) (by norm_num) (by norm_num) (by norm_num) =
      .ok allWeekendCalendar := by
  unfold mkWorkCalendar
  norm_num
  rfl

theorem isWeekend_allWeekend (d : ℤ) : isWeekend allWeekendCalendar d = true := by
  have h7 := weekdayOf_lt d
  unfold isWeekend allWeekendCalendar
  interval_cases h : weekdayOf d <;> decide

theorem nwsF_allWeekend : ∀ (fuel : ℕ) (d : ℤ),
    nwsF allWeekendCalendar fuel d = none := by
  intro fuel
  induction fuel with
  | zero => intro d; rfl
  | succ n ih => intro d; simp [nwsF, isWeekend_allWeekend, ih]

theorem npwF_allWeekend : ∀ (fuel : ℕ) (d : ℤ),
    npwF allWeekendCalendar fuel d = none := by
  intro fuel
  induction fuel with
  | zero => intro d; rfl
  | succ n ih => intro d; simp [npwF, isWeekend_allWeekend, ih]

theorem alignStartO_allWeekend (t : ℚ) : alignStartO allWeekendCalendar t = none := by
  unfold alignStartO
  simp [isWeekend_allWeekend, nwsF_allWeekend]

theorem alignFinishO_allWeekend (t : ℚ) : alignFinishO allWeekendCalendar t = none := by
  unfold alignFinishO
  simp [isWeekend_allWeekend, npwF_allWeekend]

theorem addWorkHoursO_allWeekend (t h : ℚ) (fuel : ℕ) :
    addWorkHoursO allWeekendCalendar t h fuel = none := by
  unfold addWorkHoursO
  simp [alignStartO_allWeekend, alignFinishO_allWeekend]

theorem subWorkHoursO_allWeekend (t h : ℚ) (fuel : ℕ) :
    subWorkHoursO allWeekendCalendar t h fuel = none := by
  unfold subWorkHoursO
  simp [alignStartO_allWeekend, alignFinishO_allWeekend]

theorem workHoursBetweenO_allWeekend (s f : ℚ) (hlt : s < f) :
    workHoursBetweenO allWeekendCalendar s f = none := by
  unfold workHoursBetweenO
  simp [not_le.mpr hlt, alignStartO_allWeekend]

/-!
### The add/subtract round trip
-/

theorem shift_within_day (x δ : ℚ) (h0 : 0 ≤ todOf x + δ) (h24 : todOf x + δ < 24) :
    dayOf (x + δ) = dayOf x ∧ todOf (x + δ) = todOf x + δ := by
  have hx : x + δ = combine (dayOf x) (todOf x + δ) := by unfold combine todOf; ring
  rw [hx]
  exact ⟨dayOf_combine _ _ h0 h24, todOf_combine _ _ h0 h24⟩

theorem eps_pos : (0 : ℚ) < eps := by norm_num [eps]

/-- The round-trip identity holds whenever the hours fit (with an `eps`
margin) inside the first aligned workday, or are below tolerance. -/
theorem roundtrip_same_day {c : WorkCalendar} (hW : hasWorkday c = true)
    (t h : ℚ) (hh : 0 ≤ h)
    (hfit : h < eps ∨ h + eps ≤ c.workday_end - todOf (align_start c t)) :
    subtract_work_hours c (add_work_hours c t h) h = align_start c t := by
  obtain ⟨hw, hs, he⟩ := align_start_spec hW t
  have habs : |h| = h := abs_of_nonneg hh
  by_cases h1 : |h| < eps
  · have hadd : add_work_hours c t h = align_start c t := by
      unfold add_work_hours; simp [h1]
    rw [hadd]
    unfold subtract_work_hours
    simp [h1, align_finish_align_start hW]
  · have hge : eps ≤ h := by rw [habs] at h1; linarith [not_lt.mp h1]
    have hfit2 : h + eps ≤ c.workday_end - todOf (align_start c t) := by
      rcases hfit with hlt | hle
      · exact absurd hlt (not_lt.mpr hge)
      · exact hle
    have hneg : ¬ h < 0 := not_lt.mpr hh
    have havail : combine (dayOf (align_start c t)) c.workday_end - align_start c t =
        c.workday_end - todOf (align_start c t) := by
      unfold combine todOf; ring
    by_cases h2 : eps < h
    · -- the loop returns `align_start c t + h` in its first pass
      have hadd : add_work_hours c t h = align_start c t + h := by
        unfold add_work_hours addPos
        rw [fuelFor_eq]
        simp only [h1, hneg, if_false]
        unfold addLoop
        have hle : h ≤ combine (dayOf (align_start c t)) c.workday_end -
            align_start c t + eps := by
          rw [havail]; linarith [eps_pos]
        simp [h2, hle]
      rw [hadd]
      -- the sum is a working instant on the same day
      have h0' : 0 ≤ todOf (align_start c t) + h := by
        have := c.h_start_nonneg; linarith
      have h24' : todOf (align_start c t) + h < 24 := by
        have := c.h_end_lt; linarith [eps_pos]
      obtain ⟨hd, htod⟩ := shift_within_day (align_start c t) h h0' h24'
      have hfin : align_finish c (align_start c t + h) = align_start c t + h := by
        apply align_finish_fixed
        · rw [hd]; exact hw
        · rw [htod]; linarith
        · rw [htod]; linarith [eps_pos]
      unfold subtract_work_hours subPos
      rw [fuelFor_eq]
      simp only [h1, hneg, if_false]
      rw [hfin]
      unfold subLoop
      have havail2 : align_start c t + h - combine (dayOf (align_start c t + h)) c.workday_start =
          todOf (align_start c t) + h - c.workday_start := by
        rw [hd]; unfold combine todOf; ring
      have hle2 : h ≤ align_start c t + h -
          combine (dayOf (align_start c t + h)) c.workday_start + eps := by
        rw [havail2]; linarith [eps_pos]
      simp [h2, hle2]
    · -- `h` equals the tolerance exactly: both loops exit immediately
      have hadd : add_work_hours c t h = align_start c t := by
        unfold add_work_hours addPos
        rw [fuelFor_eq]
        simp only [h1, hneg, if_false]
        unfold addLoop
        simp [h2]
      rw [hadd]
      unfold subtract_work_hours subPos
      rw [fuelFor_eq]
      simp only [h1, hneg, if_false]
      rw [align_finish_align_start hW]
      unfold subLoop
      simp [h2]

theorem apply_constraints_shape (spec : TaskSpec) (s f : ℚ) (c : WorkCalendar)
    (hin : f = add_work_duration c s spec.duration_days) (hmfo : ¬ isMFO spec) :
    (apply_constraints spec s f c).2 =
      add_work_duration c (apply_constraints spec s f c).1 spec.duration_days := by
  unfold apply_constraints
  cases hd : spec.constraint_date with
  | none => simpa using hin
  | some cdate =>
    by_cases h1 : pyUpper (spec.constraint_type.getD "") = "MUST_START_ON" ∨
        pyUpper (spec.constraint_type.getD "") = "MSO"
    · simp [h1]
    · by_cases h2 : pyUpper (spec.constraint_type.getD "") = "START_NO_EARLIER_THAN" ∨
          pyUpper (spec.constraint_type.getD "") = "SNET"
      · simp [h1, h2]
      · by_cases h3 : pyUpper (spec.constraint_type.getD "") = "MUST_FINISH_ON" ∨
            pyUpper (spec.constraint_type.getD "") = "MFO"
        · exact absurd ⟨by rw [hd]; rfl, h3⟩ hmfo
        · by_cases h4 :
              pyUpper (spec.constraint_type.getD "") = "FINISH_NO_EARLIER_THAN" ∨
              pyUpper (spec.constraint_type.getD "") = "FNET"
          · simp [h1, h2, h3, h4]
          · simpa [h1, h2, h3, h4] using hin

theorem depMerge_shape {c : WorkCalendar} {spec : TaskSpec}
    {sch : List (ℤ × ScheduledTask)} {p q : ℚ × ℚ} {d : DependencySpec}
    (hok : depMerge c spec sch p d = .ok q) :
    q.2 = add_work_duration c q.1 spec.duration_days := by
  unfold depMerge at hok
  cases hl : List.lookup d.predecessor_uid sch with
  | none => rw [hl] at hok; exact absurd hok (by simp)
  | some pred =>
    rw [hl] at hok
    by_cases h1 : relUpper d.relation_type = "FS"
    · simp only [h1, if_true] at hok
      cases hok; rfl
    · by_cases h2 : relUpper d.relation_type = "SS"
      · simp only [h1, h2, if_true, if_false] at hok
        cases hok; rfl
      · by_cases h3 : relUpper d.relation_type = "FF"
        · simp only [h1, h2, h3, if_true, if_false] at hok
          cases hok; rfl
        · by_cases h4 : relUpper d.relation_type = "SF"
          · simp only [h1, h2, h3, h4, if_true, if_false] at hok
            cases hok; rfl
          · simp [h1, h2, h3, h4] at hok

theorem foldlM_depMerge_shape {c : WorkCalendar} {spec : TaskSpec}
    {sch : List (ℤ × ScheduledTask)} :
    ∀ (deps : List DependencySpec) (p : ℚ × ℚ),
      p.2 = add_work_duration c p.1 spec.duration_days →
      ∀ q, List.foldlM (depMerge c spec sch) p deps = .ok q →
      q.2 = add_work_duration c q.1 spec.duration_days := by
  intro deps
  induction deps with
  | nil =>
    intro p hp q hq
    simp only [List.foldlM_nil] at hq
    cases hq
    exact hp
  | cons d ds ih =>
    intro p hp q hq
    simp only [List.foldlM_cons] at hq
    cases hm : depMerge c spec sch p d with
    | error e => rw [hm] at hq; exact absurd hq (by simp [Bind.bind, Except.bind])
    | ok p2 =>
      rw [hm] at hq
      have : List.foldlM (depMerge c spec sch) p2 ds = .ok q := by
        simpa [Bind.bind, Except.bind] using hq
      exact ih p2 (depMerge_shape hm) q this

theorem forwardTask_shape {c : WorkCalendar} {spec : TaskSpec}
    {sch : List (ℤ × ScheduledTask)} {ps : ℚ} {st : ScheduledTask}
    (hok : forwardTask c spec sch ps = .ok st) :
    st.spec = spec ∧
    (¬ isMFO spec →
      st.earliest_finish = add_work_duration c st.earliest_start spec.duration_days) := by
  unfold forwardTask at hok
  dsimp only at hok
  cases hf : List.foldlM (depMerge c spec sch)
      (align_start c ps, add_work_duration c (align_start c ps) spec.duration_days)
      spec.dependencies with
  | error e => rw [hf] at hok; exact absurd hok (by simp [Except.map])
  | ok p =>
    rw [hf] at hok
    simp only [Except.map] at hok
    cases hok
    refine ⟨rfl, fun hmfo => ?_⟩
    have hp : p.2 = add_work_duration c p.1 spec.duration_days :=
      foldlM_depMerge_shape spec.dependencies _ rfl p hf
    exact apply_constraints_shape spec p.1 p.2 c hp hmfo

theorem forwardGo_mem {c : WorkCalendar} {tasks : List TaskSpec} {ps : ℚ} :
    ∀ (l : List ℤ) (acc sched : List (ℤ × ScheduledTask)),
      forwardGo c tasks ps l acc = .ok sched →
      ∀ p ∈ sched, p ∈ acc ∨
        ∃ spec acc2, lookupTask tasks p.1 = some spec ∧
          forwardTask c spec acc2 ps = .ok p.2 := by
  intro l
  induction l with
  | nil =>
    intro acc sched h p hp
    unfold forwardGo at h
    cases h
    exact Or.inl hp
  | cons uid rest ih =>
    intro acc sched h p hp
    unfold forwardGo at h
    cases hl : lookupTask tasks uid with
    | none => rw [hl] at h; simp at h
    | some spec =>
      simp only [hl] at h
      cases hft : forwardTask c spec acc ps with
      | error e => rw [hft] at h; exact absurd h (by simp [Bind.bind, Except.bind])
      | ok st =>
        rw [hft] at h
        have h2 : forwardGo c tasks ps rest (acc ++ [(uid, st)]) = .ok sched := by
          simpa [Bind.bind, Except.bind] using h
        rcases ih (acc ++ [(uid, st)]) sched h2 p hp with hin | hex
        · rcases List.mem_append.mp hin with h3 | h3
          · exact Or.inl h3
          · have : p = (uid, st) := by simpa using h3
            refine Or.inr ⟨spec, acc, ?_, ?_⟩
            · rw [this]; exact hl
            · rw [this]; exact hft
        · exact Or.inr hex

theorem forward_pass_mem {c : WorkCalendar} {order : List ℤ} {tasks : List TaskSpec}
    {ps : ℚ} {sched : List (ℤ × ScheduledTask)}
    (h : forward_pass c order tasks ps = .ok sched) :
    ∀ p ∈ sched, ∃ spec acc2, lookupTask tasks p.1 = some spec ∧
      forwardTask c spec acc2 ps = .ok p.2 := by
  intro p hp
  rcases forwardGo_mem order [] sched h p hp with hin | hex
  · exact absurd hin (by simp)
  · exact hex

theorem updateSched_mem {sch : List (ℤ × ScheduledTask)} {uid : ℤ}
    {f : ScheduledTask → ScheduledTask}
    (hf : ∀ t, (f t).spec = t.spec ∧ (f t).earliest_start = t.earliest_start ∧
      (f t).earliest_finish = t.earliest_finish) :
    ∀ p ∈ updateSched sch uid f, ∃ q ∈ sch, EsEfPreserved p q := by
  intro p hp
  unfold updateSched at hp
  rcases List.mem_map.mp hp with ⟨q, hq, hpq⟩
  refine ⟨q, hq, ?_⟩
  by_cases h : q.1 = uid
  · rw [← hpq, if_pos h]
    exact ⟨rfl, (hf q.2).1, (hf q.2).2.1, (hf q.2).2.2⟩
  · rw [← hpq, if_neg h]
    exact ⟨rfl, rfl, rfl, rfl⟩

theorem backwardTask_mem {c : WorkCalendar} {tasks : List TaskSpec}
    {sch sch2 : List (ℤ × ScheduledTask)} {pf : ℚ} {uid : ℤ}
    (h : backwardTask c tasks sch pf uid = .ok sch2) :
    ∀ p ∈ sch2, ∃ q ∈ sch, EsEfPreserved p q := by
  unfold backwardTask at h
  cases hl : List.lookup uid sch with
  | none => rw [hl] at h; simp at h
  | some task =>
    simp only [hl] at h
    cases hlim : (if (successorsOf tasks uid).isEmpty then Except.ok pf
        else (mapE (bwCandidate c task sch) (successorsOf tasks uid)).bind
          minimumOfList) with
    | error e => rw [hlim] at h; exact absurd h (by simp [Except.map])
    | ok limit =>
      rw [hlim] at h
      simp only [Except.map] at h
      cases h
      exact updateSched_mem (fun t => ⟨rfl, rfl, rfl⟩)

theorem backwardGo_mem {c : WorkCalendar} {tasks : List TaskSpec} {pf : ℚ} :
    ∀ (l : List ℤ) (sch sch2 : List (ℤ × ScheduledTask)),
      backwardGo c tasks pf l sch = .ok sch2 →
      ∀ p ∈ sch2, ∃ q ∈ sch, EsEfPreserved p q := by
  intro l
  induction l with
  | nil =>
    intro sch sch2 h p hp
    unfold backwardGo at h
    cases h
    exact ⟨p, hp, rfl, rfl, rfl, rfl⟩
  | cons uid rest ih =>
    intro sch sch2 h p hp
    unfold backwardGo at h
    cases hb : backwardTask c tasks sch pf uid with
    | error e => rw [hb] at h; exact absurd h (by simp [Bind.bind, Except.bind])
    | ok sch1 =>
      rw [hb] at h
      have h2 : backwardGo c tasks pf rest sch1 = .ok sch2 := by
        simpa [Bind.bind, Except.bind] using h
      obtain ⟨q1, hq1, hpres1⟩ := ih sch1 sch2 h2 p hp
      obtain ⟨q2, hq2, hpres2⟩ := backwardTask_mem hb q1 hq1
      refine ⟨q2, hq2, ?_⟩
      obtain ⟨a1, b1, c1, d1⟩ := hpres1
      obtain ⟨a2, b2, c2, d2⟩ := hpres2
      exact ⟨a1.trans a2, b1.trans b2, c1.trans c2, d1.trans d2⟩

theorem backward_pass_mem {c : WorkCalendar} {order : List ℤ}
    {tasks : List TaskSpec} {sch sch2 : List (ℤ × ScheduledTask)}
    (h : backward_pass c order tasks sch = .ok sch2) :
    ∀ p ∈ sch2, ∃ q ∈ sch, EsEfPreserved p q := by
  unfold backward_pass at h
  cases hm : maximumOfList (sch.map (fun p => p.2.earliest_finish)) with
  | error e => rw [hm] at h; exact absurd h (by simp [Bind.bind, Except.bind])
  | ok pf =>
    rw [hm] at h
    have h2 : backwardGo c tasks pf order.reverse sch = .ok sch2 := by
      simpa [Bind.bind, Except.bind] using h
    exact backwardGo_mem order.reverse sch sch2 h2

theorem lookup_mem {α : Type} {l : List (ℤ × α)} {k : ℤ} {v : α}
    (h : List.lookup k l = some v) : (k, v) ∈ l := by
  induction l with
  | nil => simp [List.lookup] at h
  | cons p rest ih =>
    obtain ⟨k2, v2⟩ := p
    unfold List.lookup at h
    by_cases hk : k == k2
    · rw [hk] at h
      cases h
      have : k = k2 := by simpa using hk
      rw [this]
      exact List.mem_cons_self _ _
    · rw [Bool.not_eq_true] at hk
      rw [hk] at h
      exact List.mem_cons_of_mem _ (ih h)

theorem mapE_mem {f : α → Except String β} :
    ∀ {l : List α} {res : List β}, mapE f l = .ok res →
      ∀ b ∈ res, ∃ a ∈ l, f a = .ok b := by
  intro l
  induction l with
  | nil =>
    intro res h b hb
    cases h
    exact absurd hb (by simp)
  | cons a rest ih =>
    intro res h b hb
    unfold mapE at h
    cases hf : f a with
    | error e => rw [hf] at h; exact absurd h (by simp [Bind.bind, Except.bind])
    | ok b1 =>
      rw [hf] at h
      cases hrest : mapE f rest with
      | error e =>
        rw [hrest] at h
        exact absurd h (by simp [Bind.bind, Except.bind, Except.map])
      | ok bs =>
        rw [hrest] at h
        have : res = b1 :: bs := by
          simpa [Bind.bind, Except.bind, Except.map] using h.symm
        subst this
        rcases hb with _ | hb2
        · exact ⟨a, by simp, hf⟩
        · obtain ⟨a2, ha2, hfa2⟩ := ih hrest b (by assumption)
          exact ⟨a2, by simp [ha2], hfa2⟩

/-- Every scheduled task in an ok result of `calculate_schedule` that
does not carry an effective MFO constraint satisfies
`earliest_finish = add_work_duration(earliest_start, duration_days)`
exactly. -/
theorem calculate_schedule_finish_shape
    {specs : List TaskSpec} {ps : Option ℚ} {cal : Option WorkCalendar} {now : ℚ}
    {r : ScheduleResult} (h : calculate_schedule specs ps cal now = .ok r) :
    ∀ t ∈ r.tasks, ¬ isMFO t.spec →
      t.earliest_finish =
        add_work_duration (cal.getD defaultCalendar) t.earliest_start
          t.spec.duration_days := by
  unfold calculate_schedule at h
  dsimp only at h
  cases he : ensureTaskLookup (clone_tasks specs) with
  | error e => rw [he] at h; simp [Bind.bind, Except.bind] at h
  | ok u =>
    rw [he] at h
    simp only [Bind.bind, Except.bind] at h
    cases ht : topological_order
        (resolve_cycles
          (remove_missing_dependencies (clone_tasks specs)
            (uidsOf (clone_tasks specs))).1).1 with
    | error e => rw [ht] at h; simp [Except.bind] at h
    | ok order =>
      rw [ht] at h
      simp only [Except.bind] at h
      cases hfp : forward_pass (cal.getD defaultCalendar) order
          (resolve_cycles
            (remove_missing_dependencies (clone_tasks specs)
              (uidsOf (clone_tasks specs))).1).1
          (align_start (cal.getD defaultCalendar)
            (ps.getD ((infer_project_start
              (resolve_cycles
                (remove_missing_dependencies (clone_tasks specs)
                  (uidsOf (clone_tasks specs))).1).1).getD now))) with
      | error e => rw [hfp] at h; simp [Except.bind] at h
      | ok sched1 =>
        rw [hfp] at h
        simp only [Except.bind] at h
        cases hbp : backward_pass (cal.getD defaultCalendar) order
            (resolve_cycles
              (remove_missing_dependencies (clone_tasks specs)
                (uidsOf (clone_tasks specs))).1).1 sched1 with
        | error e => rw [hbp] at h; simp [Except.bind] at h
        | ok sched2 =>
          rw [hbp] at h
          simp only [Except.bind] at h
          cases hmax : maximumOfList (sched2.map (fun p => p.2.latest_finish)) with
          | error e => rw [hmax] at h; simp [Except.bind] at h
          | ok pf =>
            rw [hmax] at h
            simp only [Except.bind] at h
            cases hord : mapE (fun uid =>
                match List.lookup uid sched2 with
                | some t => Except.ok t
                | none => Except.error ("KeyError: " ++ toString uid)) order with
            | error e => rw [hord] at h; simp [Except.map] at h
            | ok ordered =>
              rw [hord] at h
              simp only [Except.map] at h
              cases h
              intro t ht2 hmfo
              obtain ⟨uid, _, hlu⟩ := mapE_mem hord t ht2
              have htmem : (uid, t) ∈ sched2 := by
                cases hl2 : List.lookup uid sched2 with
                | none => rw [hl2] at hlu; exact absurd hlu (by simp)
                | some t2 =>
                  rw [hl2] at hlu
                  cases hlu
                  exact lookup_mem hl2
              obtain ⟨q, hq, ⟨_, hspec, hes, hef⟩⟩ :=
                backward_pass_mem hbp (uid, t) htmem
              obtain ⟨spec2, acc2, hlk, hft⟩ := forward_pass_mem hfp q hq
              obtain ⟨hspec2, hshape⟩ := forwardTask_shape hft
              have hspec3 : t.spec = spec2 := by rw [hspec]; exact hspec2
              rw [hef, hes, hspec3]
              apply hshape
              rw [← hspec3]
              exact hmfo

theorem mem_successorsOf {tasks : List TaskSpec} {uid : ℤ}
    {pr : ℤ × DependencySpec} :
    pr ∈ successorsOf tasks uid ↔
      ∃ t ∈ tasks, t.uid = pr.1 ∧ pr.2 ∈ t.dependencies ∧
        pr.2.predecessor_uid = uid := by
  unfold successorsOf
  rw [List.mem_flatMap]
  constructor
  · rintro ⟨t, ht, hpr⟩
    rw [List.mem_filterMap] at hpr
    obtain ⟨d, hd, hpr2⟩ := hpr
    by_cases hp : d.predecessor_uid = uid
    · rw [if_pos hp] at hpr2
      cases hpr2
      exact ⟨t, ht, rfl, hd, hp⟩
    · rw [if_neg hp] at hpr2
      cases hpr2
  · rintro ⟨t, ht, h1, h2, h3⟩
    refine ⟨t, ht, ?_⟩
    rw [List.mem_filterMap]
    exact ⟨pr.2, h2, by rw [if_pos h3, h1]⟩

theorem successorsOf_fst_mem {tasks : List TaskSpec} {uid : ℤ}
    {pr : ℤ × DependencySpec} (h : pr ∈ successorsOf tasks uid) :
    pr.1 ∈ uidsOf tasks := by
  obtain ⟨t, ht, h1, _, _⟩ := mem_successorsOf.mp h
  rw [← h1]
  exact List.mem_map.mpr ⟨t, ht, rfl⟩

theorem edge_target_mem {tasks : List TaskSpec} {p s : ℤ}
    (h : Edge tasks p s) : s ∈ uidsOf tasks := by
  unfold Edge at h
  rw [List.mem_map] at h
  obtain ⟨pr, hpr, hfst⟩ := h
  rw [← hfst]
  exact successorsOf_fst_mem hpr

theorem transGen_target_mem {tasks : List TaskSpec} {a b : ℤ}
    (h : Relation.TransGen (Edge tasks) a b) : b ∈ uidsOf tasks := by
  induction h with
  | single he => exact edge_target_mem he
  | tail _ he _ => exact edge_target_mem he

theorem successorsOf_length_le (tasks : List TaskSpec) (uid : ℤ) :
    (successorsOf tasks uid).length ≤ totalDeps tasks := by
  unfold successorsOf totalDeps
  induction tasks with
  | nil => simp
  | cons t rest ih =>
    simp only [List.flatMap_cons, List.length_append, List.map_cons, List.sum_cons]
    have h1 : (t.dependencies.filterMap (fun d =>
        if d.predecessor_uid = uid then some (t.uid, d) else none)).length ≤
        t.dependencies.length := List.length_filterMap_le _ _
    omega

theorem filter_length_mono {α : Type} (p q : α → Bool)
    (hpq : ∀ x, q x = true → p x = true) :
    ∀ l : List α, (l.filter q).length ≤ (l.filter p).length := by
  intro l
  induction l with
  | nil => simp
  | cons a rest ih =>
    by_cases hq : q a
    · rw [List.filter_cons_of_pos hq, List.filter_cons_of_pos (hpq a hq)]
      simpa using ih
    · rw [List.filter_cons_of_neg (by simpa using hq)]
      by_cases hp : p a
      · rw [List.filter_cons_of_pos hp]
        simp
        omega
      · rw [List.filter_cons_of_neg (by simpa using hp)]
        exact ih

theorem filter_length_lt {α : Type} [DecidableEq α] (p q : α → Bool)
    (hpq : ∀ x, q x = true → p x = true) :
    ∀ (l : List α) (w : α), w ∈ l → p w = true → q w = false →
      (l.filter q).length < (l.filter p).length := by
  intro l
  induction l with
  | nil => intro w hw; simp at hw
  | cons a rest ih =>
    intro w hw hpw hqw
    rcases List.mem_cons.mp hw with rfl | hw2
    · rw [List.filter_cons_of_pos hpw, List.filter_cons_of_neg (by simp [hqw])]
      have := filter_length_mono p q hpq rest
      simpa using Nat.lt_succ_of_le this
    · by_cases hq : q a
      · rw [List.filter_cons_of_pos hq, List.filter_cons_of_pos (hpq a hq)]
        simpa using ih w hw2 hpw hqw
      · rw [List.filter_cons_of_neg (by simpa using hq)]
        by_cases hp : p a
        · rw [List.filter_cons_of_pos hp]
          have := ih w hw2 hpw hqw
          simp
          omega
        · rw [List.filter_cons_of_neg (by simpa using hp)]
          exact ih w hw2 hpw hqw

theorem dfsUnvisited_push {tasks : List TaskSpec} {vis : List ℤ} {w : ℤ}
    (hw : w ∈ uidsOf tasks) (hnv : ¬ w ∈ vis) :
    dfsUnvisited tasks (w :: vis) < dfsUnvisited tasks vis := by
  unfold dfsUnvisited
  apply filter_length_lt
  · intro x hx
    simp only [decide_eq_true_eq] at hx ⊢
    intro hmem
    exact hx (List.mem_cons_of_mem _ hmem)
  · exact List.mem_dedup.mpr hw
  · simpa using hnv
  · simp

/-- Each non-returning DFS step strictly decreases the measure, so this
fuel always suffices. -/
theorem dfsWhile_isSome {tasks : List TaskSpec} :
    ∀ (fuel : ℕ) (st : DfsState), SuffixInv tasks st →
      dfsMeasure tasks st < fuel → (dfsWhile tasks fuel st).isSome := by
  intro fuel
  induction fuel with
  | zero => intro st _ h; omega
  | succ fuel ih =>
    intro st hsuf hm
    match hst : st.stack with
    | [] =>
      unfold dfsWhile
      rw [hst]
      rfl
    | (u, it) :: rest =>
      match hit : it with
      | [] =>
        unfold dfsWhile
        rw [hst]
        apply ih
        · intro p hp
          exact hsuf p (by rw [hst]; exact List.mem_cons_of_mem _ hp)
        · have hms : dfsMeasure tasks ⟨rest, st.path.dropLast, st.visited,
              st.onStack.erase u⟩ < dfsMeasure tasks st := by
            unfold dfsMeasure dfsIterSizes
            rw [hst]
            simp
          omega
      | (w, d) :: it2 =>
        unfold dfsWhile
        rw [hst]
        by_cases hv : w ∈ st.visited
        · by_cases ho : w ∈ st.onStack
          · simp [hv, ho]
          · simp only [hv, ho, if_true, if_false]
            apply ih
            · intro p hp
              rcases List.mem_cons.mp hp with rfl | hp2
              · obtain ⟨pre, hpre⟩ := hsuf (u, (w, d) :: it2)
                  (by rw [hst]; exact List.mem_cons_self _ _)
                exact ⟨pre ++ [(w, d)], by rw [hpre]; simp⟩
              · exact hsuf p (by rw [hst]; exact List.mem_cons_of_mem _ hp2)
            · have hms : dfsMeasure tasks ⟨(u, it2) :: rest, st.path, st.visited,
                  st.onStack⟩ < dfsMeasure tasks st := by
                unfold dfsMeasure dfsIterSizes
                rw [hst]
                simp
              omega
        · simp only [hv, if_false]
          apply ih
          · intro p hp
            rcases List.mem_cons.mp hp with rfl | hp2
            · exact ⟨[], rfl⟩
            · rcases List.mem_cons.mp hp2 with rfl | hp3
              · obtain ⟨pre, hpre⟩ := hsuf (u, (w, d) :: it2)
                  (by rw [hst]; exact List.mem_cons_self _ _)
                exact ⟨pre ++ [(w, d)], by rw [hpre]; simp⟩
              · exact hsuf p (by rw [hst]; exact List.mem_cons_of_mem _ hp3)
          · have hwid : (w, d) ∈ successorsOf tasks u := by
              obtain ⟨pre, hpre⟩ := hsuf (u, (w, d) :: it2)
                (by rw [hst]; exact List.mem_cons_self _ _)
              rw [hpre]
              simp
            have hw : w ∈ uidsOf tasks := successorsOf_fst_mem hwid
            have hdec : dfsUnvisited tasks (w :: st.visited) <
                dfsUnvisited tasks st.visited := dfsUnvisited_push hw hv
            have hlen : (successorsOf tasks w).length ≤ totalDeps tasks :=
              successorsOf_length_le tasks w
            have hkey : dfsUnvisited tasks (w :: st.visited) * (totalDeps tasks + 2) +
                (totalDeps tasks + 2) ≤
                dfsUnvisited tasks st.visited * (totalDeps tasks + 2) := by
              have h1 : dfsUnvisited tasks (w :: st.visited) + 1 ≤
                  dfsUnvisited tasks st.visited := hdec
              calc dfsUnvisited tasks (w :: st.visited) * (totalDeps tasks + 2) +
                  (totalDeps tasks + 2) =
                  (dfsUnvisited tasks (w :: st.visited) + 1) * (totalDeps tasks + 2) := by
                    ring
              _ ≤ dfsUnvisited tasks st.visited * (totalDeps tasks + 2) :=
                    Nat.mul_le_mul_right _ h1
            have hsz : dfsIterSizes ⟨(w, successorsOf tasks w) :: (u, it2) :: rest,
                st.path ++ [w], w :: st.visited, w :: st.onStack⟩ + 1 =
                (successorsOf tasks w).length + dfsIterSizes st := by
              unfold dfsIterSizes
              rw [hst]
              simp
              omega
            unfold dfsMeasure at hm ⊢
            dsimp only
            rw [hst] at hm
            simp only [List.length_cons] at hm ⊢
            omega

theorem stackInv_mono {tasks : List TaskSpec} {bl bl2 : List ℤ} :
    ∀ {stack : List (ℤ × List (ℤ × DependencySpec))} {above above2 : List ℤ},
      StackInv tasks bl stack above → (∀ x ∈ bl, x ∈ bl2) →
      (∀ x ∈ above, x ∈ bl2 ∨ x ∈ above2) → StackInv tasks bl2 stack above2 := by
  intro stack
  induction stack with
  | nil => intro above above2 _ _ _; trivial
  | cons p rest ih =>
    intro above above2 h hbl hab
    obtain ⟨u, it⟩ := p
    obtain ⟨⟨pre, hpre, htgt⟩, hrest⟩ := h
    refine ⟨⟨pre, hpre, ?_⟩, ?_⟩
    · intro pr hpr
      rcases htgt pr hpr with h1 | h1
      · exact Or.inl (hbl _ h1)
      · rcases hab _ h1 with h2 | h2
        · exact Or.inl h2
        · exact Or.inr h2
    · refine ih hrest hbl ?_
      intro x hx
      rcases List.mem_cons.mp hx with rfl | hx2
      · exact Or.inr (List.mem_cons_self _ _)
      · rcases hab _ hx2 with h2 | h2
        · exact Or.inl h2
        · exact Or.inr (List.mem_cons_of_mem _ h2)

theorem stackInv_suffix {tasks : List TaskSpec} {bl : List ℤ} :
    ∀ {stack : List (ℤ × List (ℤ × DependencySpec))} {above : List ℤ},
      StackInv tasks bl stack above →
      ∀ p ∈ stack, ∃ pre, successorsOf tasks p.1 = pre ++ p.2 := by
  intro stack
  induction stack with
  | nil => intro above _ p hp; simp at hp
  | cons q rest ih =>
    intro above h p hp
    obtain ⟨u, it⟩ := q
    obtain ⟨⟨pre, hpre, _⟩, hrest⟩ := h
    rcases List.mem_cons.mp hp with rfl | hp2
    · exact ⟨pre, hpre⟩
    · exact ih hrest p hp2

theorem blFrom_append {tasks : List TaskSpec} :
    ∀ (l : List ℤ) (seen : List ℤ) (u : ℤ),
      BlFrom tasks seen (l ++ [u]) ↔
        (BlFrom tasks seen l ∧
          ∀ pr ∈ successorsOf tasks u, (pr.1 ∈ seen ∨ pr.1 ∈ l)) := by
  intro l
  induction l with
  | nil =>
    intro seen u
    constructor
    · rintro ⟨h1, _⟩
      exact ⟨trivial, fun pr hpr => Or.inl (h1 pr hpr)⟩
    · rintro ⟨_, h2⟩
      refine ⟨fun pr hpr => ?_, trivial⟩
      rcases h2 pr hpr with h | h
      · exact h
      · simp at h
  | cons a rest ih =>
    intro seen u
    constructor
    · rintro ⟨h1, h2⟩
      simp only [List.append_eq] at h2
      rw [ih] at h2
      refine ⟨⟨h1, h2.1⟩, fun pr hpr => ?_⟩
      rcases h2.2 pr hpr with h | h
      · rcases List.mem_cons.mp h with rfl | h3
        · exact Or.inr (List.mem_cons_self _ _)
        · exact Or.inl h3
      · exact Or.inr (List.mem_cons_of_mem _ h)
    · rintro ⟨⟨h1, h2⟩, h3⟩
      refine ⟨h1, ?_⟩
      show BlFrom tasks (a :: seen) (rest ++ [u])
      rw [ih]
      refine ⟨h2, fun pr hpr => ?_⟩
      rcases h3 pr hpr with h | h
      · exact Or.inl (List.mem_cons_of_mem _ h)
      · rcases List.mem_cons.mp h with rfl | h4
        · exact Or.inl (List.mem_cons_self _ _)
        · exact Or.inr h4

theorem dfsInv_pop {tasks : List TaskSpec} {bl : List ℤ} {st : DfsState}
    {u : ℤ} {rest : List (ℤ × List (ℤ × DependencySpec))}
    (inv : DfsInv tasks bl st) (hst : st.stack = (u, []) :: rest) :
    DfsInv tasks (bl ++ [u])
      ⟨rest, st.path.dropLast, st.visited, st.onStack.erase u⟩ := by
  have hupath : st.path = (rest.map Prod.fst).reverse ++ [u] := by
    rw [inv.hpath, hst]
    simp
  set P := (rest.map Prod.fst).reverse with hP
  have hndP : (P ++ [u]).Nodup := by rw [← hupath]; exact inv.hpathnd
  have huP : u ∉ P := by
    rcases List.nodup_append.mp hndP with ⟨_, _, hdisj2⟩
    intro hu
    exact hdisj2 hu (List.mem_singleton.mpr rfl)
  have humem : u ∈ st.path := by rw [hupath]; simp
  have hubl : u ∉ bl := fun h => inv.hdisj u h humem
  have hdrop : st.path.dropLast = P := by rw [hupath]; exact List.dropLast_concat
  obtain ⟨⟨pre, hpre, htgt⟩, hrest⟩ := (hst ▸ inv.hstack : StackInv tasks bl
    ((u, []) :: rest) [])
  have hpre2 : pre = successorsOf tasks u := by rw [hpre]; simp
  refine ⟨?_, ?_, ?_, ?_, ?_, ?_, ?_, ?_, ?_, ?_, ?_⟩
  · show st.path.dropLast = (rest.map Prod.fst).reverse
    rw [hdrop]
  · show (st.path.dropLast).Nodup
    rw [hdrop]
    exact (List.nodup_append.mp hndP).1
  · intro x
    show x ∈ st.onStack.erase u ↔ x ∈ st.path.dropLast
    rw [hdrop]
    constructor
    · intro hx
      have hx2 : x ∈ st.onStack := List.mem_of_mem_erase hx
      have hx3 : x ∈ st.path := (inv.honstack x).mp hx2
      rw [hupath] at hx3
      rcases List.mem_append.mp hx3 with h | h
      · exact h
      · exfalso
        have : x = u := List.mem_singleton.mp h
        rw [this] at hx
        exact inv.hosnd.not_mem_erase hx
    · intro hx
      have hxu : x ≠ u := fun h => huP (h ▸ hx)
      rw [List.mem_erase_of_ne hxu]
      exact (inv.honstack x).mpr (by rw [hupath]; exact List.mem_append_left _ hx)
  · exact inv.hosnd.erase u
  · intro x
    show x ∈ st.visited ↔ x ∈ bl ++ [u] ∨ x ∈ st.path.dropLast
    rw [hdrop, inv.hvis x, hupath]
    simp only [List.mem_append, List.mem_singleton]
    tauto
  · intro x hx
    show x ∉ st.path.dropLast
    rw [hdrop]
    rcases List.mem_append.mp hx with h | h
    · intro hxP
      exact inv.hdisj x h (by rw [hupath]; exact List.mem_append_left _ hxP)
    · have : x = u := List.mem_singleton.mp h
      rw [this]
      exact huP
  · rw [List.nodup_append]
    exact ⟨inv.hblnd, List.nodup_singleton u,
      fun a ha hau => hubl ((List.mem_singleton.mp hau) ▸ ha)⟩
  · unfold BlClosed
    rw [blFrom_append]
    refine ⟨inv.hblcl, fun pr hpr => ?_⟩
    rcases htgt pr (hpre2 ▸ hpr) with h | h
    · exact Or.inr h
    · simp at h
  · show StackInv tasks (bl ++ [u]) rest []
    refine stackInv_mono hrest (fun x hx => List.mem_append_left _ hx) ?_
    intro x hx
    have : x = u := List.mem_singleton.mp hx
    exact Or.inl (by rw [this]; exact List.mem_append_right _ (List.mem_singleton.mpr rfl))
  · intro x hx
    rcases List.mem_append.mp hx with h | h
    · exact inv.hblmem x h
    · exact inv.hpathmem x ((List.mem_singleton.mp h) ▸ humem)
  · intro x hx
    show x ∈ uidsOf tasks
    apply inv.hpathmem
    rw [hupath]
    rw [hdrop] at hx
    exact List.mem_append_left _ hx

theorem dfsInv_skip {tasks : List TaskSpec} {bl : List ℤ} {st : DfsState}
    {u w : ℤ} {d : DependencySpec} {it2 : List (ℤ × DependencySpec)}
    {rest : List (ℤ × List (ℤ × DependencySpec))}
    (inv : DfsInv tasks bl st) (hst : st.stack = (u, (w, d) :: it2) :: rest)
    (hv : w ∈ st.visited) (ho : w ∉ st.onStack) :
    DfsInv tasks bl ⟨(u, it2) :: rest, st.path, st.visited, st.onStack⟩ := by
  have hwbl : w ∈ bl := by
    rcases (inv.hvis w).mp hv with h | h
    · exact h
    · exact absurd ((inv.honstack w).mpr h) ho
  obtain ⟨⟨pre, hpre, htgt⟩, hrest⟩ := (hst ▸ inv.hstack : StackInv tasks bl
    ((u, (w, d) :: it2) :: rest) [])
  refine ⟨?_, inv.hpathnd, inv.honstack, inv.hosnd, inv.hvis, inv.hdisj,
    inv.hblnd, inv.hblcl, ?_, inv.hblmem, inv.hpathmem⟩
  · show st.path = ((((u, it2) :: rest).map Prod.fst)).reverse
    rw [inv.hpath, hst]
    simp
  · show StackInv tasks bl ((u, it2) :: rest) []
    refine ⟨⟨pre ++ [(w, d)], by rw [hpre]; simp, ?_⟩, hrest⟩
    intro pr hpr
    rcases List.mem_append.mp hpr with h | h
    · exact htgt pr h
    · have : pr = (w, d) := List.mem_singleton.mp h
      rw [this]
      exact Or.inl hwbl

theorem dfsInv_push {tasks : List TaskSpec} {bl : List ℤ} {st : DfsState}
    {u w : ℤ} {d : DependencySpec} {it2 : List (ℤ × DependencySpec)}
    {rest : List (ℤ × List (ℤ × DependencySpec))}
    (inv : DfsInv tasks bl st) (hst : st.stack = (u, (w, d) :: it2) :: rest)
    (hv : w ∉ st.visited) :
    DfsInv tasks bl ⟨(w, successorsOf tasks w) :: (u, it2) :: rest,
      st.path ++ [w], w :: st.visited, w :: st.onStack⟩ := by
  have hwbl : w ∉ bl := fun h => hv ((inv.hvis w).mpr (Or.inl h))
  have hwpath : w ∉ st.path := fun h => hv ((inv.hvis w).mpr (Or.inr h))
  have hwos : w ∉ st.onStack := fun h => hwpath ((inv.honstack w).mp h)
  obtain ⟨⟨pre, hpre, htgt⟩, hrest⟩ := (hst ▸ inv.hstack : StackInv tasks bl
    ((u, (w, d) :: it2) :: rest) [])
  have hwuids : w ∈ uidsOf tasks := by
    have : (w, d) ∈ successorsOf tasks u := by rw [hpre]; simp
    exact successorsOf_fst_mem this
  refine ⟨?_, ?_, ?_, ?_, ?_, ?_, inv.hblnd, inv.hblcl, ?_, inv.hblmem, ?_⟩
  · show st.path ++ [w] =
      ((((w, successorsOf tasks w) :: (u, it2) :: rest).map Prod.fst)).reverse
    rw [inv.hpath, hst]
    simp
  · show (st.path ++ [w]).Nodup
    rw [List.nodup_append]
    exact ⟨inv.hpathnd, List.nodup_singleton w,
      fun a ha haw => hwpath ((List.mem_singleton.mp haw) ▸ ha)⟩
  · intro x
    show x ∈ w :: st.onStack ↔ x ∈ st.path ++ [w]
    rw [List.mem_cons, List.mem_append, List.mem_singleton, inv.honstack x]
    tauto
  · exact List.nodup_cons.mpr ⟨hwos, inv.hosnd⟩
  · intro x
    show x ∈ w :: st.visited ↔ x ∈ bl ∨ x ∈ st.path ++ [w]
    rw [List.mem_cons, List.mem_append, List.mem_singleton, inv.hvis x]
    tauto
  · intro x hx
    show x ∉ st.path ++ [w]
    rw [List.mem_append, List.mem_singleton]
    rintro (h | rfl)
    · exact inv.hdisj x hx h
    · exact hwbl hx
  · show StackInv tasks bl
      ((w, successorsOf tasks w) :: (u, it2) :: rest) []
    refine ⟨⟨[], by simp, by simp⟩, ⟨⟨pre ++ [(w, d)], by rw [hpre]; simp, ?_⟩, ?_⟩⟩
    · intro pr hpr
      rcases List.mem_append.mp hpr with h | h
      · rcases htgt pr h with h2 | h2
        · exact Or.inl h2
        · simp at h2
      · have : pr = (w, d) := List.mem_singleton.mp h
        rw [this]
        exact Or.inr (List.mem_cons_self _ _)
    · refine stackInv_mono hrest (fun x hx => hx) ?_
      intro x hx
      have : x = u := List.mem_singleton.mp hx
      exact Or.inr (by rw [this]; exact List.mem_cons_self _ _)
  · intro x hx
    rcases List.mem_append.mp hx with h | h
    · exact inv.hpathmem x h
    · exact (List.mem_singleton.mp h) ▸ hwuids

/-- A DFS run that exits normally turns its visited set into a
prefix-closed finish list. -/
theorem dfsWhile_ok {tasks : List TaskSpec} :
    ∀ (fuel : ℕ) (st : DfsState) (bl : List ℤ) (v : List ℤ),
      DfsInv tasks bl st → dfsWhile tasks fuel st = some (.ok v) →
      ∃ bl2, (∀ u, u ∈ v ↔ u ∈ bl2) ∧ bl2.Nodup ∧ BlClosed tasks bl2 ∧
        (∀ u ∈ bl2, u ∈ uidsOf tasks) ∧ (∀ u ∈ st.visited, u ∈ v) := by
  intro fuel
  induction fuel with
  | zero => intro st bl v _ h; simp [dfsWhile] at h
  | succ fuel ih =>
    intro st bl v inv h
    match hst : st.stack with
    | [] =>
      unfold dfsWhile at h
      rw [hst] at h
      have hv : v = st.visited := by
        cases h
        rfl
      have hpathnil : st.path = [] := by rw [inv.hpath, hst]; rfl
      refine ⟨bl, ?_, inv.hblnd, inv.hblcl, inv.hblmem, by rw [hv]; exact fun u hu => hu⟩
      intro u
      rw [hv, inv.hvis u, hpathnil]
      simp
    | (u, it) :: rest =>
      match hit : it with
      | [] =>
        unfold dfsWhile at h
        rw [hst] at h
        obtain ⟨bl2, h1, h2, h3, h4, h5⟩ :=
          ih ⟨rest, st.path.dropLast, st.visited, st.onStack.erase u⟩
            (bl ++ [u]) v (dfsInv_pop inv hst) h
        exact ⟨bl2, h1, h2, h3, h4, h5⟩
      | (w, d) :: it2 =>
        unfold dfsWhile at h
        rw [hst] at h
        by_cases hv : w ∈ st.visited
        · by_cases ho : w ∈ st.onStack
          · simp only [hv, ho, if_true] at h
            exact absurd h (by simp)
          · simp only [hv, ho, if_true, if_false] at h
            obtain ⟨bl2, h1, h2, h3, h4, h5⟩ :=
              ih ⟨(u, it2) :: rest, st.path, st.visited, st.onStack⟩ bl v
                (dfsInv_skip inv hst hv ho) h
            exact ⟨bl2, h1, h2, h3, h4, h5⟩
        · simp only [hv, if_false] at h
          obtain ⟨bl2, h1, h2, h3, h4, h5⟩ :=
            ih ⟨(w, successorsOf tasks w) :: (u, it2) :: rest, st.path ++ [w],
                w :: st.visited, w :: st.onStack⟩ bl v
              (dfsInv_push inv hst hv) h
          exact ⟨bl2, h1, h2, h3, h4,
            fun x hx => h5 x (List.mem_cons_of_mem _ hx)⟩

theorem dfsRun_some {tasks : List TaskSpec} {st : DfsState}
    (hsuf : SuffixInv tasks st) :
    dfsWhile tasks (dfsMeasure tasks st + 1) st = some (dfsRun tasks st) := by
  have h := dfsWhile_isSome (dfsMeasure tasks st + 1) st hsuf (by omega)
  unfold dfsRun
  cases hx : dfsWhile tasks (dfsMeasure tasks st + 1) st with
  | none => rw [hx] at h; simp at h
  | some r => rfl

theorem dfsInit_inv {tasks : List TaskSpec} {t : TaskSpec} {visited bl : List ℤ}
    (ht : t ∈ tasks) (hnv : t.uid ∉ visited)
    (hvb : ∀ u, u ∈ visited ↔ u ∈ bl) (hnd : bl.Nodup) (hcl : BlClosed tasks bl)
    (hmem : ∀ u ∈ bl, u ∈ uidsOf tasks) :
    DfsInv tasks bl (dfsInit tasks t visited) := by
  have htbl : t.uid ∉ bl := fun h => hnv ((hvb t.uid).mpr h)
  refine ⟨rfl, List.nodup_singleton _, ?_, List.nodup_singleton _, ?_, ?_,
    hnd, hcl, ⟨⟨[], rfl, by simp⟩, trivial⟩, hmem, ?_⟩
  · intro x
    rfl
  · intro x
    show x ∈ t.uid :: visited ↔ x ∈ bl ∨ x ∈ [t.uid]
    rw [List.mem_cons, List.mem_singleton, hvb x]
    tauto
  · intro x hx
    show x ∉ [t.uid]
    rw [List.mem_singleton]
    rintro rfl
    exact htbl hx
  · intro x hx
    have hx2 : x ∈ [t.uid] := hx
    rw [List.mem_singleton] at hx2
    rw [hx2]
    exact List.mem_map.mpr ⟨t, ht, rfl⟩

theorem findCycleAux_none_closed {tasks : List TaskSpec} :
    ∀ (roots : List TaskSpec) (visited bl : List ℤ),
      (∀ t ∈ roots, t ∈ tasks) →
      (∀ u, u ∈ visited ↔ u ∈ bl) → bl.Nodup → BlClosed tasks bl →
      (∀ u ∈ bl, u ∈ uidsOf tasks) →
      findCycleAux tasks roots visited = none →
      ∃ bl2, BlClosed tasks bl2 ∧ bl2.Nodup ∧
        (∀ u ∈ visited, u ∈ bl2) ∧ (∀ t ∈ roots, t.uid ∈ bl2) ∧
        (∀ u ∈ bl2, u ∈ uidsOf tasks) := by
  intro roots
  induction roots with
  | nil =>
    intro visited bl _ hvb hnd hcl hmem _
    exact ⟨bl, hcl, hnd, fun u hu => (hvb u).mp hu, by simp, hmem⟩
  | cons t rest ih =>
    intro visited bl hroots hvb hnd hcl hmem h
    unfold findCycleAux at h
    by_cases hvt : t.uid ∈ visited
    · rw [if_pos hvt] at h
      obtain ⟨bl2, h1, h2, h3, h4, h5⟩ :=
        ih visited bl (fun x hx => hroots x (List.mem_cons_of_mem _ hx))
          hvb hnd hcl hmem h
      exact ⟨bl2, h1, h2, h3, fun x hx => by
        rcases List.mem_cons.mp hx with rfl | hx2
        · exact h3 _ hvt
        · exact h4 x hx2, h5⟩
    · rw [if_neg hvt] at h
      have hinv : DfsInv tasks bl (dfsInit tasks t visited) :=
        dfsInit_inv (hroots t (List.mem_cons_self _ _)) hvt hvb hnd hcl hmem
      have hsuf : SuffixInv tasks (dfsInit tasks t visited) :=
        stackInv_suffix hinv.hstack
      have hrun := dfsRun_some hsuf
      cases hres : dfsRun tasks (dfsInit tasks t visited) with
      | error info =>
        rw [hres] at h
        simp at h
      | ok visited2 =>
        rw [hres] at h
        rw [hres] at hrun
        obtain ⟨bl1, h1, h2, h3, h4, h5⟩ :=
          dfsWhile_ok _ _ bl visited2 hinv hrun
        obtain ⟨bl2, g1, g2, g3, g4, g5⟩ :=
          ih visited2 bl1 (fun x hx => hroots x (List.mem_cons_of_mem _ hx))
            h1 h2 h3 h4 h
        refine ⟨bl2, g1, g2, ?_, ?_, g5⟩
        · intro x hx
          exact g3 x (h5 x (List.mem_cons_of_mem _ hx))
        · intro x hx
          rcases List.mem_cons.mp hx with rfl | hx2
          · exact g3 _ (h5 _ (List.mem_cons_self _ _))
          · exact g4 x hx2

/-!
### From prefix-closedness to acyclicity
-/

theorem blFrom_decomp {tasks : List TaskSpec} :
    ∀ (l seen : List ℤ), BlFrom tasks seen l → ∀ u ∈ l,
      ∃ l1 l2, l = l1 ++ u :: l2 ∧
        ∀ pr ∈ successorsOf tasks u, (pr.1 ∈ seen ∨ pr.1 ∈ l1) := by
  intro l
  induction l with
  | nil => intro seen _ u hu; simp at hu
  | cons a rest ih =>
    intro seen h u hu
    obtain ⟨htgt, hrest⟩ := h
    rcases List.mem_cons.mp hu with rfl | hu2
    · exact ⟨[], rest, rfl, fun pr hpr => Or.inl (htgt pr hpr)⟩
    · obtain ⟨l1, l2, heq, htgts⟩ := ih (a :: seen) hrest u hu2
      refine ⟨a :: l1, l2, by rw [heq]; rfl, fun pr hpr => ?_⟩
      rcases htgts pr hpr with hh | hh
      · rcases List.mem_cons.mp hh with rfl | hh2
        · exact Or.inr (List.mem_cons_self _ _)
        · exact Or.inl hh2
      · exact Or.inr (List.mem_cons_of_mem _ hh)

theorem blclosed_edge_lt {tasks : List TaskSpec} {bl : List ℤ}
    (hnd : bl.Nodup) (hcl : BlClosed tasks bl) {u w : ℤ}
    (hu : u ∈ bl) (he : Edge tasks u w) :
    w ∈ bl ∧ bl.indexOf w < bl.indexOf u := by
  obtain ⟨l1, l2, heq, htgts⟩ := blFrom_decomp bl [] hcl u hu
  obtain ⟨pr, hpr, hfst⟩ := List.mem_map.mp he
  have hw : w ∈ l1 := by
    rcases htgts pr hpr with h | h
    · simp at h
    · exact hfst ▸ h
  have hul1 : u ∉ l1 := by
    rw [heq] at hnd
    rcases List.nodup_append.mp hnd with ⟨_, hnd2, hdisj2⟩
    intro hul
    exact hdisj2 hul (List.mem_cons_self _ _)
  constructor
  · rw [heq]
    exact List.mem_append_left _ hw
  · rw [heq, List.indexOf_append_of_mem hw, List.indexOf_append_of_not_mem hul1,
      List.indexOf_cons_self]
    have := List.indexOf_lt_length.mpr hw
    omega

theorem blclosed_acyclic {tasks : List TaskSpec} {bl : List ℤ}
    (hnd : bl.Nodup) (hcl : BlClosed tasks bl)
    (hcov : ∀ u ∈ uidsOf tasks, u ∈ bl) : Acyclic tasks := by
  intro v htg
  have hrank : ∀ a b : ℤ, Relation.TransGen (Edge tasks) a b → a ∈ bl →
      b ∈ bl ∧ bl.indexOf b < bl.indexOf a := by
    intro a b h
    induction h with
    | single he => intro ha; exact blclosed_edge_lt hnd hcl ha he
    | tail _ he ihh =>
      intro ha
      obtain ⟨h1, h2⟩ := ihh ha
      obtain ⟨h3, h4⟩ := blclosed_edge_lt hnd hcl h1 he
      exact ⟨h3, lt_trans h4 h2⟩
  have hv : v ∈ bl := hcov v (transGen_target_mem htg)
  obtain ⟨_, habsurd⟩ := hrank v v htg hv
  omega

/-- `_find_cycle` returning `None` certifies that the remaining
dependency graph is acyclic. -/
theorem find_cycle_none_acyclic {tasks : List TaskSpec}
    (h : find_cycle tasks = none) : Acyclic tasks := by
  unfold find_cycle at h
  obtain ⟨bl2, hcl, hnd, _, hroots, _⟩ :=
    findCycleAux_none_closed tasks [] [] (fun t ht => ht)
      (by simp) List.nodup_nil trivial (by simp) h
  apply blclosed_acyclic hnd hcl
  intro u hu
  obtain ⟨t, ht, huid⟩ := List.mem_map.mp hu
  exact huid ▸ hroots t ht

/-!
### The dependency returned with a cycle belongs to the reported task
-/

theorem dfsWhile_error {tasks : List TaskSpec} :
    ∀ (fuel : ℕ) (st : DfsState) (cyc : List ℤ) (su : ℤ) (d : DependencySpec),
      SuffixInv tasks st → dfsWhile tasks fuel st = some (.error (cyc, su, d)) →
      ∃ t ∈ tasks, t.uid = su ∧ d ∈ t.dependencies := by
  intro fuel
  induction fuel with
  | zero => intro st cyc su d _ h; simp [dfsWhile] at h
  | succ fuel ih =>
    intro st cyc su d hsuf h
    match hst : st.stack with
    | [] =>
      unfold dfsWhile at h
      rw [hst] at h
      exact absurd h (by simp)
    | (u, it) :: rest =>
      match hit : it with
      | [] =>
        unfold dfsWhile at h
        rw [hst] at h
        refine ih _ cyc su d ?_ h
        intro p hp
        exact hsuf p (by rw [hst]; exact List.mem_cons_of_mem _ hp)
      | (w, d2) :: it2 =>
        unfold dfsWhile at h
        rw [hst] at h
        have hw2mem : (w, d2) ∈ successorsOf tasks u := by
          obtain ⟨pre, hpre⟩ := hsuf (u, (w, d2) :: it2)
            (by rw [hst]; exact List.mem_cons_self _ _)
          rw [hpre]
          simp
        by_cases hv : w ∈ st.visited
        · by_cases ho : w ∈ st.onStack
          · simp only [hv, ho, if_true] at h
            have hinj : ((st.path.drop (if w ∈ st.path then st.path.indexOf w else 0))
                ++ [w], w, d2) = (cyc, su, d) := by
              cases h
              rfl
            obtain ⟨t, ht, huid, hd, _⟩ := mem_successorsOf.mp hw2mem
            have hw : w = su := congrArg (fun p => p.2.1) hinj
            have hd2 : d2 = d := congrArg (fun p => p.2.2) hinj
            exact ⟨t, ht, by rw [huid, hw], by rw [← hd2]; exact hd⟩
          · simp only [hv, ho, if_true, if_false] at h
            refine ih _ cyc su d ?_ h
            intro p hp
            rcases List.mem_cons.mp hp with rfl | hp2
            · obtain ⟨pre, hpre⟩ := hsuf (u, (w, d2) :: it2)
                (by rw [hst]; exact List.mem_cons_self _ _)
              exact ⟨pre ++ [(w, d2)], by rw [hpre]; simp⟩
            · exact hsuf p (by rw [hst]; exact List.mem_cons_of_mem _ hp2)
        · simp only [hv, if_false] at h
          refine ih _ cyc su d ?_ h
          intro p hp
          rcases List.mem_cons.mp hp with rfl | hp2
          · exact ⟨[], rfl⟩
          · rcases List.mem_cons.mp hp2 with rfl | hp3
            · obtain ⟨pre, hpre⟩ := hsuf (u, (w, d2) :: it2)
                (by rw [hst]; exact List.mem_cons_self _ _)
              exact ⟨pre ++ [(w, d2)], by rw [hpre]; simp⟩
            · exact hsuf p (by rw [hst]; exact List.mem_cons_of_mem _ hp3)

theorem find_cycle_some {tasks : List TaskSpec} {cyc : List ℤ} {su : ℤ}
    {d : DependencySpec} (h : find_cycle tasks = some (cyc, su, d)) :
    ∃ t ∈ tasks, t.uid = su ∧ d ∈ t.dependencies := by
  unfold find_cycle at h
  suffices hgen : ∀ (roots : List TaskSpec) (visited : List ℤ),
      findCycleAux tasks roots visited = some (cyc, su, d) →
      ∃ t ∈ tasks, t.uid = su ∧ d ∈ t.dependencies by
    exact hgen tasks [] h
  intro roots
  induction roots with
  | nil => intro visited hh; simp [findCycleAux] at hh
  | cons t rest ih =>
    intro visited hh
    unfold findCycleAux at hh
    by_cases hvt : t.uid ∈ visited
    · rw [if_pos hvt] at hh
      exact ih visited hh
    · rw [if_neg hvt] at hh
      have hsuf : SuffixInv tasks (dfsInit tasks t visited) := by
        intro p hp
        have hp2 : p ∈ [(t.uid, successorsOf tasks t.uid)] := hp
        rw [List.mem_singleton] at hp2
        rw [hp2]
        exact ⟨[], rfl⟩
      have hrun := dfsRun_some hsuf
      cases hres : dfsRun tasks (dfsInit tasks t visited) with
      | error info =>
        rw [hres] at hh
        have : info = (cyc, su, d) := by
          cases hh
          rfl
        rw [hres, this] at hrun
        exact dfsWhile_error _ _ cyc su d hsuf hrun
      | ok visited2 =>
        rw [hres] at hh
        exact ih visited2 hh

/-!
## `_resolve_cycles` terminates removing one edge per pass
-/

theorem dependencyMatches_self (d : DependencySpec) :
    dependencyMatches d d = true := by
  unfold dependencyMatches
  simp [relUpper, eps]

theorem removeFirstMatch_length :
    ∀ {deps : List DependencySpec} {d r : DependencySpec}
      {nd : List DependencySpec},
      removeFirstMatch deps d = some (r, nd) → nd.length + 1 = deps.length := by
  intro deps
  induction deps with
  | nil => intro d r nd h; simp [removeFirstMatch] at h
  | cons e es ih =>
    intro d r nd h
    unfold removeFirstMatch at h
    by_cases he : dependencyMatches e d
    · rw [if_pos he] at h
      cases h
      rfl
    · rw [if_neg he] at h
      cases hrec : removeFirstMatch es d with
      | none => rw [hrec] at h; simp at h
      | some p =>
        rw [hrec] at h
        simp only [Option.map] at h
        cases h
        have := ih hrec
        simp only [List.length_cons]
        omega

theorem removeFirstMatch_isSome {deps : List DependencySpec}
    {d : DependencySpec} (hd : d ∈ deps) :
    (removeFirstMatch deps d).isSome := by
  induction deps with
  | nil => simp at hd
  | cons e es ih =>
    unfold removeFirstMatch
    by_cases he : dependencyMatches e d
    · rw [if_pos he]; rfl
    · rw [if_neg he]
      have hde : d ≠ e := fun h => he (h ▸ dependencyMatches_self d)
      have hdes : d ∈ es := by
        rcases List.mem_cons.mp hd with rfl | h2
        · exact absurd rfl hde
        · exact h2
      have := ih hdes
      cases hx : removeFirstMatch es d with
      | none => rw [hx] at this; simp at this
      | some p => simp [hx]

theorem uidsOf_updateFirstAux (su : ℤ) (nd : List DependencySpec) :
    ∀ l : List TaskSpec, uidsOf (updateFirstAux su nd l) = uidsOf l := by
  intro l
  induction l with
  | nil => rfl
  | cons t rest ih =>
    unfold updateFirstAux
    by_cases h : t.uid = su
    · rw [if_pos h]; rfl
    · rw [if_neg h]
      unfold uidsOf at ih ⊢
      simp [ih]

theorem uidsOf_reverse (l : List TaskSpec) :
    uidsOf l.reverse = (uidsOf l).reverse := by
  unfold uidsOf
  exact List.map_reverse _ _

theorem uidsOf_updateLastTask (tasks : List TaskSpec) (su : ℤ)
    (nd : List DependencySpec) :
    uidsOf (updateLastTask tasks su nd) = uidsOf tasks := by
  unfold updateLastTask
  rw [uidsOf_reverse, uidsOf_updateFirstAux, uidsOf_reverse, List.reverse_reverse]

theorem totalDeps_reverse (l : List TaskSpec) :
    totalDeps l.reverse = totalDeps l := by
  unfold totalDeps
  rw [List.map_reverse, List.sum_reverse]

theorem find_first_of_nodup :
    ∀ {l : List TaskSpec} {t : TaskSpec}, (uidsOf l).Nodup → t ∈ l →
      l.find? (fun x => x.uid = t.uid) = some t := by
  intro l
  induction l with
  | nil => intro t _ ht; simp at ht
  | cons a rest ih =>
    intro t hnd ht
    have hnd2 : a.uid ∉ uidsOf rest ∧ (uidsOf rest).Nodup := by
      unfold uidsOf at hnd ⊢
      exact List.nodup_cons.mp hnd
    rcases List.mem_cons.mp ht with rfl | ht2
    · rw [List.find?_cons_of_pos _ (by simp)]
    · have hne : ¬ (a.uid = t.uid) := by
        intro hx
        exact hnd2.1 (hx ▸ List.mem_map.mpr ⟨t, ht2, rfl⟩)
      rw [List.find?_cons_of_neg _ (by simpa using hne)]
      exact ih hnd2.2 ht2

theorem lookupTaskLast_of_nodup {tasks : List TaskSpec} {t : TaskSpec}
    (hnd : (uidsOf tasks).Nodup) (ht : t ∈ tasks) :
    lookupTaskLast tasks t.uid = some t := by
  unfold lookupTaskLast
  apply find_first_of_nodup
  · rw [uidsOf_reverse]
    exact List.nodup_reverse.mpr hnd
  · exact List.mem_reverse.mpr ht

theorem updateFirstAux_totalDeps (su : ℤ) (nd : List DependencySpec) :
    ∀ (l : List TaskSpec) (stask : TaskSpec),
      l.find? (fun x => x.uid = su) = some stask →
      totalDeps (updateFirstAux su nd l) + stask.dependencies.length =
        totalDeps l + nd.length := by
  intro l
  induction l with
  | nil => intro stask h; simp [List.find?] at h
  | cons t rest ih =>
    intro stask h
    unfold updateFirstAux
    by_cases hu : t.uid = su
    · rw [if_pos hu]
      rw [List.find?_cons_of_pos _ (by simpa using hu)] at h
      cases h
      unfold totalDeps
      simp
      omega
    · rw [if_neg hu]
      rw [List.find?_cons_of_neg _ (by simpa using hu)] at h
      have := ih stask h
      unfold totalDeps at this ⊢
      simp at this ⊢
      omega

theorem updateLastTask_totalDeps {tasks : List TaskSpec} {su : ℤ}
    {stask : TaskSpec} (nd : List DependencySpec)
    (h : lookupTaskLast tasks su = some stask) :
    totalDeps (updateLastTask tasks su nd) + stask.dependencies.length =
      totalDeps tasks + nd.length := by
  unfold lookupTaskLast at h
  unfold updateLastTask
  rw [totalDeps_reverse, ← totalDeps_reverse tasks]
  exact updateFirstAux_totalDeps su nd tasks.reverse stask h

theorem resolveLoop_isSome :
    ∀ (fuel : ℕ) (tasks : List TaskSpec), totalDeps tasks < fuel →
      (resolveLoop fuel tasks).isSome := by
  intro fuel
  induction fuel with
  | zero => intro tasks h; omega
  | succ fuel ih =>
    intro tasks hf
    unfold resolveLoop
    cases hfc : find_cycle tasks with
    | none => rfl
    | some info =>
      obtain ⟨cyc, su, d⟩ := info
      dsimp only
      cases hlk : lookupTaskLast tasks su with
      | none => rfl
      | some stask =>
        dsimp only
        cases hrm : removeFirstMatch stask.dependencies d with
        | none => rfl
        | some p =>
          obtain ⟨removed, nd⟩ := p
          dsimp only
          have h1 := removeFirstMatch_length hrm
          have h2 := updateLastTask_totalDeps nd hlk
          have h3 : totalDeps (updateLastTask tasks su nd) < fuel := by omega
          have := ih (updateLastTask tasks su nd) h3
          cases hx : resolveLoop fuel (updateLastTask tasks su nd) with
          | none => rw [hx] at this; simp at this
          | some q => simp [hx]

/-- Main property of the cycle-resolution loop on a duplicate-free task
list: it terminates, the resulting graph is acyclic, uids are unchanged,
and exactly one `CycleResolution` is emitted per removed dependency. -/
theorem resolveLoop_props :
    ∀ (fuel : ℕ) (tasks : List TaskSpec)
      (res : List TaskSpec × List CycleResolution),
      (uidsOf tasks).Nodup → resolveLoop fuel tasks = some res →
      Acyclic res.1 ∧ totalDeps tasks = totalDeps res.1 + res.2.length ∧
        uidsOf res.1 = uidsOf tasks := by
  intro fuel
  induction fuel with
  | zero => intro tasks res _ h; simp [resolveLoop] at h
  | succ fuel ih =>
    intro tasks res hnd h
    unfold resolveLoop at h
    cases hfc : find_cycle tasks with
    | none =>
      rw [hfc] at h
      cases h
      exact ⟨find_cycle_none_acyclic hfc, by simp, rfl⟩
    | some info =>
      rw [hfc] at h
      obtain ⟨cyc, su, d⟩ := info
      obtain ⟨t, ht, huid, hd⟩ := find_cycle_some hfc
      have hlk : lookupTaskLast tasks su = some t := huid ▸ lookupTaskLast_of_nodup hnd ht
      dsimp only at h
      rw [hlk] at h
      dsimp only at h
      have hsome := removeFirstMatch_isSome hd
      cases hrm : removeFirstMatch t.dependencies d with
      | none => rw [hrm] at hsome; simp at hsome
      | some p =>
        rw [hrm] at h
        obtain ⟨removed, nd⟩ := p
        dsimp only at h
        cases hrec : resolveLoop fuel (updateLastTask tasks su nd) with
        | none => rw [hrec] at h; simp at h
        | some q =>
          rw [hrec] at h
          simp only [Option.map] at h
          have hnd2 : (uidsOf (updateLastTask tasks su nd)).Nodup := by
            rw [uidsOf_updateLastTask]; exact hnd
          obtain ⟨ha, hb, hc⟩ := ih (updateLastTask tasks su nd) q hnd2 hrec
          have h1 := removeFirstMatch_length hrm
          have h2 := updateLastTask_totalDeps nd hlk
          cases h
          refine ⟨ha, ?_, by rw [hc, uidsOf_updateLastTask]⟩
          simp only [List.length_cons]
          omega

/-- `_resolve_cycles` on a duplicate-free task list: the fuelled loop
returns within `totalDeps + 1` passes, and the result is acyclic with
one resolution per removed edge. -/
theorem resolve_cycles_props {tasks : List TaskSpec}
    (hnd : (uidsOf tasks).Nodup) :
    resolveLoop (totalDeps tasks + 1) tasks = some (resolve_cycles tasks) ∧
    Acyclic (resolve_cycles tasks).1 ∧
    totalDeps tasks =
      totalDeps (resolve_cycles tasks).1 + (resolve_cycles tasks).2.length ∧
    uidsOf (resolve_cycles tasks).1 = uidsOf tasks := by
  by_cases hemp : tasks.isEmpty
  · have htasks : tasks = [] := List.isEmpty_iff.mp hemp
    subst htasks
    have hres : resolve_cycles ([] : List TaskSpec) = ([], []) := rfl
    have hfc : find_cycle ([] : List TaskSpec) = none := rfl
    refine ⟨?_, ?_, by rw [hres]; rfl, by rw [hres]⟩
    · rw [hres]
      unfold resolveLoop
      rw [hfc]
    · rw [hres]
      exact find_cycle_none_acyclic hfc
  · have hs := resolveLoop_isSome (totalDeps tasks + 1) tasks (by omega)
    cases hx : resolveLoop (totalDeps tasks + 1) tasks with
    | none => rw [hx] at hs; simp at hs
    | some res =>
      have hres : resolve_cycles tasks = res := by
        unfold resolve_cycles
        rw [if_neg (by simpa using hemp), hx]
        rfl
      obtain ⟨ha, hb, hc⟩ := resolveLoop_props _ tasks res hnd hx
      rw [hres]
      exact ⟨rfl, ha, hb, hc⟩

theorem filter_length_split {α : Type} (p q : α → Bool) :
    ∀ l : List α, (l.filter p).length =
      (l.filter (fun a => p a && q a)).length +
      (l.filter (fun a => p a && ! q a)).length := by
  intro l
  induction l with
  | nil => simp
  | cons a rest ih =>
    by_cases hp : p a
    · by_cases hq : q a
      · rw [List.filter_cons_of_pos hp, List.filter_cons_of_pos (by simp [hp, hq]),
          List.filter_cons_of_neg (by simp [hp, hq])]
        simp only [List.length_cons]
        omega
      · rw [List.filter_cons_of_pos hp, List.filter_cons_of_neg (by simp [hp, hq]),
          List.filter_cons_of_pos (by simp [hp]; simpa using hq)]
        simp only [List.length_cons]
        omega
    · rw [List.filter_cons_of_neg (by simpa using hp),
        List.filter_cons_of_neg (by simp [hp]),
        List.filter_cons_of_neg (by simp [hp])]
      exact ih

theorem remCount_nonneg (tasks : List TaskSpec) (order : List ℤ) (u : ℤ) :
    0 ≤ remCount tasks order u := by
  unfold remCount
  apply List.sum_nonneg
  intro x hx
  obtain ⟨t, _, hval⟩ := List.mem_map.mp hx
  rw [← hval]
  positivity

theorem countTarget_nonneg (P : List (ℤ × DependencySpec)) (u : ℤ) :
    0 ≤ countTarget P u := by
  unfold countTarget
  positivity

theorem countTarget_append (P Q : List (ℤ × DependencySpec)) (u : ℤ) :
    countTarget (P ++ Q) u = countTarget P u + countTarget Q u := by
  unfold countTarget
  rw [List.filter_append, List.length_append]
  push_cast
  ring

theorem countTarget_single (w : ℤ) (d : DependencySpec) (u : ℤ) :
    countTarget [(w, d)] u = if w = u then 1 else 0 := by
  unfold countTarget
  by_cases h : w = u
  · simp [h]
  · simp [h]

theorem countTarget_filterMap (t : TaskSpec) (m u : ℤ) :
    countTarget (t.dependencies.filterMap (fun d =>
      if d.predecessor_uid = m then some (t.uid, d) else none)) u =
    if t.uid = u then
      ((t.dependencies.filter (fun d => d.predecessor_uid = m)).length : ℤ)
    else 0 := by
  induction t.dependencies with
  | nil => by_cases h : t.uid = u <;> simp [countTarget, h]
  | cons d ds ih =>
    by_cases hm : d.predecessor_uid = m
    · rw [List.filterMap_cons_some (by rw [if_pos hm]),
        List.filter_cons_of_pos (by simpa using hm)]
      have : ((t.uid, d) :: List.filterMap _ ds) = [(t.uid, d)] ++
          ds.filterMap (fun d => if d.predecessor_uid = m then some (t.uid, d) else none) := rfl
      rw [this, countTarget_append, countTarget_single, ih]
      by_cases h : t.uid = u
      · rw [if_pos h, if_pos h, if_pos h]
        simp only [List.length_cons]
        push_cast
        ring
      · rw [if_neg h, if_neg h, if_neg h]
        ring
    · rw [List.filterMap_cons_none (by rw [if_neg hm]),
        List.filter_cons_of_neg (by simpa using hm), ih]

theorem countTarget_successorsOf (tasks : List TaskSpec) (m u : ℤ) :
    countTarget (successorsOf tasks m) u =
    ((tasks.filter (fun t => t.uid = u)).map
      (fun t => ((t.dependencies.filter
        (fun d => d.predecessor_uid = m)).length : ℤ))).sum := by
  induction tasks with
  | nil => simp [successorsOf, countTarget]
  | cons t rest ih =>
    unfold successorsOf at ih ⊢
    rw [List.flatMap_cons, countTarget_append, ih, countTarget_filterMap]
    by_cases h : t.uid = u
    · rw [if_pos h, List.filter_cons_of_pos (by simpa using h)]
      simp
    · rw [if_neg h, List.filter_cons_of_neg (by simpa using h)]
      simp

theorem sum_map_add {α : Type} (l : List α) (g h : α → ℤ) :
    (l.map (fun a => g a + h a)).sum = (l.map g).sum + (l.map h).sum := by
  induction l with
  | nil => simp
  | cons a r ih => simp only [List.map_cons, List.sum_cons, ih]; ring

theorem deps_split (deps : List DependencySpec) (order : List ℤ) (m : ℤ)
    (hm : m ∉ order) :
    ((deps.filter (fun d => ¬ d.predecessor_uid ∈ order)).length : ℤ) =
    ((deps.filter (fun d => ¬ d.predecessor_uid ∈ order ++ [m])).length : ℤ) +
    ((deps.filter (fun d => d.predecessor_uid = m)).length : ℤ) := by
  have hsplit := filter_length_split
    (fun d : DependencySpec => decide (¬ d.predecessor_uid ∈ order))
    (fun d : DependencySpec => decide (d.predecessor_uid = m)) deps
  have h1 : deps.filter (fun d =>
      decide (¬ d.predecessor_uid ∈ order) && decide (d.predecessor_uid = m)) =
      deps.filter (fun d => d.predecessor_uid = m) := by
    apply List.filter_congr
    intro d _
    by_cases h : d.predecessor_uid = m
    · simp [h, hm]
    · simp [h]
  have h2 : deps.filter (fun d =>
      decide (¬ d.predecessor_uid ∈ order) && ! decide (d.predecessor_uid = m)) =
      deps.filter (fun d => ¬ d.predecessor_uid ∈ order ++ [m]) := by
    apply List.filter_congr
    intro d _
    by_cases h : d.predecessor_uid = m
    · simp [h, hm]
    · by_cases h3 : d.predecessor_uid ∈ order
      · simp [h, h3]
      · simp [h, h3]
  rw [h1, h2] at hsplit
  push_cast
  omega

theorem remCount_boundary (tasks : List TaskSpec) (order : List ℤ) (m : ℤ)
    (hm : m ∉ order) (u : ℤ) :
    remCount tasks order u =
      remCount tasks (order ++ [m]) u + countTarget (successorsOf tasks m) u := by
  rw [countTarget_successorsOf]
  unfold remCount
  have hcong : ∀ t ∈ tasks.filter (fun t => t.uid = u),
      ((t.dependencies.filter (fun d => ¬ d.predecessor_uid ∈ order)).length : ℤ) =
      ((t.dependencies.filter
        (fun d => ¬ d.predecessor_uid ∈ order ++ [m])).length : ℤ) +
      ((t.dependencies.filter (fun d => d.predecessor_uid = m)).length : ℤ) :=
    fun t _ => deps_split t.dependencies order m hm
  rw [List.map_congr_left hcong, sum_map_add]

theorem foldl_min_mem (x : ℤ) (xs : List ℤ) : xs.foldl min x ∈ x :: xs := by
  induction xs generalizing x with
  | nil => simp
  | cons y ys ih =>
    rw [List.foldl_cons]
    have h := ih (min x y)
    rcases List.mem_cons.mp h with h | h
    · rw [h]
      rcases min_choice x y with hm | hm <;> rw [hm]
      · exact List.mem_cons_self _ _
      · exact List.mem_cons_of_mem _ (List.mem_cons_self _ _)
    · exact List.mem_cons_of_mem _ (List.mem_cons_of_mem _ h)

theorem listMin_mem {l : List ℤ} {m : ℤ} (h : listMin l = some m) : m ∈ l := by
  cases l with
  | nil => simp [listMin] at h
  | cons x xs =>
    simp only [listMin, Option.some.injEq] at h
    rw [← h]
    exact foldl_min_mem x xs

theorem listMin_none {l : List ℤ} (h : listMin l = none) : l = [] := by
  cases l with
  | nil => rfl
  | cons x xs => simp [listMin] at h

theorem dictKeys_aux (l acc : List ℤ) (hnd : l.Nodup)
    (hdisj : ∀ x ∈ l, x ∉ acc) :
    l.foldl (fun acc u => if u ∈ acc then acc else acc ++ [u]) acc = acc ++ l := by
  induction l generalizing acc with
  | nil => simp
  | cons u rest ih =>
    rw [List.foldl_cons, if_neg (hdisj u (List.mem_cons_self u rest))]
    rw [ih (acc ++ [u]) (List.nodup_cons.mp hnd).2]
    · simp
    · intro x hx
      rw [List.mem_append]
      push_neg
      exact ⟨hdisj x (List.mem_cons_of_mem u hx),
        by simp; rintro rfl; exact (List.nodup_cons.mp hnd).1 hx⟩

theorem dictKeys_of_nodup {l : List ℤ} (h : l.Nodup) : dictKeys l = l := by
  unfold dictKeys
  rw [dictKeys_aux l [] h (by simp)]
  simp

theorem sum_eq_zero_each {l : List ℤ} (hpos : ∀ x ∈ l, 0 ≤ x)
    (hsum : l.sum = 0) : ∀ x ∈ l, x = 0 := by
  induction l with
  | nil => simp
  | cons a rest ih =>
    rw [List.sum_cons] at hsum
    have ha : 0 ≤ a := hpos a (List.mem_cons_self a rest)
    have hr : 0 ≤ rest.sum := List.sum_nonneg (fun x hx => hpos x (List.mem_cons_of_mem a hx))
    have ha0 : a = 0 := by linarith
    have hrs : rest.sum = 0 := by linarith
    intro x hx
    rcases List.mem_cons.mp hx with rfl | hx
    · exact ha0
    · exact ih (fun x hx => hpos x (List.mem_cons_of_mem a hx)) hrs x hx

theorem remCount_zero_pred_mem {tasks : List TaskSpec} {order : List ℤ} {u : ℤ}
    (h : remCount tasks order u = 0) :
    ∀ t ∈ tasks, t.uid = u → ∀ d ∈ t.dependencies, d.predecessor_uid ∈ order := by
  intro t ht huid d hd
  unfold remCount at h
  have hmem : ((t.dependencies.filter
      (fun d => ¬ d.predecessor_uid ∈ order)).length : ℤ) ∈
      ((tasks.filter (fun t => t.uid = u)).map
        (fun t => ((t.dependencies.filter
          (fun d => ¬ d.predecessor_uid ∈ order)).length : ℤ))) :=
    List.mem_map.mpr ⟨t, List.mem_filter.mpr ⟨ht, by simp [huid]⟩, rfl⟩
  have hzero := sum_eq_zero_each (fun x hx => by
    obtain ⟨t2, _, hval⟩ := List.mem_map.mp hx
    rw [← hval]; positivity) h _ hmem
  have hlen : (t.dependencies.filter
      (fun d => ¬ d.predecessor_uid ∈ order)).length = 0 := by exact_mod_cast hzero
  rw [List.length_eq_zero] at hlen
  by_contra hno
  have : d ∈ t.dependencies.filter (fun d => ¬ d.predecessor_uid ∈ order) :=
    List.mem_filter.mpr ⟨hd, by simpa using hno⟩
  rw [hlen] at this
  exact List.not_mem_nil d this

theorem remCount_pos_of {tasks : List TaskSpec} {order : List ℤ} {u : ℤ}
    {t : TaskSpec} (ht : t ∈ tasks) (huid : t.uid = u)
    {d : DependencySpec} (hd : d ∈ t.dependencies)
    (hno : d.predecessor_uid ∉ order) :
    1 ≤ remCount tasks order u := by
  unfold remCount
  have hmem : ((t.dependencies.filter
      (fun d => ¬ d.predecessor_uid ∈ order)).length : ℤ) ∈
      ((tasks.filter (fun t => t.uid = u)).map
        (fun t => ((t.dependencies.filter
          (fun d => ¬ d.predecessor_uid ∈ order)).length : ℤ))) :=
    List.mem_map.mpr ⟨t, List.mem_filter.mpr ⟨ht, by simp [huid]⟩, rfl⟩
  have hdin : d ∈ t.dependencies.filter (fun d => ¬ d.predecessor_uid ∈ order) :=
    List.mem_filter.mpr ⟨hd, by simpa using hno⟩
  have hlen : 1 ≤ ((t.dependencies.filter
      (fun d => ¬ d.predecessor_uid ∈ order)).length : ℤ) := by
    have := List.length_pos.mpr (List.ne_nil_of_mem hdin)
    exact_mod_cast this
  calc (1 : ℤ) ≤ _ := hlen
    _ ≤ _ := List.single_le_sum (fun x hx => by
        obtain ⟨t2, _, hval⟩ := List.mem_map.mp hx
        rw [← hval]; positivity) _ hmem

theorem remCount_eq_zero_of_all {tasks : List TaskSpec} {order : List ℤ} {u : ℤ}
    (h : ∀ t ∈ tasks, t.uid = u → ∀ d ∈ t.dependencies,
      d.predecessor_uid ∈ order) :
    remCount tasks order u = 0 := by
  unfold remCount
  have : ∀ x ∈ ((tasks.filter (fun t => t.uid = u)).map
      (fun t => ((t.dependencies.filter
        (fun d => ¬ d.predecessor_uid ∈ order)).length : ℤ))), x = 0 := by
    intro x hx
    obtain ⟨t, htf, hval⟩ := List.mem_map.mp hx
    obtain ⟨ht, huid⟩ := List.mem_filter.mp htf
    have hfil : t.dependencies.filter (fun d => ¬ d.predecessor_uid ∈ order) = [] := by
      rw [List.filter_eq_nil]
      intro d hd
      simpa using h t ht (by simpa using huid) d hd
    rw [← hval, hfil]
    simp
  rw [List.sum_eq_zero this]

theorem indexOf_append_left {u : ℤ} {l1 : List ℤ} (l2 : List ℤ) (h : u ∈ l1) :
    (l1 ++ l2).indexOf u = l1.indexOf u := by
  induction l1 with
  | nil => simp at h
  | cons a rest ih =>
    by_cases ha : u = a
    · subst ha
      simp [List.indexOf_cons_self]
    · rcases List.mem_cons.mp h with h' | h'
      · exact absurd h' ha
      · rw [List.cons_append, List.indexOf_cons_ne _ (by simpa using (Ne.symm ha)),
          List.indexOf_cons_ne _ (by simpa using (Ne.symm ha)), ih h']

theorem indexOf_concat_self {u : ℤ} {l : List ℤ} (h : u ∉ l) :
    (l ++ [u]).indexOf u = l.length := by
  induction l with
  | nil => simp
  | cons a rest ih =>
    have hne : u ≠ a := by rintro rfl; exact h (List.mem_cons_self u rest)
    rw [List.cons_append, List.indexOf_cons_ne _ (by simpa using (Ne.symm hne)),
      ih (fun hm => h (List.mem_cons_of_mem a hm)), List.length_cons]

theorem exists_cycle_of_preds {tasks : List TaskSpec} {S : List ℤ}
    (hne : S ≠ [])
    (hstep : ∀ u ∈ S, ∃ v, v ∈ S ∧ Edge tasks v u) :
    ∃ w, Relation.TransGen (Edge tasks) w w := by
  obtain ⟨u0, hu0⟩ := List.exists_mem_of_ne_nil S hne
  choose f hfS hfE using hstep
  let F : {x : ℤ // x ∈ S} → {x : ℤ // x ∈ S} := fun p => ⟨f p.1 p.2, hfS p.1 p.2⟩
  let g : ℕ → {x : ℤ // x ∈ S} := fun n => F^[n] ⟨u0, hu0⟩
  have hedge : ∀ n, Edge tasks (g (n + 1)).1 (g n).1 := by
    intro n
    have : g (n + 1) = F (g n) := Function.iterate_succ_apply' F n ⟨u0, hu0⟩
    rw [this]
    exact hfE (g n).1 (g n).2
  have htg : ∀ n m, n < m → Relation.TransGen (Edge tasks) (g m).1 (g n).1 := by
    intro n m hnm
    induction m with
    | zero => omega
    | succ k ih =>
      rcases Nat.lt_succ_iff_lt_or_eq.mp hnm with h | h
      · exact Relation.TransGen.head (hedge k) (ih h)
      · rw [← h]
        exact Relation.TransGen.single (hedge n)
  have hSpos : 0 < S.length := List.length_pos.mpr hne
  have hcard : Fintype.card (Fin S.length) < Fintype.card (Fin (S.length + 1)) := by
    simp
  obtain ⟨i, j, hij, heq⟩ := Fintype.exists_ne_map_eq_of_card_lt
    (fun i : Fin (S.length + 1) =>
      (⟨S.indexOf (g i.1).1, List.indexOf_lt_length.mpr (g i.1).2⟩ : Fin S.length))
    hcard
  have heq2 : (g i.1).1 = (g j.1).1 := by
    have hidx : S.indexOf (g i.1).1 = S.indexOf (g j.1).1 := congrArg Fin.val heq
    exact (List.indexOf_inj (g i.1).2 (g j.1).2).mp hidx
  have hij2 : i.1 ≠ j.1 := fun h => hij (Fin.ext h)
  rcases Nat.lt_or_ge i.1 j.1 with h | h
  · exact ⟨(g j.1).1, heq2 ▸ htg i.1 j.1 h⟩
  · have h2 : j.1 < i.1 := by omega
    exact ⟨(g i.1).1, (heq2 ▸ htg j.1 i.1 h2 : _)⟩

theorem filter_ne_length_le_sum_toNat (L : List ℤ) (f : ℤ → ℤ)
    (hpos : ∀ u ∈ L, 0 ≤ f u) :
    (L.filter (fun u => ¬ f u = 0)).length ≤ (L.map (fun u => (f u).toNat)).sum := by
  induction L with
  | nil => simp
  | cons a rest ih =>
    have ha := hpos a (List.mem_cons_self a rest)
    have ihr := ih (fun u hu => hpos u (List.mem_cons_of_mem a hu))
    by_cases h : f a = 0
    · rw [List.filter_cons_of_neg (by simp [h]), List.map_cons, List.sum_cons]
      omega
    · rw [List.filter_cons_of_pos (by simp [h]), List.map_cons, List.sum_cons,
        List.length_cons]
      have : 1 ≤ (f a).toNat := by omega
      omega

theorem kahnFold (tasks : List TaskSpec) (o : List ℤ) (m : ℤ)
    (hacy : Acyclic tasks) (hm : m ∉ o)
    (hzero : ∀ u ∈ o, remCount tasks o u = 0) :
    ∀ todo done ind rdy,
      done ++ todo = successorsOf tasks m →
      (∀ u : ℤ, ind u = remCount tasks o u - countTarget done u) →
      rdy.Nodup →
      (∀ u ∈ rdy, u ∈ uidsOf tasks ∧ u ∉ o ∧ u ≠ m) →
      (∀ u ∈ uidsOf tasks, u ∉ o → u ≠ m → (u ∈ rdy ↔ ind u = 0)) →
      (∀ u : ℤ, (todo.foldl kahnStep (ind, rdy)).1 u = remCount tasks (o ++ [m]) u) ∧
      (todo.foldl kahnStep (ind, rdy)).2.Nodup ∧
      (∀ u ∈ (todo.foldl kahnStep (ind, rdy)).2, u ∈ uidsOf tasks ∧ u ∉ o ∧ u ≠ m) ∧
      (∀ u ∈ uidsOf tasks, u ∉ o → u ≠ m →
        (u ∈ (todo.foldl kahnStep (ind, rdy)).2 ↔
          remCount tasks (o ++ [m]) u = 0)) := by
  intro todo
  induction todo with
  | nil =>
    intro done ind rdy hsplit hind hnd hsub hiff
    simp only [List.foldl_nil]
    rw [List.append_nil] at hsplit
    have hkey : ∀ u, remCount tasks o u - countTarget done u =
        remCount tasks (o ++ [m]) u := by
      intro u
      have hb := remCount_boundary tasks o m hm u
      rw [hsplit]
      omega
    refine ⟨fun u => by rw [hind u, hkey u], hnd, hsub, ?_⟩
    intro u hu hno hnm
    rw [hiff u hu hno hnm, hind u, hkey u]
  | cons pr todo' ih =>
    intro done ind rdy hsplit hind hnd hsub hiff
    obtain ⟨w, d⟩ := pr
    have hpr_mem : (w, d) ∈ successorsOf tasks m := by
      rw [← hsplit]
      exact List.mem_append.mpr (Or.inr (List.mem_cons_self _ _))
    obtain ⟨t, ht, htu, htd, htp⟩ := mem_successorsOf.mp hpr_mem
    have hw_uids : w ∈ uidsOf tasks := successorsOf_fst_mem hpr_mem
    have hw_ne_m : w ≠ m := by
      rintro rfl
      exact hacy w (Relation.TransGen.single
        (List.mem_map.mpr ⟨(w, d), hpr_mem, rfl⟩))
    have hw_not_o : w ∉ o := by
      intro hwo
      have h0 := hzero w hwo
      have h1 : 1 ≤ remCount tasks o w :=
        remCount_pos_of ht htu htd (by rw [htp]; exact hm)
      omega
    have hb := remCount_boundary tasks o m hm w
    rw [← hsplit] at hb
    have hct : countTarget (done ++ (w, d) :: todo') w =
        countTarget done w + 1 + countTarget todo' w := by
      rw [show (w, d) :: todo' = [(w, d)] ++ todo' from rfl, countTarget_append,
        countTarget_append, countTarget_single, if_pos rfl]
      ring
    rw [hct] at hb
    have hnn1 := remCount_nonneg tasks (o ++ [m]) w
    have hnn2 := countTarget_nonneg todo' w
    have hge1 : 1 ≤ ind w := by
      rw [hind w]
      omega
    have hw_not_rdy : w ∉ rdy := fun hin => by
      have := (hiff w hw_uids hw_not_o hw_ne_m).mp hin
      omega
    have hind2 : ∀ u : ℤ,
        (if u = w then ind w - 1 else ind u) =
          remCount tasks o u - countTarget (done ++ [(w, d)]) u := by
      intro u
      by_cases hu : u = w
      · subst hu
        rw [if_pos rfl, hind u, countTarget_append, countTarget_single, if_pos rfl]
        ring
      · rw [if_neg hu, hind u, countTarget_append, countTarget_single,
          if_neg (fun h => hu h.symm)]
        ring
    have hsplit2 : (done ++ [(w, d)]) ++ todo' = successorsOf tasks m := by
      simpa using hsplit
    rw [List.foldl_cons]
    by_cases hnv : ind w - 1 = 0
    · have hstep : kahnStep (ind, rdy) (w, d) =
          (fun u => if u = w then ind w - 1 else ind u, rdy ++ [w]) := by
        simp [kahnStep, hnv]
      rw [hstep]
      refine ih (done ++ [(w, d)]) _ _ hsplit2 hind2 ?_ ?_ ?_
      · rw [List.nodup_append]
        exact ⟨hnd, List.nodup_singleton w,
          by intro a ha hb2; rw [List.mem_singleton] at hb2; subst hb2
             exact hw_not_rdy ha⟩
      · intro u hu
        rcases List.mem_append.mp hu with h | h
        · exact hsub u h
        · rw [List.mem_singleton] at h
          subst h
          exact ⟨hw_uids, hw_not_o, hw_ne_m⟩
      · intro u hu hno hnm
        dsimp only
        simp only [List.mem_append, List.mem_singleton]
        by_cases huw : u = w
        · subst huw
          rw [if_pos rfl]
          constructor
          · intro _; exact hnv
          · intro _; exact Or.inr rfl
        · rw [if_neg huw, or_iff_left huw]
          exact hiff u hu hno hnm
    · have hstep : kahnStep (ind, rdy) (w, d) =
          (fun u => if u = w then ind w - 1 else ind u, rdy) := by
        simp [kahnStep, hnv]
      rw [hstep]
      refine ih (done ++ [(w, d)]) _ _ hsplit2 hind2 hnd hsub ?_
      intro u hu hno hnm
      dsimp only
      by_cases huw : u = w
      · subst huw
        rw [if_pos rfl]
        constructor
        · intro hin; exact absurd hin hw_not_rdy
        · intro h0; exact absurd h0 hnv
      · rw [if_neg huw]
        exact hiff u hu hno hnm

theorem kahnLoop_ok (tasks : List TaskSpec)
    (hnd : (uidsOf tasks).Nodup)
    (hpred : ∀ t ∈ tasks, ∀ d ∈ t.dependencies, d.predecessor_uid ∈ uidsOf tasks)
    (hacy : Acyclic tasks) :
    ∀ fuel indeg ready order, KInv tasks indeg ready order →
      (uidsOf tasks).length ≤ order.length + fuel →
      (kahnLoop tasks fuel indeg ready order).Perm (uidsOf tasks) ∧
      ∀ t ∈ tasks, ∀ d ∈ t.dependencies,
        (kahnLoop tasks fuel indeg ready order).indexOf d.predecessor_uid <
        (kahnLoop tasks fuel indeg ready order).indexOf t.uid := by
  intro fuel
  induction fuel with
  | zero =>
    intro indeg ready order inv hfuel
    simp only [kahnLoop]
    have hsub : List.Subperm order (uidsOf tasks) :=
      List.subperm_of_subset inv.ord_nodup (fun u hu => inv.ord_sub u hu)
    have hperm : order.Perm (uidsOf tasks) := by
      obtain ⟨l, hl, hsl⟩ := hsub
      have hlen : l.length = (uidsOf tasks).length := by
        have h1 := hsl.length_le
        have h2 := hl.length_eq
        omega
      have hle : l = uidsOf tasks := hsl.eq_of_length hlen
      exact hle ▸ hl.symm
    refine ⟨hperm, ?_⟩
    intro t ht d hd
    have htin : t.uid ∈ order := hperm.mem_iff.mpr (List.mem_map.mpr ⟨t, ht, rfl⟩)
    exact (inv.prec t ht htin d hd).2
  | succ fuel ih =>
    intro indeg ready order inv hfuel
    cases hmin : listMin ready with
    | none =>
      have hready : ready = [] := listMin_none hmin
      simp only [kahnLoop, hmin]
      have hsub2 : ∀ u ∈ uidsOf tasks, u ∈ order := by
        by_contra hcon
        push_neg at hcon
        have hSne : (uidsOf tasks).filter (fun u => ¬ u ∈ order) ≠ [] := by
          obtain ⟨u, hu, hno⟩ := hcon
          intro hnil
          have hin : u ∈ (uidsOf tasks).filter (fun u => ¬ u ∈ order) :=
            List.mem_filter.mpr ⟨hu, by simpa using hno⟩
          rw [hnil] at hin
          exact List.not_mem_nil u hin
        have hstep : ∀ u ∈ (uidsOf tasks).filter (fun u => ¬ u ∈ order),
            ∃ v, v ∈ (uidsOf tasks).filter (fun u => ¬ u ∈ order) ∧
              Edge tasks v u := by
          intro u huS
          obtain ⟨hu_uids, hu_no⟩ := List.mem_filter.mp huS
          have hu_no2 : u ∉ order := by simpa using hu_no
          have hrc : remCount tasks order u ≠ 0 := by
            intro h0
            have hin := (inv.rdy_iff u hu_uids hu_no2).mpr h0
            rw [hready] at hin
            exact List.not_mem_nil u hin
          have hex : ∃ t, t ∈ tasks ∧ t.uid = u ∧
              ∃ d, d ∈ t.dependencies ∧ d.predecessor_uid ∉ order := by
            by_contra hno
            push_neg at hno
            exact hrc (remCount_eq_zero_of_all
              (fun t ht hu d hd => hno t ht hu d hd))
          obtain ⟨t, ht, htu, d, hd, hdno⟩ := hex
          refine ⟨d.predecessor_uid, ?_, ?_⟩
          · exact List.mem_filter.mpr ⟨hpred t ht d hd, by simpa using hdno⟩
          · exact List.mem_map.mpr
              ⟨(u, d), mem_successorsOf.mpr ⟨t, ht, htu, hd, rfl⟩, rfl⟩
        obtain ⟨wcyc, hcyc⟩ := exists_cycle_of_preds hSne hstep
        exact hacy wcyc hcyc
      have h1 : List.Subperm order (uidsOf tasks) :=
        List.subperm_of_subset inv.ord_nodup (fun u hu => inv.ord_sub u hu)
      have h2 : List.Subperm (uidsOf tasks) order :=
        List.subperm_of_subset hnd (fun u hu => hsub2 u hu)
      have hperm : order.Perm (uidsOf tasks) := h1.antisymm h2
      refine ⟨hperm, ?_⟩
      intro t ht d hd
      have htin : t.uid ∈ order := hperm.mem_iff.mpr (List.mem_map.mpr ⟨t, ht, rfl⟩)
      exact (inv.prec t ht htin d hd).2
    | some m =>
      have hmem : m ∈ ready := listMin_mem hmin
      have hm_uids := inv.rdy_sub m hmem
      have hm_no : m ∉ order := inv.disj m hmem
      have hm_rc : remCount tasks order m = 0 :=
        (inv.rdy_iff m hm_uids hm_no).mp hmem
      have hzero : ∀ u ∈ order, remCount tasks order u = 0 := by
        intro u hu
        apply remCount_eq_zero_of_all
        intro t ht htu d hd
        exact (inv.prec t ht (htu ▸ hu) d hd).1
      obtain ⟨hf1, hf2, hf3, hf4⟩ := kahnFold tasks order m hacy hm_no hzero
        (successorsOf tasks m) [] indeg (ready.erase m)
        (by simp)
        (fun u => by rw [inv.ind_eq u]; simp [countTarget])
        (inv.rdy_nodup.erase m)
        (by
          intro u hu
          obtain ⟨hne, hin⟩ := inv.rdy_nodup.mem_erase_iff.mp hu
          exact ⟨inv.rdy_sub u hin, inv.disj u hin, hne⟩)
        (by
          intro u hu hno hnm
          have hiff2 : u ∈ ready.erase m ↔ u ∈ ready := by
            rw [inv.rdy_nodup.mem_erase_iff]
            exact and_iff_right hnm
          rw [hiff2, inv.ind_eq u]
          exact inv.rdy_iff u hu hno)
      have inv2 : KInv tasks
          ((successorsOf tasks m).foldl kahnStep (indeg, ready.erase m)).1
          ((successorsOf tasks m).foldl kahnStep (indeg, ready.erase m)).2
          (order ++ [m]) := by
        refine ⟨?_, hf2, ?_, ?_, fun u hu => (hf3 u hu).1, hf1, ?_, ?_⟩
        · rw [List.nodup_append]
          refine ⟨inv.ord_nodup, List.nodup_singleton m, ?_⟩
          intro a ha hb
          rw [List.mem_singleton] at hb
          subst hb
          exact hm_no ha
        · intro u hu
          obtain ⟨_, hno, hnm⟩ := hf3 u hu
          rw [List.mem_append, List.mem_singleton]
          push_neg
          exact ⟨hno, hnm⟩
        · intro u hu
          rcases List.mem_append.mp hu with h | h
          · exact inv.ord_sub u h
          · rw [List.mem_singleton] at h
            subst h
            exact hm_uids
        · intro u hu hno
          rw [List.mem_append, List.mem_singleton] at hno
          push_neg at hno
          exact hf4 u hu hno.1 hno.2
        · intro t ht htin d hd
          rcases List.mem_append.mp htin with h | h
          · obtain ⟨hp1, hp2⟩ := inv.prec t ht h d hd
            refine ⟨List.mem_append.mpr (Or.inl hp1), ?_⟩
            rw [indexOf_append_left [m] hp1, indexOf_append_left [m] h]
            exact hp2
          · rw [List.mem_singleton] at h
            have hp1 : d.predecessor_uid ∈ order :=
              remCount_zero_pred_mem hm_rc t ht h d hd
            refine ⟨List.mem_append.mpr (Or.inl hp1), ?_⟩
            rw [indexOf_append_left [m] hp1, h, indexOf_concat_self hm_no]
            exact List.indexOf_lt_length.mpr hp1
      have hstep_eq : kahnLoop tasks (fuel + 1) indeg ready order =
          kahnLoop tasks fuel
            ((successorsOf tasks m).foldl kahnStep (indeg, ready.erase m)).1
            ((successorsOf tasks m).foldl kahnStep (indeg, ready.erase m)).2
            (order ++ [m]) := by
        simp only [kahnLoop, hmin]
      rw [hstep_eq]
      apply ih _ _ _ inv2
      rw [List.length_append, List.length_singleton]
      omega

theorem remCount_nil (tasks : List TaskSpec) (u : ℤ) :
    remCount tasks [] u = indegInit tasks u := by
  unfold remCount indegInit
  congr 1
  apply List.map_congr_left
  intro t _
  norm_cast
  rw [List.filter_eq_self.mpr (fun a _ => by simp)]

theorem indegInit_nonneg (tasks : List TaskSpec) (u : ℤ) :
    0 ≤ indegInit tasks u := by
  unfold indegInit
  apply List.sum_nonneg
  intro x hx
  obtain ⟨t, _, hval⟩ := List.mem_map.mp hx
  rw [← hval]
  positivity

theorem length_le_filter_add_sum (L : List ℤ) (f : ℤ → ℤ)
    (hpos : ∀ u ∈ L, 0 ≤ f u) :
    L.length ≤ (L.filter (fun u => f u = 0)).length +
      (L.map (fun u => (f u).toNat)).sum := by
  have hsplit := filter_length_split (fun _ : ℤ => true)
    (fun u => decide (f u = 0)) L
  rw [List.filter_true] at hsplit
  have h1 : L.filter (fun a => true && decide (f a = 0)) =
      L.filter (fun u => f u = 0) := by
    apply List.filter_congr
    intro a _
    simp
  have h2 : L.filter (fun a => true && ! decide (f a = 0)) =
      L.filter (fun u => ¬ f u = 0) := by
    apply List.filter_congr
    intro a _
    simp
  rw [h1, h2] at hsplit
  have h3 := filter_ne_length_le_sum_toNat L f hpos
  omega

theorem topological_order_ok (tasks : List TaskSpec)
    (hnd : (uidsOf tasks).Nodup)
    (hpred : ∀ t ∈ tasks, ∀ d ∈ t.dependencies, d.predecessor_uid ∈ uidsOf tasks)
    (hacy : Acyclic tasks) :
    ∃ order, topological_order tasks = Except.ok order ∧
      order.Perm (uidsOf tasks) ∧
      ∀ t ∈ tasks, ∀ d ∈ t.dependencies,
        order.indexOf d.predecessor_uid < order.indexOf t.uid := by
  have hk : dictKeys (uidsOf tasks) = uidsOf tasks := dictKeys_of_nodup hnd
  have inv0 : KInv tasks (indegInit tasks)
      ((dictKeys (uidsOf tasks)).filter (fun u => indegInit tasks u = 0)) [] := by
    refine ⟨List.nodup_nil, ?_, ?_, ?_, ?_, ?_, ?_, ?_⟩
    · rw [hk]
      exact hnd.filter _
    · intro u _
      exact List.not_mem_nil u
    · intro u hu
      exact absurd hu (List.not_mem_nil u)
    · intro u hu
      rw [hk] at hu
      exact (List.mem_filter.mp hu).1
    · intro u
      rw [remCount_nil]
    · intro u hu _
      rw [hk, List.mem_filter, remCount_nil]
      constructor
      · intro h
        simpa using h.2
      · intro h
        exact ⟨hu, by simpa using h⟩
    · intro t ht htin
      exact absurd htin (List.not_mem_nil _)
  have hfuel0 : (uidsOf tasks).length ≤ ([] : List ℤ).length +
      kahnFuel tasks (indegInit tasks)
        ((dictKeys (uidsOf tasks)).filter (fun u => indegInit tasks u = 0)) := by
    unfold kahnFuel
    rw [hk]
    have := length_le_filter_add_sum (uidsOf tasks) (indegInit tasks)
      (fun u _ => indegInit_nonneg tasks u)
    simp only [List.length_nil]
    omega
  obtain ⟨hperm, hprec⟩ := kahnLoop_ok tasks hnd hpred hacy
    (kahnFuel tasks (indegInit tasks)
      ((dictKeys (uidsOf tasks)).filter (fun u => indegInit tasks u = 0)))
    (indegInit tasks)
    ((dictKeys (uidsOf tasks)).filter (fun u => indegInit tasks u = 0))
    [] inv0 hfuel0
  have hlen : (kahnLoop tasks
      (kahnFuel tasks (indegInit tasks)
        ((dictKeys (uidsOf tasks)).filter (fun u => indegInit tasks u = 0)))
      (indegInit tasks)
      ((dictKeys (uidsOf tasks)).filter (fun u => indegInit tasks u = 0))
      []).length = tasks.length := by
    rw [hperm.length_eq]
    simp [uidsOf]
  refine ⟨_, ?_, hperm, hprec⟩
  unfold topological_order
  dsimp only
  rw [if_pos hlen]

theorem dropWhile_eq_self_of_all {α : Type} (p : α → Bool) (l : List α)
    (h : ∀ c ∈ l, p c = false) : l.dropWhile p = l := by
  cases l with
  | nil => rfl
  | cons a r =>
    rw [List.dropWhile_cons_of_neg]
    simp [h a (List.mem_cons_self a r)]

theorem pyStrip_eq_self {l : List Char}
    (h : ∀ c ∈ l, c.isWhitespace = false) : pyStrip l = l := by
  unfold pyStrip
  rw [dropWhile_eq_self_of_all _ l h,
    dropWhile_eq_self_of_all _ l.reverse (fun c hc => h c (List.mem_reverse.mp hc)),
    List.reverse_reverse]

theorem takeWhile_append_stop {α : Type} (p : α → Bool) (l1 l2 : List α)
    (h1 : ∀ c ∈ l1, p c = true)
    (h2 : ∀ c, l2.head? = some c → p c = false) :
    (l1 ++ l2).takeWhile p = l1 ∧ (l1 ++ l2).dropWhile p = l2 := by
  induction l1 with
  | nil =>
    simp only [List.nil_append]
    cases l2 with
    | nil => exact ⟨rfl, rfl⟩
    | cons a r =>
      have ha := h2 a rfl
      rw [List.takeWhile_cons_of_neg (by simp [ha]),
        List.dropWhile_cons_of_neg (by simp [ha])]
      exact ⟨rfl, rfl⟩
  | cons a r ih =>
    have ha := h1 a (List.mem_cons_self a r)
    obtain ⟨iht, ihd⟩ := ih (fun c hc => h1 c (List.mem_cons_of_mem a hc))
    rw [List.cons_append, List.takeWhile_cons_of_pos (by simp [ha]),
      List.dropWhile_cons_of_pos (by simp [ha]), iht, ihd]
    exact ⟨rfl, rfl⟩

theorem toLower_digit {c : Char} (h : c ∈ digitChars) : c.toLower = c := by
  fin_cases h <;> rfl

theorem isDigit_digit {c : Char} (h : c ∈ digitChars) : c.isDigit = true := by
  fin_cases h <;> rfl

theorem isWhitespace_digit {c : Char} (h : c ∈ digitChars) :
    c.isWhitespace = false := by
  fin_cases h <;> rfl

theorem map_toLower_digits {ds : List Char} (h : ∀ c ∈ ds, c ∈ digitChars) :
    ds.map Char.toLower = ds := by
  induction ds with
  | nil => rfl
  | cons a r ih =>
    rw [List.map_cons, toLower_digit (h a (List.mem_cons_self a r)),
      ih (fun c hc => h c (List.mem_cons_of_mem a hc))]

theorem getLast?_append_ne_nil {α : Type} (l1 : List α) {l2 : List α} (h : l2 ≠ []) :
    (l1 ++ l2).getLast? = l2.getLast? := by
  rcases List.eq_nil_or_concat l2 with rfl | ⟨l2x, a, rfl⟩
  · exact absurd rfl h
  · simp only [List.concat_eq_append]
    rw [show l1 ++ (l2x ++ [a]) = (l1 ++ l2x) ++ [a] from by simp,
      List.getLast?_concat, List.getLast?_concat]

theorem parse_duration_wellformed (ds1 ds2 : List Char) (q : Bool)
    (us : List Char) (k : ℚ)
    (h1 : ∀ c ∈ ds1, c ∈ digitChars) (h2 : ∀ c ∈ ds2, c ∈ digitChars)
    (hne : ds2 = [] → ds1 ≠ [])
    (hu : (us, k) ∈ [(['h'], (1 : ℚ)), (['d'], (8 : ℚ)), (['w'], (40 : ℚ)),
      (['m', 'o'], (160 : ℚ))]) :
    parse_duration ⟨ds1 ++ ((if ds2 = [] then [] else '.' :: ds2) ++
      (us ++ (if q then ['?'] else [])))⟩ =
    Except.ok ((digitsVal (ds1 ++ ds2) : ℚ) / (10 : ℚ) ^ ds2.length * k) := by
  have h1d : ∀ c ∈ ds1, c.isDigit = true := fun c hc => isDigit_digit (h1 c hc)
  have h1w : ∀ c ∈ ds1, c.isWhitespace = false :=
    fun c hc => isWhitespace_digit (h1 c hc)
  have h1l : ds1.map Char.toLower = ds1 := map_toLower_digits h1
  have hqw : ∀ c ∈ (if q then ['?'] else ([] : List Char)),
      c.isWhitespace = false := by
    cases q
    · intro c hc
      simp at hc
    · intro c hc
      simp at hc
      subst hc
      decide
  simp only [List.mem_cons, List.not_mem_nil, or_false, Prod.mk.injEq] at hu
  rcases hu with ⟨rfl, rfl⟩ | ⟨rfl, rfl⟩ | ⟨rfl, rfl⟩ | ⟨rfl, rfl⟩
  · -- unit ['h']
    by_cases hds2 : ds2 = []
    · -- no fractional part
      subst hds2
      have hne1 : ds1 ≠ [] := hne rfl
      rw [if_pos rfl, List.nil_append]
      simp only [List.append_nil, List.length_nil, pow_zero, div_one]
      have hws : ∀ c ∈ ds1 ++ (['h'] ++ (if q then ['?'] else [])),
          c.isWhitespace = false := by
        intro c hc
        rcases List.mem_append.mp hc with h | h
        · exact h1w c h
        · rcases List.mem_append.mp h with h | h
          · fin_cases h <;> decide
          · exact hqw c h
      simp only [parse_duration]
      rw [pyStrip_eq_self hws, if_neg (by simp)]
      have htext1 : (if (ds1 ++ (['h'] ++ (if q then ['?'] else []))).getLast? = some '?'
          then (ds1 ++ (['h'] ++ (if q then ['?'] else []))).dropLast
          else ds1 ++ (['h'] ++ (if q then ['?'] else []))) = ds1 ++ ['h'] := by
        cases q
        · simp only [Bool.false_eq_true, if_false, List.append_nil]
          rw [if_neg]
          rw [getLast?_append_ne_nil _ (by decide : (['h'] : List Char) ≠ [])]
          decide
        · simp only [if_true]
          rw [show ds1 ++ (['h'] ++ ['?']) = (ds1 ++ ['h']) ++ ['?'] from by simp,
            List.getLast?_concat, if_pos rfl, List.dropLast_concat]
      rw [htext1, List.map_append, h1l,
        show List.map Char.toLower ['h'] = ['h'] from rfl]
      obtain ⟨htw, hdw⟩ := takeWhile_append_stop Char.isDigit ds1 ['h'] h1d
        (by intro c hc; cases hc; decide)
      rw [htw, hdw, if_neg hne1]
      show Except.ok ((digitsVal ds1 : ℚ)) =
          Except.ok ((digitsVal ds1 : ℚ) * 1)
      rw [mul_one]
    · -- with fractional part
      rw [if_neg hds2]
      have h2d : ∀ c ∈ ds2, c.isDigit = true := fun c hc => isDigit_digit (h2 c hc)
      have h2w : ∀ c ∈ ds2, c.isWhitespace = false :=
        fun c hc => isWhitespace_digit (h2 c hc)
      have h2l : ds2.map Char.toLower = ds2 := map_toLower_digits h2
      have hws : ∀ c ∈ ds1 ++ (('.' :: ds2) ++ (['h'] ++ (if q then ['?'] else []))),
          c.isWhitespace = false := by
        intro c hc
        rcases List.mem_append.mp hc with h | h
        · exact h1w c h
        · rcases List.mem_append.mp h with h | h
          · rcases List.mem_cons.mp h with h | h
            · subst h; decide
            · exact h2w c h
          · rcases List.mem_append.mp h with h | h
            · fin_cases h <;> decide
            · exact hqw c h
      simp only [parse_duration]
      rw [pyStrip_eq_self hws, if_neg (by simp)]
      have htext1 : (if (ds1 ++ (('.' :: ds2) ++ (['h'] ++ (if q then ['?'] else [])))).getLast? = some '?'
          then (ds1 ++ (('.' :: ds2) ++ (['h'] ++ (if q then ['?'] else [])))).dropLast
          else ds1 ++ (('.' :: ds2) ++ (['h'] ++ (if q then ['?'] else [])))) =
          ds1 ++ (('.' :: ds2) ++ ['h']) := by
        cases q
        · simp only [Bool.false_eq_true, if_false, List.append_nil]
          rw [if_neg]
          rw [show ds1 ++ (('.' :: ds2) ++ ['h']) = (ds1 ++ ('.' :: ds2)) ++ ['h']
            from by simp, getLast?_append_ne_nil _ (by decide : (['h'] : List Char) ≠ [])]
          decide
        · simp only [if_true]
          rw [show ds1 ++ (('.' :: ds2) ++ (['h'] ++ ['?'])) =
            (ds1 ++ (('.' :: ds2) ++ ['h'])) ++ ['?'] from by simp,
            List.getLast?_concat, if_pos rfl, List.dropLast_concat]
      rw [htext1, List.map_append, h1l, List.map_append, List.map_cons, h2l,
        show Char.toLower '.' = '.' from rfl,
        show List.map Char.toLower ['h'] = ['h'] from rfl]
      obtain ⟨htw, hdw⟩ := takeWhile_append_stop Char.isDigit ds1 (('.' :: ds2) ++ ['h'])
        h1d (by intro c hc; cases hc; decide)
      rw [htw, hdw]
      rw [show ('.' :: ds2) ++ ['h'] = '.' :: (ds2 ++ ['h']) from rfl]
      simp only []
      obtain ⟨htw2, hdw2⟩ := takeWhile_append_stop Char.isDigit ds2 ['h'] h2d
        (by intro c hc; cases hc; decide)
      rw [htw2, hdw2, if_neg hds2]
      simp only []
      rw [if_pos (by decide), mul_one]
  · -- unit ['d']
    by_cases hds2 : ds2 = []
    · -- no fractional part
      subst hds2
      have hne1 : ds1 ≠ [] := hne rfl
      rw [if_pos rfl, List.nil_append]
      simp only [List.append_nil, List.length_nil, pow_zero, div_one]
      have hws : ∀ c ∈ ds1 ++ (['d'] ++ (if q then ['?'] else [])),
          c.isWhitespace = false := by
        intro c hc
        rcases List.mem_append.mp hc with h | h
        · exact h1w c h
        · rcases List.mem_append.mp h with h | h
          · fin_cases h <;> decide
          · exact hqw c h
      simp only [parse_duration]
      rw [pyStrip_eq_self hws, if_neg (by simp)]
      have htext1 : (if (ds1 ++ (['d'] ++ (if q then ['?'] else []))).getLast? = some '?'
          then (ds1 ++ (['d'] ++ (if q then ['?'] else []))).dropLast
          else ds1 ++ (['d'] ++ (if q then ['?'] else []))) = ds1 ++ ['d'] := by
        cases q
        · simp only [Bool.false_eq_true, if_false, List.append_nil]
          rw [if_neg]
          rw [getLast?_append_ne_nil _ (by decide : (['d'] : List Char) ≠ [])]
          decide
        · simp only [if_true]
          rw [show ds1 ++ (['d'] ++ ['?']) = (ds1 ++ ['d']) ++ ['?'] from by simp,
            List.getLast?_concat, if_pos rfl, List.dropLast_concat]
      rw [htext1, List.map_append, h1l,
        show List.map Char.toLower ['d'] = ['d'] from rfl]
      obtain ⟨htw, hdw⟩ := takeWhile_append_stop Char.isDigit ds1 ['d'] h1d
        (by intro c hc; cases hc; decide)
      rw [htw, hdw, if_neg hne1]
      rfl
    · -- with fractional part
      rw [if_neg hds2]
      have h2d : ∀ c ∈ ds2, c.isDigit = true := fun c hc => isDigit_digit (h2 c hc)
      have h2w : ∀ c ∈ ds2, c.isWhitespace = false :=
        fun c hc => isWhitespace_digit (h2 c hc)
      have h2l : ds2.map Char.toLower = ds2 := map_toLower_digits h2
      have hws : ∀ c ∈ ds1 ++ (('.' :: ds2) ++ (['d'] ++ (if q then ['?'] else []))),
          c.isWhitespace = false := by
        intro c hc
        rcases List.mem_append.mp hc with h | h
        · exact h1w c h
        · rcases List.mem_append.mp h with h | h
          · rcases List.mem_cons.mp h with h | h
            · subst h; decide
            · exact h2w c h
          · rcases List.mem_append.mp h with h | h
            · fin_cases h <;> decide
            · exact hqw c h
      simp only [parse_duration]
      rw [pyStrip_eq_self hws, if_neg (by simp)]
      have htext1 : (if (ds1 ++ (('.' :: ds2) ++ (['d'] ++ (if q then ['?'] else [])))).getLast? = some '?'
          then (ds1 ++ (('.' :: ds2) ++ (['d'] ++ (if q then ['?'] else [])))).dropLast
          else ds1 ++ (('.' :: ds2) ++ (['d'] ++ (if q then ['?'] else [])))) =
          ds1 ++ (('.' :: ds2) ++ ['d']) := by
        cases q
        · simp only [Bool.false_eq_true, if_false, List.append_nil]
          rw [if_neg]
          rw [show ds1 ++ (('.' :: ds2) ++ ['d']) = (ds1 ++ ('.' :: ds2)) ++ ['d']
            from by simp, getLast?_append_ne_nil _ (by decide : (['d'] : List Char) ≠ [])]
          decide
        · simp only [if_true]
          rw [show ds1 ++ (('.' :: ds2) ++ (['d'] ++ ['?'])) =
            (ds1 ++ (('.' :: ds2) ++ ['d'])) ++ ['?'] from by simp,
            List.getLast?_concat, if_pos rfl, List.dropLast_concat]
      rw [htext1, List.map_append, h1l, List.map_append, List.map_cons, h2l,
        show Char.toLower '.' = '.' from rfl,
        show List.map Char.toLower ['d'] = ['d'] from rfl]
      obtain ⟨htw, hdw⟩ := takeWhile_append_stop Char.isDigit ds1 (('.' :: ds2) ++ ['d'])
        h1d (by intro c hc; cases hc; decide)
      rw [htw, hdw]
      rw [show ('.' :: ds2) ++ ['d'] = '.' :: (ds2 ++ ['d']) from rfl]
      simp only []
      obtain ⟨htw2, hdw2⟩ := takeWhile_append_stop Char.isDigit ds2 ['d'] h2d
        (by intro c hc; cases hc; decide)
      rw [htw2, hdw2, if_neg hds2]
      simp only []
      rw [if_neg (by decide), if_pos (by decide)]
  · -- unit ['w']
    by_cases hds2 : ds2 = []
    · -- no fractional part
      subst hds2
      have hne1 : ds1 ≠ [] := hne rfl
      rw [if_pos rfl, List.nil_append]
      simp only [List.append_nil, List.length_nil, pow_zero, div_one]
      have hws : ∀ c ∈ ds1 ++ (['w'] ++ (if q then ['?'] else [])),
          c.isWhitespace = false := by
        intro c hc
        rcases List.mem_append.mp hc with h | h
        · exact h1w c h
        · rcases List.mem_append.mp h with h | h
          · fin_cases h <;> decide
          · exact hqw c h
      simp only [parse_duration]
      rw [pyStrip_eq_self hws, if_neg (by simp)]
      have htext1 : (if (ds1 ++ (['w'] ++ (if q then ['?'] else []))).getLast? = some '?'
          then (ds1 ++ (['w'] ++ (if q then ['?'] else []))).dropLast
          else ds1 ++ (['w'] ++ (if q then ['?'] else []))) = ds1 ++ ['w'] := by
        cases q
        · simp only [Bool.false_eq_true, if_false, List.append_nil]
          rw [if_neg]
          rw [getLast?_append_ne_nil _ (by decide : (['w'] : List Char) ≠ [])]
          decide
        · simp only [if_true]
          rw [show ds1 ++ (['w'] ++ ['?']) = (ds1 ++ ['w']) ++ ['?'] from by simp,
            List.getLast?_concat, if_pos rfl, List.dropLast_concat]
      rw [htext1, List.map_append, h1l,
        show List.map Char.toLower ['w'] = ['w'] from rfl]
      obtain ⟨htw, hdw⟩ := takeWhile_append_stop Char.isDigit ds1 ['w'] h1d
        (by intro c hc; cases hc; decide)
      rw [htw, hdw, if_neg hne1]
      show Except.ok ((digitsVal ds1 : ℚ) * (5 * 8)) =
          Except.ok ((digitsVal ds1 : ℚ) * 40)
      norm_num
    · -- with fractional part
      rw [if_neg hds2]
      have h2d : ∀ c ∈ ds2, c.isDigit = true := fun c hc => isDigit_digit (h2 c hc)
      have h2w : ∀ c ∈ ds2, c.isWhitespace = false :=
        fun c hc => isWhitespace_digit (h2 c hc)
      have h2l : ds2.map Char.toLower = ds2 := map_toLower_digits h2
      have hws : ∀ c ∈ ds1 ++ (('.' :: ds2) ++ (['w'] ++ (if q then ['?'] else []))),
          c.isWhitespace = false := by
        intro c hc
        rcases List.mem_append.mp hc with h | h
        · exact h1w c h
        · rcases List.mem_append.mp h with h | h
          · rcases List.mem_cons.mp h with h | h
            · subst h; decide
            · exact h2w c h
          · rcases List.mem_append.mp h with h | h
            · fin_cases h <;> decide
            · exact hqw c h
      simp only [parse_duration]
      rw [pyStrip_eq_self hws, if_neg (by simp)]
      have htext1 : (if (ds1 ++ (('.' :: ds2) ++ (['w'] ++ (if q then ['?'] else [])))).getLast? = some '?'
          then (ds1 ++ (('.' :: ds2) ++ (['w'] ++ (if q then ['?'] else [])))).dropLast
          else ds1 ++ (('.' :: ds2) ++ (['w'] ++ (if q then ['?'] else [])))) =
          ds1 ++ (('.' :: ds2) ++ ['w']) := by
        cases q
        · simp only [Bool.false_eq_true, if_false, List.append_nil]
          rw [if_neg]
          rw [show ds1 ++ (('.' :: ds2) ++ ['w']) = (ds1 ++ ('.' :: ds2)) ++ ['w']
            from by simp, getLast?_append_ne_nil _ (by decide : (['w'] : List Char) ≠ [])]
          decide
        · simp only [if_true]
          rw [show ds1 ++ (('.' :: ds2) ++ (['w'] ++ ['?'])) =
            (ds1 ++ (('.' :: ds2) ++ ['w'])) ++ ['?'] from by simp,
            List.getLast?_concat, if_pos rfl, List.dropLast_concat]
      rw [htext1, List.map_append, h1l, List.map_append, List.map_cons, h2l,
        show Char.toLower '.' = '.' from rfl,
        show List.map Char.toLower ['w'] = ['w'] from rfl]
      obtain ⟨htw, hdw⟩ := takeWhile_append_stop Char.isDigit ds1 (('.' :: ds2) ++ ['w'])
        h1d (by intro c hc; cases hc; decide)
      rw [htw, hdw]
      rw [show ('.' :: ds2) ++ ['w'] = '.' :: (ds2 ++ ['w']) from rfl]
      simp only []
      obtain ⟨htw2, hdw2⟩ := takeWhile_append_stop Char.isDigit ds2 ['w'] h2d
        (by intro c hc; cases hc; decide)
      rw [htw2, hdw2, if_neg hds2]
      simp only []
      rw [if_neg (by decide), if_neg (by decide), if_pos (by decide),
        show ((5 : ℚ) * 8) = 40 from by norm_num]
  · -- unit ['m', 'o']
    by_cases hds2 : ds2 = []
    · -- no fractional part
      subst hds2
      have hne1 : ds1 ≠ [] := hne rfl
      rw [if_pos rfl, List.nil_append]
      simp only [List.append_nil, List.length_nil, pow_zero, div_one]
      have hws : ∀ c ∈ ds1 ++ (['m', 'o'] ++ (if q then ['?'] else [])),
          c.isWhitespace = false := by
        intro c hc
        rcases List.mem_append.mp hc with h | h
        · exact h1w c h
        · rcases List.mem_append.mp h with h | h
          · fin_cases h <;> decide
          · exact hqw c h
      simp only [parse_duration]
      rw [pyStrip_eq_self hws, if_neg (by simp)]
      have htext1 : (if (ds1 ++ (['m', 'o'] ++ (if q then ['?'] else []))).getLast? = some '?'
          then (ds1 ++ (['m', 'o'] ++ (if q then ['?'] else []))).dropLast
          else ds1 ++ (['m', 'o'] ++ (if q then ['?'] else []))) = ds1 ++ ['m', 'o'] := by
        cases q
        · simp only [Bool.false_eq_true, if_false, List.append_nil]
          rw [if_neg]
          rw [getLast?_append_ne_nil _ (by decide : (['m', 'o'] : List Char) ≠ [])]
          decide
        · simp only [if_true]
          rw [show ds1 ++ (['m', 'o'] ++ ['?']) = (ds1 ++ ['m', 'o']) ++ ['?'] from by simp,
            List.getLast?_concat, if_pos rfl, List.dropLast_concat]
      rw [htext1, List.map_append, h1l,
        show List.map Char.toLower ['m', 'o'] = ['m', 'o'] from rfl]
      obtain ⟨htw, hdw⟩ := takeWhile_append_stop Char.isDigit ds1 ['m', 'o'] h1d
        (by intro c hc; cases hc; decide)
      rw [htw, hdw, if_neg hne1]
      show Except.ok ((digitsVal ds1 : ℚ) * (20 * 8)) =
          Except.ok ((digitsVal ds1 : ℚ) * 160)
      norm_num
    · -- with fractional part
      rw [if_neg hds2]
      have h2d : ∀ c ∈ ds2, c.isDigit = true := fun c hc => isDigit_digit (h2 c hc)
      have h2w : ∀ c ∈ ds2, c.isWhitespace = false :=
        fun c hc => isWhitespace_digit (h2 c hc)
      have h2l : ds2.map Char.toLower = ds2 := map_toLower_digits h2
      have hws : ∀ c ∈ ds1 ++ (('.' :: ds2) ++ (['m', 'o'] ++ (if q then ['?'] else []))),
          c.isWhitespace = false := by
        intro c hc
        rcases List.mem_append.mp hc with h | h
        · exact h1w c h
        · rcases List.mem_append.mp h with h | h
          · rcases List.mem_cons.mp h with h | h
            · subst h; decide
            · exact h2w c h
          · rcases List.mem_append.mp h with h | h
            · fin_cases h <;> decide
            · exact hqw c h
      simp only [parse_duration]
      rw [pyStrip_eq_self hws, if_neg (by simp)]
      have htext1 : (if (ds1 ++ (('.' :: ds2) ++ (['m', 'o'] ++ (if q then ['?'] else [])))).getLast? = some '?'
          then (ds1 ++ (('.' :: ds2) ++ (['m', 'o'] ++ (if q then ['?'] else [])))).dropLast
          else ds1 ++ (('.' :: ds2) ++ (['m', 'o'] ++ (if q then ['?'] else [])))) =
          ds1 ++ (('.' :: ds2) ++ ['m', 'o']) := by
        cases q
        · simp only [Bool.false_eq_true, if_false, List.append_nil]
          rw [if_neg]
          rw [show ds1 ++ (('.' :: ds2) ++ ['m', 'o']) = (ds1 ++ ('.' :: ds2)) ++ ['m', 'o']
            from by simp, getLast?_append_ne_nil _ (by decide : (['m', 'o'] : List Char) ≠ [])]
          decide
        · simp only [if_true]
          rw [show ds1 ++ (('.' :: ds2) ++ (['m', 'o'] ++ ['?'])) =
            (ds1 ++ (('.' :: ds2) ++ ['m', 'o'])) ++ ['?'] from by simp,
            List.getLast?_concat, if_pos rfl, List.dropLast_concat]
      rw [htext1, List.map_append, h1l, List.map_append, List.map_cons, h2l,
        show Char.toLower '.' = '.' from rfl,
        show List.map Char.toLower ['m', 'o'] = ['m', 'o'] from rfl]
      obtain ⟨htw, hdw⟩ := takeWhile_append_stop Char.isDigit ds1 (('.' :: ds2) ++ ['m', 'o'])
        h1d (by intro c hc; cases hc; decide)
      rw [htw, hdw]
      rw [show ('.' :: ds2) ++ ['m', 'o'] = '.' :: (ds2 ++ ['m', 'o']) from rfl]
      simp only []
      obtain ⟨htw2, hdw2⟩ := takeWhile_append_stop Char.isDigit ds2 ['m', 'o'] h2d
        (by intro c hc; cases hc; decide)
      rw [htw2, hdw2, if_neg hds2]
      simp only []
      rw [if_neg (by decide), if_neg (by decide), if_neg (by decide),
        if_pos (by decide), show ((20 : ℚ) * 8) = 160 from by norm_num]

theorem cloneFold_spec (store : List TaskSpec) :
    ∀ (refs : List ℕ) (st : List TaskSpec) (rs : List ℕ),
      (∃ ext, st = store ++ ext) →
      (∀ r ∈ rs, store.length ≤ r) →
      (∃ ext2, (refs.foldl (fun p r =>
        let t := p.1.getD r default
        (p.1 ++ [{ t with dependencies :=
            t.dependencies.map (fun d => ⟨d.predecessor_uid, d.relation_type, d.lag_days⟩) }],
         p.2 ++ [p.1.length])) (st, rs)).1 = store ++ ext2) ∧
      (∀ r ∈ (refs.foldl (fun p r =>
        let t := p.1.getD r default
        (p.1 ++ [{ t with dependencies :=
            t.dependencies.map (fun d => ⟨d.predecessor_uid, d.relation_type, d.lag_days⟩) }],
         p.2 ++ [p.1.length])) (st, rs)).2, store.length ≤ r) := by
  intro refs
  induction refs with
  | nil =>
    intro st rs hext hrs
    exact ⟨hext, hrs⟩
  | cons r rest ih =>
    intro st rs hext hrs
    obtain ⟨ext, hst⟩ := hext
    rw [List.foldl_cons]
    apply ih
    · exact ⟨ext ++ [_], by rw [hst, List.append_assoc]⟩
    · intro r2 hr2
      rcases List.mem_append.mp hr2 with h | h
      · exact hrs r2 h
      · rw [List.mem_singleton] at h
        subst h
        rw [hst, List.length_append]
        omega

theorem setDeps_frame (st : List TaskSpec) (r : ℕ) (deps : List DependencySpec)
    (i : ℕ) (hne : i ≠ r) : (setDeps st r deps)[i]? = st[i]? := by
  unfold setDeps
  rw [List.getElem?_set_ne (fun h => hne h.symm)]

theorem clone_tasks_frame (store : List TaskSpec) (refs : List ℕ)
    (writes : List (ℕ × List DependencySpec))
    (hw : ∀ w ∈ writes, w.1 ∈ (clone_tasks_store store refs).2) :
    (∀ r ∈ (clone_tasks_store store refs).2, store.length ≤ r) ∧
    ∀ i, i < store.length →
      (writes.foldl (fun st w => setDeps st w.1 w.2)
        (clone_tasks_store store refs).1)[i]? = store[i]? := by
  obtain ⟨⟨ext2, hclone⟩, hfresh⟩ := cloneFold_spec store refs store []
    ⟨[], by simp⟩ (by simp)
  refine ⟨hfresh, ?_⟩
  have hgen : ∀ (ws : List (ℕ × List DependencySpec)) (st : List TaskSpec),
      (∀ w ∈ ws, store.length ≤ w.1) →
      (∀ i, i < store.length → st[i]? = store[i]?) →
      ∀ i, i < store.length →
        (ws.foldl (fun st w => setDeps st w.1 w.2) st)[i]? = store[i]? := by
    intro ws
    induction ws with
    | nil => intro st _ hst i hi; exact hst i hi
    | cons w rest ih =>
      intro st hws hst i hi
      rw [List.foldl_cons]
      apply ih _ (fun w hw2 => hws w (List.mem_cons_of_mem _ hw2))
      · intro j hj
        rw [setDeps_frame st w.1 w.2 j
          (by have := hws w (List.mem_cons_self w rest); omega)]
        exact hst j hj
      · exact hi
  apply hgen writes _ (fun w hw2 => hfresh w.1 (hw w hw2))
  intro i hi
  have : (clone_tasks_store store refs).1 = store ++ ext2 := hclone
  rw [this, List.getElem?_append, if_pos hi]

theorem lookup_isSome {α : Type} {l : List (ℤ × α)} {k : ℤ}
    (h : k ∈ l.map Prod.fst) : ∃ v, List.lookup k l = some v := by
  induction l with
  | nil => simp at h
  | cons p rest ih =>
    obtain ⟨k2, v2⟩ := p
    by_cases hk : k = k2
    · subst hk
      exact ⟨v2, by simp [List.lookup]⟩
    · have h2 : k ∈ rest.map Prod.fst := by
        rcases List.mem_map.mp h with ⟨q, hq, hfst⟩
        rcases List.mem_cons.mp hq with rfl | hq2
        · exact absurd hfst.symm hk
        · exact List.mem_map.mpr ⟨q, hq2, hfst⟩
      obtain ⟨v, hv⟩ := ih h2
      exact ⟨v, by simp [List.lookup, beq_eq_false_iff_ne.mpr hk, hv]⟩

theorem lookupTask_isSome {tasks : List TaskSpec} {uid : ℤ}
    (h : uid ∈ uidsOf tasks) :
    ∃ t, lookupTask tasks uid = some t ∧ t ∈ tasks ∧ t.uid = uid := by
  unfold lookupTask
  obtain ⟨t0, ht0, huid⟩ := List.mem_map.mp h
  have hsome : (tasks.find? (fun t => t.uid = uid)).isSome := by
    rw [List.find?_isSome]
    exact ⟨t0, ht0, by simp [huid]⟩
  cases hf : tasks.find? (fun t => t.uid = uid) with
  | none => rw [hf] at hsome; simp at hsome
  | some t =>
    refine ⟨t, rfl, List.mem_of_find?_eq_some hf, ?_⟩
    have := List.find?_some hf
    simpa using this

theorem foldlM_ok {α β : Type} (f : β → α → Except String β) (l : List α)
    (h : ∀ a ∈ l, ∀ st, ∃ q, f st a = .ok q) :
    ∀ b, ∃ out, l.foldlM f b = .ok out := by
  induction l with
  | nil => intro b; exact ⟨b, rfl⟩
  | cons a rest ih =>
    intro b
    obtain ⟨q, hq⟩ := h a (List.mem_cons_self a rest) b
    obtain ⟨out, hout⟩ := ih (fun a ha st => h a (List.mem_cons_of_mem _ ha) st) q
    refine ⟨out, ?_⟩
    rw [List.foldlM_cons, hq]
    simpa using hout

theorem mapE_ok {α β : Type} {f : α → Except String β} :
    ∀ {l : List α}, (∀ a ∈ l, ∃ b, f a = .ok b) →
      ∃ bs, mapE f l = .ok bs ∧ bs.length = l.length := by
  intro l
  induction l with
  | nil => intro _; exact ⟨[], rfl, rfl⟩
  | cons a rest ih =>
    intro h
    obtain ⟨b, hb⟩ := h a (List.mem_cons_self a rest)
    obtain ⟨bs, hbs, hlen⟩ := ih (fun a ha => h a (List.mem_cons_of_mem _ ha))
    refine ⟨b :: bs, ?_, by simp [hlen]⟩
    unfold mapE
    rw [hb, hbs]
    rfl

theorem updateSched_keys (sch : List (ℤ × ScheduledTask)) (uid : ℤ)
    (f : ScheduledTask → ScheduledTask) :
    (updateSched sch uid f).map Prod.fst = sch.map Prod.fst := by
  unfold updateSched
  rw [List.map_map]
  apply List.map_congr_left
  intro p _
  by_cases hp : p.1 = uid
  · simp [hp]
  · simp [hp]

theorem indexOf_append_right {u : ℤ} {l1 : List ℤ} (l2 : List ℤ) (h : u ∉ l1) :
    (l1 ++ l2).indexOf u = l1.length + l2.indexOf u := by
  induction l1 with
  | nil => simp
  | cons a rest ih =>
    have hne : u ≠ a := by rintro rfl; exact h (List.mem_cons_self u rest)
    rw [List.cons_append, List.indexOf_cons_ne _ (by simpa using (Ne.symm hne)),
      ih (fun hm => h (List.mem_cons_of_mem a hm)), List.length_cons]
    omega

theorem mem_prefix_of_indexOf_lt {v : ℤ} {done tail : List ℤ}
    (hv : v ∈ done ++ tail) (hidx : (done ++ tail).indexOf v < done.length) :
    v ∈ done := by
  by_contra hno
  rw [indexOf_append_right tail hno] at hidx
  omega

theorem ensureTaskLookup_go_ok :
    ∀ (l : List TaskSpec) (seen : List ℤ),
      (∀ t ∈ l, t.uid ∉ seen) → (uidsOf l).Nodup →
      (l = [] → seen ≠ []) →
      ensureTaskLookup.go l seen = .ok () := by
  intro l
  induction l with
  | nil =>
    intro seen _ _ hne
    unfold ensureTaskLookup.go
    rw [if_neg (by simpa using hne rfl)]
  | cons t rest ih =>
    intro seen hseen hnd hne
    unfold ensureTaskLookup.go
    rw [if_neg (by simpa using hseen t (List.mem_cons_self t rest))]
    apply ih
    · intro t2 ht2
      rw [List.mem_cons]
      push_neg
      constructor
      · have := (List.nodup_cons.mp hnd).1
        intro heq
        exact this (heq ▸ List.mem_map.mpr ⟨t2, ht2, rfl⟩)
      · exact hseen t2 (List.mem_cons_of_mem t ht2)
    · exact (List.nodup_cons.mp hnd).2
    · intro _
      exact List.cons_ne_nil t.uid seen

theorem ensureTaskLookup_ok {tasks : List TaskSpec}
    (hnd : (uidsOf tasks).Nodup) (hne : tasks ≠ []) :
    ensureTaskLookup tasks = .ok () := by
  unfold ensureTaskLookup
  exact ensureTaskLookup_go_ok tasks [] (by simp) hnd (fun h => absurd h hne)

theorem uidsOf_remove_missing (tasks : List TaskSpec) (uids : List ℤ) :
    uidsOf (remove_missing_dependencies tasks uids).1 = uidsOf tasks := by
  unfold remove_missing_dependencies uidsOf
  rw [List.map_map]
  rfl

theorem remove_missing_pred_mem (tasks : List TaskSpec) (uids : List ℤ) :
    ∀ t ∈ (remove_missing_dependencies tasks uids).1, ∀ d ∈ t.dependencies,
      d.predecessor_uid ∈ uids := by
  intro t ht d hd
  unfold remove_missing_dependencies at ht
  obtain ⟨t0, _, hval⟩ := List.mem_map.mp ht
  rw [← hval] at hd
  simp only at hd
  have := (List.mem_filter.mp hd).2
  simpa using this

theorem remove_missing_deps_sub (tasks : List TaskSpec) (uids : List ℤ) :
    ∀ t ∈ (remove_missing_dependencies tasks uids).1, ∀ d ∈ t.dependencies,
      ∃ t0 ∈ tasks, d ∈ t0.dependencies := by
  intro t ht d hd
  unfold remove_missing_dependencies at ht
  obtain ⟨t0, ht0, hval⟩ := List.mem_map.mp ht
  rw [← hval] at hd
  simp only at hd
  exact ⟨t0, ht0, (List.mem_filter.mp hd).1⟩

theorem removeFirstMatch_sub :
    ∀ {deps : List DependencySpec} {d r : DependencySpec}
      {nd : List DependencySpec},
      removeFirstMatch deps d = some (r, nd) → ∀ x ∈ nd, x ∈ deps := by
  intro deps
  induction deps with
  | nil => intro d r nd h; simp [removeFirstMatch] at h
  | cons e es ih =>
    intro d r nd h
    unfold removeFirstMatch at h
    by_cases he : dependencyMatches e d = true
    · rw [if_pos he] at h
      cases h
      intro x hx
      exact List.mem_cons_of_mem e hx
    · rw [if_neg he] at h
      cases hrm : removeFirstMatch es d with
      | none => rw [hrm] at h; simp at h
      | some p =>
        obtain ⟨r2, nd2⟩ := p
        rw [hrm] at h
        simp only [Option.map] at h
        cases h
        intro x hx
        rcases List.mem_cons.mp hx with rfl | hx2
        · exact List.mem_cons_self x es
        · exact List.mem_cons_of_mem e (ih hrm x hx2)

theorem updateFirstAux_mem (su : ℤ) (nd : List DependencySpec) :
    ∀ (l : List TaskSpec) (t2 : TaskSpec), t2 ∈ updateFirstAux su nd l →
      t2 ∈ l ∨ ∃ t ∈ l, t2 = { t with dependencies := nd } := by
  intro l
  induction l with
  | nil => intro t2 h; simp [updateFirstAux] at h
  | cons t rest ih =>
    intro t2 h
    unfold updateFirstAux at h
    by_cases ht : t.uid = su
    · rw [if_pos ht] at h
      rcases List.mem_cons.mp h with rfl | h2
      · exact Or.inr ⟨t, List.mem_cons_self t rest, rfl⟩
      · exact Or.inl (List.mem_cons_of_mem t h2)
    · rw [if_neg ht] at h
      rcases List.mem_cons.mp h with rfl | h2
      · exact Or.inl (List.mem_cons_self t2 rest)
      · rcases ih t2 h2 with h3 | ⟨t3, ht3, hval⟩
        · exact Or.inl (List.mem_cons_of_mem t h3)
        · exact Or.inr ⟨t3, List.mem_cons_of_mem t ht3, hval⟩

theorem updateLastTask_mem (tasks : List TaskSpec) (su : ℤ)
    (nd : List DependencySpec) :
    ∀ t2 ∈ updateLastTask tasks su nd,
      t2 ∈ tasks ∨ ∃ t ∈ tasks, t2 = { t with dependencies := nd } := by
  intro t2 h
  unfold updateLastTask at h
  rw [List.mem_reverse] at h
  rcases updateFirstAux_mem su nd tasks.reverse t2 h with h2 | ⟨t3, ht3, hval⟩
  · exact Or.inl (List.mem_reverse.mp h2)
  · exact Or.inr ⟨t3, List.mem_reverse.mp ht3, hval⟩

theorem resolveLoop_deps_sub :
    ∀ (fuel : ℕ) (tasks : List TaskSpec)
      (res : List TaskSpec × List CycleResolution),
      (uidsOf tasks).Nodup → resolveLoop fuel tasks = some res →
      ∀ t ∈ res.1, ∀ d ∈ t.dependencies, ∃ t0 ∈ tasks, d ∈ t0.dependencies := by
  intro fuel
  induction fuel with
  | zero => intro tasks res _ h; simp [resolveLoop] at h
  | succ fuel ih =>
    intro tasks res hnd h
    unfold resolveLoop at h
    cases hfc : find_cycle tasks with
    | none =>
      rw [hfc] at h
      cases h
      intro t ht d hd
      exact ⟨t, ht, hd⟩
    | some info =>
      rw [hfc] at h
      obtain ⟨cyc, su, dep⟩ := info
      obtain ⟨t, ht, huid, hd⟩ := find_cycle_some hfc
      have hlk : lookupTaskLast tasks su = some t := huid ▸ lookupTaskLast_of_nodup hnd ht
      dsimp only at h
      rw [hlk] at h
      dsimp only at h
      have hsome := removeFirstMatch_isSome hd
      cases hrm : removeFirstMatch t.dependencies dep with
      | none => rw [hrm] at hsome; simp at hsome
      | some p =>
        obtain ⟨removed, newDeps⟩ := p
        rw [hrm] at h
        dsimp only at h
        cases hrl : resolveLoop fuel (updateLastTask tasks su newDeps) with
        | none => rw [hrl] at h; simp at h
        | some p2 =>
          rw [hrl] at h
          simp only [Option.map] at h
          cases h
          have hnd2 : (uidsOf (updateLastTask tasks su newDeps)).Nodup := by
            rw [uidsOf_updateLastTask]
            exact hnd
          have hrec := ih (updateLastTask tasks su newDeps) p2 hnd2 hrl
          intro t2 ht2 d2 hd2
          obtain ⟨t3, ht3, hd3⟩ := hrec t2 ht2 d2 hd2
          rcases updateLastTask_mem tasks su newDeps t3 ht3 with h4 | ⟨t4, ht4, hval⟩
          · exact ⟨t3, h4, hd3⟩
          · rw [hval] at hd3
            simp only at hd3
            exact ⟨t, ht, removeFirstMatch_sub hrm d2 hd3⟩

theorem depMerge_ok {c : WorkCalendar} {spec : TaskSpec}
    {acc : List (ℤ × ScheduledTask)} {d : DependencySpec}
    (hlk : d.predecessor_uid ∈ acc.map Prod.fst)
    (hrel : relUpper d.relation_type = "FS" ∨ relUpper d.relation_type = "SS" ∨
      relUpper d.relation_type = "FF" ∨ relUpper d.relation_type = "SF") :
    ∀ st, ∃ q, depMerge c spec acc st d = .ok q := by
  intro st
  obtain ⟨pred, hpred⟩ := lookup_isSome hlk
  unfold depMerge
  rw [hpred]
  rcases hrel with h | h | h | h <;> rw [h] <;> exact ⟨_, rfl⟩

theorem forwardTask_ok {c : WorkCalendar} {spec : TaskSpec}
    {acc : List (ℤ × ScheduledTask)} {ps : ℚ}
    (hdeps : ∀ d ∈ spec.dependencies, ∀ st, ∃ q, depMerge c spec acc st d = .ok q) :
    ∃ st, forwardTask c spec acc ps = .ok st := by
  unfold forwardTask
  obtain ⟨out, hout⟩ := foldlM_ok (depMerge c spec acc) spec.dependencies hdeps
    (align_start c ps, add_work_duration c (align_start c ps) spec.duration_days)
  dsimp only
  rw [hout]
  exact ⟨_, rfl⟩

theorem forwardGo_ok (c : WorkCalendar) (tasks : List TaskSpec) (ps : ℚ)
    (order : List ℤ) (hndo : order.Nodup)
    (hmemo : ∀ u ∈ order, u ∈ uidsOf tasks)
    (hrel : ∀ t ∈ tasks, ∀ d ∈ t.dependencies,
      relUpper d.relation_type = "FS" ∨ relUpper d.relation_type = "SS" ∨
      relUpper d.relation_type = "FF" ∨ relUpper d.relation_type = "SF")
    (hprec : ∀ t ∈ tasks, t.uid ∈ order → ∀ d ∈ t.dependencies,
      d.predecessor_uid ∈ order ∧
      order.indexOf d.predecessor_uid < order.indexOf t.uid) :
    ∀ (rest done : List ℤ) (acc : List (ℤ × ScheduledTask)),
      order = done ++ rest →
      acc.map Prod.fst = done →
      ∃ out, forwardGo c tasks ps rest acc = .ok out ∧
        out.map Prod.fst = order := by
  intro rest
  induction rest with
  | nil =>
    intro done acc hsplit hacc
    exact ⟨acc, rfl, by rw [hacc, hsplit, List.append_nil]⟩
  | cons uid rest2 ih =>
    intro done acc hsplit hacc
    have huid_mem : uid ∈ order := by
      rw [hsplit]
      exact List.mem_append.mpr (Or.inr (List.mem_cons_self _ _))
    obtain ⟨spec, hspec, hspec_mem, hspec_uid⟩ := lookupTask_isSome (hmemo uid huid_mem)
    unfold forwardGo
    rw [hspec]
    simp only []
    have huid_nin : uid ∉ done := by
      intro hin
      rw [hsplit] at hndo
      exact (List.disjoint_of_nodup_append hndo) hin (List.mem_cons_self _ _)
    have hidx_uid : order.indexOf uid = done.length := by
      rw [hsplit, indexOf_append_right _ huid_nin, List.indexOf_cons_self]
      omega
    have hdeps : ∀ d ∈ spec.dependencies, ∀ st, ∃ q,
        depMerge c spec acc st d = .ok q := by
      intro d hd st
      have hpre := hprec spec hspec_mem (hspec_uid ▸ huid_mem) d hd
      apply depMerge_ok _ (hrel spec hspec_mem d hd)
      rw [hacc]
      have hplt : order.indexOf d.predecessor_uid < done.length := by
        rw [← hidx_uid, ← hspec_uid]
        exact hpre.2
      have hmem2 : d.predecessor_uid ∈ done ++ uid :: rest2 := by
        rw [← hsplit]
        exact hpre.1
      have hidx2 : (done ++ uid :: rest2).indexOf d.predecessor_uid < done.length := by
        rw [← hsplit]
        exact hplt
      exact mem_prefix_of_indexOf_lt hmem2 hidx2
    obtain ⟨st, hst⟩ := @forwardTask_ok c spec acc ps hdeps
    rw [hst]
    simp only [Except.bind]
    apply ih (done ++ [uid]) (acc ++ [(uid, st)])
    · rw [hsplit, List.append_assoc]
      rfl
    · rw [List.map_append, hacc]
      rfl

theorem forward_pass_ok (c : WorkCalendar) (tasks : List TaskSpec) (ps : ℚ)
    (order : List ℤ) (hndo : order.Nodup)
    (hmemo : ∀ u ∈ order, u ∈ uidsOf tasks)
    (hrel : ∀ t ∈ tasks, ∀ d ∈ t.dependencies,
      relUpper d.relation_type = "FS" ∨ relUpper d.relation_type = "SS" ∨
      relUpper d.relation_type = "FF" ∨ relUpper d.relation_type = "SF")
    (hprec : ∀ t ∈ tasks, t.uid ∈ order → ∀ d ∈ t.dependencies,
      d.predecessor_uid ∈ order ∧
      order.indexOf d.predecessor_uid < order.indexOf t.uid) :
    ∃ out, forward_pass c order tasks ps = .ok out ∧
      out.map Prod.fst = order := by
  unfold forward_pass
  exact forwardGo_ok c tasks ps order hndo hmemo hrel hprec order [] [] rfl rfl

theorem bwCandidate_ok {c : WorkCalendar} {task : ScheduledTask}
    {sch : List (ℤ × ScheduledTask)} {pr : ℤ × DependencySpec}
    (hlk : pr.1 ∈ sch.map Prod.fst) :
    ∃ v, bwCandidate c task sch pr = .ok v := by
  obtain ⟨succ, hsucc⟩ := lookup_isSome hlk
  unfold bwCandidate
  rw [hsucc]
  exact ⟨_, rfl⟩

theorem backwardTask_ok {c : WorkCalendar} {tasks : List TaskSpec}
    {sch : List (ℤ × ScheduledTask)} {pf : ℚ} {uid : ℤ}
    (hlk : uid ∈ sch.map Prod.fst)
    (hsucc : ∀ pr ∈ successorsOf tasks uid, pr.1 ∈ sch.map Prod.fst) :
    ∃ out, backwardTask c tasks sch pf uid = .ok out ∧
      out.map Prod.fst = sch.map Prod.fst := by
  obtain ⟨task, htask⟩ := lookup_isSome hlk
  unfold backwardTask
  rw [htask]
  simp only []
  by_cases hemp : (successorsOf tasks uid).isEmpty
  · rw [if_pos hemp]
    exact ⟨_, rfl, updateSched_keys _ _ _⟩
  · rw [if_neg hemp]
    obtain ⟨cands, hcands, hlen⟩ := @mapE_ok (ℤ × DependencySpec) ℚ
      (bwCandidate c task sch) (successorsOf tasks uid)
      (fun pr hpr => bwCandidate_ok (hsucc pr hpr))
    rw [hcands]
    simp only [Except.bind]
    cases hc : cands with
    | nil =>
      rw [hc] at hlen
      have : (successorsOf tasks uid).length ≠ 0 := by
        intro h0
        rw [List.length_eq_zero] at h0
        rw [h0] at hemp
        simp at hemp
      simp at hlen
      exact absurd hlen.symm this
    | cons x xs =>
      exact ⟨_, rfl, updateSched_keys _ _ _⟩

theorem backwardGo_ok (c : WorkCalendar) (tasks : List TaskSpec) (pf : ℚ) :
    ∀ (l : List ℤ) (sch : List (ℤ × ScheduledTask)),
      (∀ u ∈ l, u ∈ sch.map Prod.fst) →
      (∀ v ∈ uidsOf tasks, v ∈ sch.map Prod.fst) →
      ∃ out, backwardGo c tasks pf l sch = .ok out ∧
        out.map Prod.fst = sch.map Prod.fst := by
  intro l
  induction l with
  | nil =>
    intro sch _ _
    exact ⟨sch, rfl, rfl⟩
  | cons uid rest ih =>
    intro sch hl huids
    obtain ⟨out1, hout1, hkeys1⟩ := @backwardTask_ok c tasks sch pf uid
      (hl uid (List.mem_cons_self uid rest))
      (fun pr hpr => huids pr.1 (successorsOf_fst_mem hpr))
    unfold backwardGo
    rw [hout1]
    simp only [Except.bind]
    obtain ⟨out, hout, hkeys⟩ := ih out1
      (fun u hu => hkeys1 ▸ hl u (List.mem_cons_of_mem _ hu))
      (fun v hv => hkeys1 ▸ huids v hv)
    exact ⟨out, hout, hkeys.trans hkeys1⟩

theorem backward_pass_ok (c : WorkCalendar) (tasks : List TaskSpec)
    (order : List ℤ) (sch : List (ℤ × ScheduledTask))
    (hne : sch ≠ [])
    (horder : ∀ u ∈ order, u ∈ sch.map Prod.fst)
    (huids : ∀ v ∈ uidsOf tasks, v ∈ sch.map Prod.fst) :
    ∃ out, backward_pass c order tasks sch = .ok out ∧
      out.map Prod.fst = sch.map Prod.fst := by
  unfold backward_pass
  cases sch with
  | nil => exact absurd rfl hne
  | cons p rest =>
    rw [List.map_cons]
    simp only [maximumOfList, Except.bind]
    exact backwardGo_ok c tasks _ order.reverse (p :: rest)
      (fun u hu => horder u (List.mem_reverse.mp hu)) huids

theorem maximumOfList_ok {l : List ℚ} (h : l ≠ []) :
    ∃ m, maximumOfList l = .ok m := by
  cases l with
  | nil => exact absurd rfl h
  | cons x xs => exact ⟨_, rfl⟩

theorem calculate_schedule_ok (task_specs : List TaskSpec)
    (project_start : Option ℚ) (calendar : Option WorkCalendar) (now : ℚ)
    (hne : task_specs ≠ [])
    (hnd : (uidsOf task_specs).Nodup)
    (hrel : ∀ t ∈ task_specs, ∀ d ∈ t.dependencies,
      relUpper d.relation_type = "FS" ∨ relUpper d.relation_type = "SS" ∨
      relUpper d.relation_type = "FF" ∨ relUpper d.relation_type = "SF") :
    ∃ r, calculate_schedule task_specs project_start calendar now = .ok r ∧
      r.dependency_issues =
        (remove_missing_dependencies task_specs (uidsOf task_specs)).2 ∧
      r.cycle_resolutions =
        (resolve_cycles
          (remove_missing_dependencies task_specs (uidsOf task_specs)).1).2 := by
  have h_uids_pr : uidsOf (remove_missing_dependencies task_specs
      (uidsOf task_specs)).1 = uidsOf task_specs :=
    uidsOf_remove_missing task_specs (uidsOf task_specs)
  have hnd_pr : (uidsOf (remove_missing_dependencies task_specs
      (uidsOf task_specs)).1).Nodup := by
    rw [h_uids_pr]
    exact hnd
  obtain ⟨hloop, hacy, hcount, h_uids_rc⟩ := resolve_cycles_props hnd_pr
  have h_uids2 : uidsOf (resolve_cycles (remove_missing_dependencies task_specs
      (uidsOf task_specs)).1).1 = uidsOf task_specs := by
    rw [h_uids_rc, h_uids_pr]
  have hnd2 : (uidsOf (resolve_cycles (remove_missing_dependencies task_specs
      (uidsOf task_specs)).1).1).Nodup := by
    rw [h_uids2]
    exact hnd
  have hdsub := resolveLoop_deps_sub _ _ _ hnd_pr hloop
  have hpred2 : ∀ t ∈ (resolve_cycles (remove_missing_dependencies task_specs
      (uidsOf task_specs)).1).1, ∀ d ∈ t.dependencies,
      d.predecessor_uid ∈ uidsOf (resolve_cycles (remove_missing_dependencies
        task_specs (uidsOf task_specs)).1).1 := by
    intro t ht d hd
    obtain ⟨t0, ht0, hd0⟩ := hdsub t ht d hd
    rw [h_uids2]
    exact remove_missing_pred_mem task_specs (uidsOf task_specs) t0 ht0 d hd0
  have hrel2 : ∀ t ∈ (resolve_cycles (remove_missing_dependencies task_specs
      (uidsOf task_specs)).1).1, ∀ d ∈ t.dependencies,
      relUpper d.relation_type = "FS" ∨ relUpper d.relation_type = "SS" ∨
      relUpper d.relation_type = "FF" ∨ relUpper d.relation_type = "SF" := by
    intro t ht d hd
    obtain ⟨t0, ht0, hd0⟩ := hdsub t ht d hd
    obtain ⟨t1, ht1, hd1⟩ := remove_missing_deps_sub task_specs (uidsOf task_specs)
      t0 ht0 d hd0
    exact hrel t1 ht1 d hd1
  obtain ⟨order, htopo, hperm, hprec⟩ := topological_order_ok _ hnd2 hpred2 hacy
  have hndo : order.Nodup := by
    rw [List.Perm.nodup_iff hperm]
    exact hnd2
  have hmemo : ∀ u ∈ order, u ∈ uidsOf (resolve_cycles
      (remove_missing_dependencies task_specs (uidsOf task_specs)).1).1 :=
    fun u hu => hperm.mem_iff.mp hu
  have horder_ne : order ≠ [] := by
    intro h0
    have hlen := hperm.length_eq
    rw [h0, h_uids2] at hlen
    simp only [List.length_nil] at hlen
    have h1 : (uidsOf task_specs).length = task_specs.length := by simp [uidsOf]
    have h2 : task_specs.length = 0 := by omega
    exact hne (List.length_eq_zero.mp h2)
  have hprec2 : ∀ t ∈ (resolve_cycles (remove_missing_dependencies task_specs
      (uidsOf task_specs)).1).1, t.uid ∈ order → ∀ d ∈ t.dependencies,
      d.predecessor_uid ∈ order ∧
      order.indexOf d.predecessor_uid < order.indexOf t.uid := by
    intro t ht _ d hd
    exact ⟨hperm.mem_iff.mpr (hpred2 t ht d hd), hprec t ht d hd⟩
  obtain ⟨sched1, hfw, hfwkeys⟩ := forward_pass_ok (calendar.getD defaultCalendar)
    (resolve_cycles (remove_missing_dependencies task_specs (uidsOf task_specs)).1).1
    (align_start (calendar.getD defaultCalendar)
      (project_start.getD ((infer_project_start (resolve_cycles
        (remove_missing_dependencies task_specs (uidsOf task_specs)).1).1).getD now)))
    order hndo hmemo hrel2 hprec2
  have hsched1_ne : sched1 ≠ [] := by
    intro h0
    rw [h0] at hfwkeys
    exact horder_ne hfwkeys.symm
  obtain ⟨sched2, hbw, hbwkeys⟩ := backward_pass_ok (calendar.getD defaultCalendar)
    (resolve_cycles (remove_missing_dependencies task_specs (uidsOf task_specs)).1).1
    order sched1 hsched1_ne
    (fun u hu => by rw [hfwkeys]; exact hu)
    (fun v hv => by rw [hfwkeys]; exact hperm.mem_iff.mpr hv)
  have hsched2keys : sched2.map Prod.fst = order := by rw [hbwkeys, hfwkeys]
  have hsched2_ne : sched2.map (fun p => p.2.latest_finish) ≠ [] := by
    intro h0
    rw [List.map_eq_nil] at h0
    rw [h0] at hsched2keys
    exact horder_ne hsched2keys.symm
  obtain ⟨pf, hpf⟩ := maximumOfList_ok hsched2_ne
  obtain ⟨ordered, hmapE, _⟩ := @mapE_ok ℤ ScheduledTask
    (fun uid => match List.lookup uid sched2 with
      | some t => Except.ok t
      | none => Except.error ("KeyError: " ++ toString uid))
    order
    (by
      intro uid hu
      have : uid ∈ sched2.map Prod.fst := by rw [hsched2keys]; exact hu
      obtain ⟨v, hv⟩ := lookup_isSome this
      exact ⟨v, by simp only [hv]⟩)
  refine ⟨ScheduleResult.mk
    (align_start (calendar.getD defaultCalendar)
      (project_start.getD ((infer_project_start (resolve_cycles
        (remove_missing_dependencies task_specs (uidsOf task_specs)).1).1).getD now)))
    pf ordered
    (resolve_cycles (remove_missing_dependencies task_specs (uidsOf task_specs)).1).2
    (remove_missing_dependencies task_specs (uidsOf task_specs)).2, ?_, rfl, rfl⟩
  simp only [calculate_schedule, clone_tasks_eq]
  rw [ensureTaskLookup_ok hnd hne]
  simp only [Except.bind]
  rw [htopo]
  simp only [Except.bind]
  rw [hfw]
  simp only [Except.bind]
  rw [hbw]
  simp only [Except.bind]
  rw [hpf]
  simp only [Except.bind]
  rw [hmapE]
  rfl

theorem remove_missing_issue_mem (tasks : List TaskSpec) (uids : List ℤ)
    {t : TaskSpec} (ht : t ∈ tasks) {d : DependencySpec}
    (hd : d ∈ t.dependencies) (hno : d.predecessor_uid ∉ uids) :
    (⟨t.uid, t.name, ⟨d.predecessor_uid, d.relation_type, d.lag_days⟩,
      "Missing predecessor task"⟩ : DependencyIssue) ∈
      (remove_missing_dependencies tasks uids).2 := by
  unfold remove_missing_dependencies
  simp only
  rw [List.mem_flatMap]
  refine ⟨t, ht, ?_⟩
  rw [List.mem_map]
  exact ⟨d, List.mem_filter.mpr ⟨hd, by simpa using hno⟩, rfl⟩

/-!
## The claims
-/

/-- C1 (corrected): in every ok result of `calculate_schedule`, a task
whose constraint is not an effective Must-Finish-On satisfies
`earliest_finish = add_work_duration(earliest_start, duration_days)`
exactly; the MFO case is excluded (see `mfo_breaks_finish_identity`). -/
theorem forward_finish_identity
    {specs : List TaskSpec} {ps : Option ℚ} {cal : Option WorkCalendar} {now : ℚ}
    {r : ScheduleResult} (h : calculate_schedule specs ps cal now = .ok r) :
    ∀ t ∈ r.tasks, ¬ isMFO t.spec →
      t.earliest_finish =
        add_work_duration (cal.getD defaultCalendar) t.earliest_start
          t.spec.duration_days :=
  calculate_schedule_finish_shape h

theorem forward_finish_identity_witness :
    calculate_schedule w1tasks (some 8) none 0 = .ok rW ∧
    ∀ t ∈ rW.tasks, ¬ isMFO t.spec →
      t.earliest_finish =
        add_work_duration ((none : Option WorkCalendar).getD defaultCalendar)
          t.earliest_start t.spec.duration_days :=
  ⟨by decide, @forward_finish_identity w1tasks (some 8) none 0 rW (by decide)⟩

theorem mfo_breaks_finish_identity :
    (calculate_schedule [mfoTask] (some 8) none 0).map
      (fun r => r.tasks.map (fun t => (t.earliest_start, t.earliest_finish))) =
      .ok [(113, 113)] ∧
    add_work_duration defaultCalendar 113 0 = 176 ∧ (113 : ℚ) ≠ 176 :=
  ⟨by decide, by decide, by norm_num⟩

/-- C2 (code bug): a Must-Start-On date at the project start on a task
with a finish-to-start predecessor drives the predecessor's latest dates
below its earliest dates: T1 gets `latest_start = −64 < 8 =
earliest_start` and `latest_finish = −55 < 17 = earliest_finish`. -/
theorem mso_conflict_negative_float :
    (calculate_schedule c2tasks (some 8) none 0).map
      (fun r => r.tasks.map (fun t =>
        (t.spec.uid, t.earliest_start, t.earliest_finish,
          t.latest_start, t.latest_finish))) =
      .ok [(1, 8, 17, -64, -55), (2, 8, 17, 8, 17)] ∧
    (-64 : ℚ) < 8 ∧ (-55 : ℚ) < 17 :=
  ⟨by decide, by norm_num, by norm_num⟩

/-- C3 (corrected): with the default calendar (9-hour workday), the
0.25-day start-to-start lag is 2.25 hours, so T2 starts Monday 10:15
(hour 41/4) and finishes Tuesday 10:15 (hour 137/4), not 10:00/10:00. -/
theorem ss_quarter_lag_schedule :
    (calculate_schedule c3tasks (some 8) none 0).map
      (fun r => r.tasks.map (fun t =>
        (t.spec.uid, t.earliest_start, t.earliest_finish))) =
      .ok [(1, 8, 17), (2, 41/4, 137/4)] := by
  decide

theorem ss_quarter_lag_not_ten_oclock :
    (calculate_schedule c3tasks (some 8) none 0).map
      (fun r => r.tasks.map (fun t =>
        (t.spec.uid, t.earliest_start, t.earliest_finish))) ≠
      .ok [(1, 8, 17), (2, 10, 34)] := by
  decide

/-- C4 (corrected): on a task list with pairwise-distinct uids the
cycle-resolution loop terminates with an acyclic graph and one
resolution per removed edge; with duplicated uids it can return a still
cyclic graph (see `resolve_cycles_dup_uid_counterexample`). -/
theorem resolve_cycles_terminates_acyclic (tasks : List TaskSpec)
    (hnd : (uidsOf tasks).Nodup) :
    Acyclic (resolve_cycles tasks).1 ∧
    totalDeps tasks =
      totalDeps (resolve_cycles tasks).1 + (resolve_cycles tasks).2.length := by
  obtain ⟨_, h1, h2, _⟩ := resolve_cycles_props hnd
  exact ⟨h1, h2⟩

theorem resolve_cycles_terminates_acyclic_witness :
    Acyclic (resolve_cycles c4cyc).1 ∧
    totalDeps c4cyc =
      totalDeps (resolve_cycles c4cyc).1 + (resolve_cycles c4cyc).2.length :=
  resolve_cycles_terminates_acyclic c4cyc (by decide)

theorem resolve_cycles_dup_uid_counterexample :
    resolve_cycles c4dup = (c4dup, []) ∧
    Relation.TransGen (Edge (resolve_cycles c4dup).1) 1 1 :=
  ⟨by decide,
   @Relation.TransGen.head ℤ (Edge (resolve_cycles c4dup).1) 1 2 1 (by decide)
     (Relation.TransGen.single (by decide))⟩

/-- C5 (confirmed): on an acyclic normalized task set with unique uids
and no dangling predecessors, `_topological_order` returns a permutation
of the task uids in which every retained dependency's predecessor
appears strictly before its successor. -/
theorem topological_order_correct (tasks : List TaskSpec)
    (hnd : (uidsOf tasks).Nodup)
    (hpred : ∀ t ∈ tasks, ∀ d ∈ t.dependencies, d.predecessor_uid ∈ uidsOf tasks)
    (hacy : Acyclic tasks) :
    ∃ order, topological_order tasks = Except.ok order ∧
      order.Perm (uidsOf tasks) ∧
      ∀ t ∈ tasks, ∀ d ∈ t.dependencies,
        order.indexOf d.predecessor_uid < order.indexOf t.uid :=
  topological_order_ok tasks hnd hpred hacy

theorem topological_order_correct_witness :
    ∃ order, topological_order w5tasks = Except.ok order ∧
      order.Perm (uidsOf w5tasks) ∧
      ∀ t ∈ w5tasks, ∀ d ∈ t.dependencies,
        order.indexOf d.predecessor_uid < order.indexOf t.uid :=
  topological_order_correct w5tasks (by decide) (by decide)
    (find_cycle_none_acyclic (by decide))

/-- C6 (corrected): on a nonempty task set with unique uids whose
dependency relation types all normalize to FS/SS/FF/SF,
`calculate_schedule` returns ok even with missing predecessors and
cycles, reporting each missing predecessor in `dependency_issues` and
one `cycle_resolutions` entry per removed edge; an unsupported relation
type still raises (see `unsupported_relation_type_raises`). -/
theorem calculate_schedule_soft_errors (task_specs : List TaskSpec)
    (project_start : Option ℚ) (calendar : Option WorkCalendar) (now : ℚ)
    (hne : task_specs ≠ []) (hnd : (uidsOf task_specs).Nodup)
    (hrel : ∀ t ∈ task_specs, ∀ d ∈ t.dependencies,
      relUpper d.relation_type = "FS" ∨ relUpper d.relation_type = "SS" ∨
      relUpper d.relation_type = "FF" ∨ relUpper d.relation_type = "SF") :
    ∃ r, calculate_schedule task_specs project_start calendar now = .ok r ∧
      (∀ t ∈ task_specs, ∀ d ∈ t.dependencies,
        d.predecessor_uid ∉ uidsOf task_specs →
        (⟨t.uid, t.name, ⟨d.predecessor_uid, d.relation_type, d.lag_days⟩,
          "Missing predecessor task"⟩ : DependencyIssue) ∈ r.dependency_issues) ∧
      totalDeps (remove_missing_dependencies task_specs (uidsOf task_specs)).1 =
        totalDeps (resolve_cycles (remove_missing_dependencies task_specs
          (uidsOf task_specs)).1).1 + r.cycle_resolutions.length := by
  obtain ⟨r, hok, hdi, hcr⟩ :=
    calculate_schedule_ok task_specs project_start calendar now hne hnd hrel
  refine ⟨r, hok, ?_, ?_⟩
  · intro t ht d hd hno
    rw [hdi]
    exact remove_missing_issue_mem task_specs (uidsOf task_specs) ht hd hno
  · have hnd_pr : (uidsOf (remove_missing_dependencies task_specs
        (uidsOf task_specs)).1).Nodup := by
      rw [uidsOf_remove_missing]
      exact hnd
    obtain ⟨_, _, hcount, _⟩ := resolve_cycles_props hnd_pr
    rw [hcr]
    exact hcount

theorem calculate_schedule_soft_errors_witness :
    ∃ r, calculate_schedule c6tasks (some 8) none 0 = .ok r ∧
      (∀ t ∈ c6tasks, ∀ d ∈ t.dependencies,
        d.predecessor_uid ∉ uidsOf c6tasks →
        (⟨t.uid, t.name, ⟨d.predecessor_uid, d.relation_type, d.lag_days⟩,
          "Missing predecessor task"⟩ : DependencyIssue) ∈ r.dependency_issues) ∧
      totalDeps (remove_missing_dependencies c6tasks (uidsOf c6tasks)).1 =
        totalDeps (resolve_cycles (remove_missing_dependencies c6tasks
          (uidsOf c6tasks)).1).1 + r.cycle_resolutions.length :=
  calculate_schedule_soft_errors c6tasks (some 8) none 0 (by decide) (by decide)
    (by decide)

theorem unsupported_relation_type_raises :
    calculate_schedule c6bad (some 8) none 0 =
      .error "Unsupported dependency type: XX" := by
  decide

/-- C7 (corrected): `parse_duration` accepts `N` or `N.dd` digits with a
REQUIRED unit among h, d, w, mo (1d = 8h, 1w = 40h, 1mo = 160h) and an
optional single trailing `?`, returning the exact hour value; a bare
number without a unit is rejected (see
`parse_duration_rejects_bare_number`). -/
theorem parse_duration_accepts_number_with_unit (ds1 ds2 : List Char) (q : Bool)
    (us : List Char) (k : ℚ)
    (h1 : ∀ c ∈ ds1, c ∈ digitChars) (h2 : ∀ c ∈ ds2, c ∈ digitChars)
    (hne : ds2 = [] → ds1 ≠ [])
    (hu : (us, k) ∈ [(['h'], (1 : ℚ)), (['d'], (8 : ℚ)), (['w'], (40 : ℚ)),
      (['m', 'o'], (160 : ℚ))]) :
    parse_duration ⟨ds1 ++ ((if ds2 = [] then [] else '.' :: ds2) ++
      (us ++ (if q then ['?'] else [])))⟩ =
    Except.ok ((digitsVal (ds1 ++ ds2) : ℚ) / (10 : ℚ) ^ ds2.length * k) :=
  parse_duration_wellformed ds1 ds2 q us k h1 h2 hne hu

theorem parse_duration_accepts_number_with_unit_witness :
    parse_duration ⟨['2'] ++ ((if (['5'] : List Char) = [] then [] else '.' :: ['5']) ++
      (['d'] ++ (if true then ['?'] else [])))⟩ =
    Except.ok ((digitsVal (['2'] ++ ['5']) : ℚ) /
      (10 : ℚ) ^ (['5'] : List Char).length * 8) :=
  parse_duration_accepts_number_with_unit ['2'] ['5'] true ['d'] 8
    (by decide) (by decide) (by decide) (by decide)

theorem parse_duration_rejects_bare_number :
    parse_duration "5" = .error "Invalid duration string: '5'" := by
  decide

/-- C8 (corrected): the round trip
`subtract_work_hours (add_work_hours t h) h = align_start t` holds when
the hours fit (with the 1e-9 tolerance margin) inside the first aligned
workday or are below tolerance; it fails when the addition crosses a day
boundary (see `roundtrip_crosses_day_counterexample`). -/
theorem roundtrip_within_workday {c : WorkCalendar} (hW : hasWorkday c = true)
    (t h : ℚ) (hh : 0 ≤ h)
    (hfit : h < eps ∨ h + eps ≤ c.workday_end - todOf (align_start c t)) :
    subtract_work_hours c (add_work_hours c t h) h = align_start c t :=
  roundtrip_same_day hW t h hh hfit

theorem roundtrip_within_workday_witness :
    subtract_work_hours defaultCalendar
      (add_work_hours defaultCalendar 8 4) 4 = align_start defaultCalendar 8 :=
  roundtrip_within_workday (by decide) 8 4 (by norm_num) (Or.inr (by decide))

theorem roundtrip_crosses_day_counterexample :
    subtract_work_hours defaultCalendar
      (add_work_hours defaultCalendar (17 - eps/4) (9 + eps/2)) (9 + eps/2) ≠
      align_start defaultCalendar (17 - eps/4) := by
  decide

/-- C9 (confirmed): in the object-store model, `_clone_tasks` allocates
only fresh cells (references at or beyond the original store length),
and any sequence of `dependencies` assignments confined to the clone
references leaves every original cell unchanged: the caller's
`TaskSpec` objects are never mutated. -/
theorem clone_tasks_no_mutation (store : List TaskSpec) (refs : List ℕ)
    (writes : List (ℕ × List DependencySpec))
    (hw : ∀ w ∈ writes, w.1 ∈ (clone_tasks_store store refs).2) :
    (∀ r ∈ (clone_tasks_store store refs).2, store.length ≤ r) ∧
    ∀ i, i < store.length →
      (writes.foldl (fun st w => setDeps st w.1 w.2)
        (clone_tasks_store store refs).1)[i]? = store[i]? :=
  clone_tasks_frame store refs writes hw

theorem clone_tasks_no_mutation_witness :
    (∀ r ∈ (clone_tasks_store c4cyc [0, 1]).2, c4cyc.length ≤ r) ∧
    ∀ i, i < c4cyc.length →
      ([((2 : ℕ), ([] : List DependencySpec)), (3, [⟨7, "FS", 0⟩])].foldl
        (fun st w => setDeps st w.1 w.2) (clone_tasks_store c4cyc [0, 1]).1)[i]? =
        c4cyc[i]? :=
  clone_tasks_no_mutation c4cyc [0, 1] [(2, []), (3, [⟨7, "FS", 0⟩])] (by decide)

/-- C10 (confirmed): on any calendar with a workday and at least one
non-weekend weekday, the five calendar operations terminate with their
total-model values; the constructor accepts the all-weekend calendar,
on which the fuelled searches return `none` for every fuel: the loops
never terminate. -/
theorem calendar_termination_dichotomy (c : WorkCalendar)
    (hW : hasWorkday c = true) (t h s f : ℚ) (hsf : s < f) :
    (alignStartO c t = some (align_start c t) ∧
     alignFinishO c t = some (align_finish c t) ∧
     (∃ fuel, addWorkHoursO c t h fuel = some (add_work_hours c t h)) ∧
     (∃ fuel, subWorkHoursO c t h fuel = some (subtract_work_hours c t h)) ∧
     workHoursBetweenO c s f = some (work_hours_between c s f)) ∧
    (mkWorkCalendar 8 17 [0, 1, 2, 3, 4, 5, 6] (by norm_num) (by norm_num)
        (by norm_num) (by norm_num) = .ok allWeekendCalendar ∧
     alignStartO allWeekendCalendar t = none ∧
     alignFinishO allWeekendCalendar t = none ∧
     (∀ fuel, addWorkHoursO allWeekendCalendar t h fuel = none) ∧
     (∀ fuel, subWorkHoursO allWeekendCalendar t h fuel = none) ∧
     workHoursBetweenO allWeekendCalendar s f = none) :=
  ⟨⟨alignStartO_eq hW t, alignFinishO_eq hW t, addWorkHoursO_eq hW t h,
    subWorkHoursO_eq hW t h, workHoursBetweenO_eq hW s f⟩,
   mk_accepts_allWeekend, alignStartO_allWeekend t, alignFinishO_allWeekend t,
   fun fuel => addWorkHoursO_allWeekend t h fuel,
   fun fuel => subWorkHoursO_allWeekend t h fuel,
   workHoursBetweenO_allWeekend s f hsf⟩

theorem calendar_termination_dichotomy_witness :
    (alignStartO defaultCalendar 0 = some (align_start defaultCalendar 0) ∧
     alignFinishO defaultCalendar 0 = some (align_finish defaultCalendar 0) ∧
     (∃ fuel, addWorkHoursO defaultCalendar 0 1 fuel =
       some (add_work_hours defaultCalendar 0 1)) ∧
     (∃ fuel, subWorkHoursO defaultCalendar 0 1 fuel =
       some (subtract_work_hours defaultCalendar 0 1)) ∧
     workHoursBetweenO defaultCalendar 0 1 =
       some (work_hours_between defaultCalendar 0 1)) ∧
    (mkWorkCalendar 8 17 [0, 1, 2, 3, 4, 5, 6] (by norm_num) (by norm_num)
        (by norm_num) (by norm_num) = .ok allWeekendCalendar ∧
     alignStartO allWeekendCalendar 0 = none ∧
     alignFinishO allWeekendCalendar 0 = none ∧
     (∀ fuel, addWorkHoursO allWeekendCalendar 0 1 fuel = none) ∧
     (∀ fuel, subWorkHoursO allWeekendCalendar 0 1 fuel = none) ∧
     workHoursBetweenO allWeekendCalendar 0 1 = none) :=
  calendar_termination_dichotomy defaultCalendar (by decide) 0 1 0 1 (by norm_num)

end

end CPS
